import Mathlib

/-!
Keyframe channel of the animation subsystem.

A shallow embedding of `libs/image/kis_keyframe_channel.cpp`, of the roles
`PreviousKeyframeTime` and `NextKeyframeTime` of `KisAnimationCurvesModel::data`
(`plugins/dockers/animation/kis_animation_curves_model.cpp`) and of the
geometry of `KisAnimationCurvesKeyframeDelegate`
(`plugins/dockers/animation/kis_animation_curves_keyframe_delegate.cpp`).

* `QMap<int, KisKeyframeSP>` is an association list whose keys are strictly
  ascending; a `const_iterator` is an index into that list and `constEnd()` is
  the length of the list.
* A `KisKeyframeSP` is a shared pointer: `none` is the null pointer and
  `some a` points to the keyframe object stored at address `a`.  Every
  insertion into the map dereferences the pointer first (`keyframe->time()`),
  so the map holds addresses, never null pointers.
* Times are C++ `int`s, embedded as `Int`.  `affectedFrames` computes
  `next.key() - 1`, which stays in range for every key above `INT_MIN`;
  `framesHash` adds the keys, and its sum wraps around at 32 bits
  (`wrapInt32`).
* A call without a defined result (`first()` on an empty map) yields `none`.
* The delegate's `float` and `qreal` coordinates are exact rationals; the
  conversion to `int` discards the fraction (`truncToInt`).
* `store` holds the keyframe objects by address; `createKeyframe` hands out
  the first unused address, as `new` returns an object distinct from every
  live one.
* Signals (`emit ...`), the undo command tree (`parentCommand`) and the
  rectangles of `affectedRect` are outside the model; a call of
  `requestUpdate` is recorded with the range it was given.
-/

namespace Krita

/-! ## QMap -/

/-- First position of an ascending entry list whose key exceeds `t`
(`QMap::upperBound`); the length of the list when there is none. -/
def upperBoundL {V : Type} : List (Int × V) → Int → Nat
  | [], _ => 0
  | e :: rest, t => if t < e.1 then 0 else upperBoundL rest t + 1

/-- Position of the entry stored under key `t` (`QMap::constFind`); the length
of the list when there is none. -/
def constFindL {V : Type} : List (Int × V) → Int → Nat
  | [], _ => 0
  | e :: rest, t => if e.1 = t then 0 else constFindL rest t + 1

/-- Ordered insertion (`QMap::insert`): an entry already stored under the key
has its value replaced. -/
def insertL {V : Type} : List (Int × V) → Int → V → List (Int × V)
  | [], k, v => [(k, v)]
  | e :: rest, k, v =>
    if k < e.1 then (k, v) :: e :: rest
    else if k = e.1 then (k, v) :: rest
    else e :: insertL rest k v

/-- Removal of every entry stored under the key (`QMap::remove`). -/
def removeL {V : Type} (l : List (Int × V)) (k : Int) : List (Int × V) :=
  l.filter (fun e => decide (e.1 ≠ k))

/-- The map `QMap<int, V>`: its entries in iteration order, which is strictly
ascending in the key. -/
structure QMap (V : Type) where
  entries : List (Int × V)
  ordered : entries.Pairwise (fun a b => a.1 < b.1)

namespace QMap

variable {V : Type}

/-- The map without entries. -/
def empty : QMap V := ⟨[], List.Pairwise.nil⟩

def count (m : QMap V) : Nat := m.entries.length

def isEmpty (m : QMap V) : Bool := m.entries.isEmpty

def constBegin (_m : QMap V) : Nat := 0

def constEnd (m : QMap V) : Nat := m.entries.length

def upperBound (m : QMap V) (t : Int) : Nat := upperBoundL m.entries t

def constFind (m : QMap V) (t : Int) : Nat := constFindL m.entries t

/-- Key under an iterator (`i.key()`); the source only reads it after comparing
the iterator with `constEnd()`, the fallback 0 is never used by it. -/
def key (m : QMap V) (i : Nat) : Int := ((m.entries.get? i).map Prod.fst).getD 0

/-- Value under an iterator (`i.value()`), as a possibly-null pointer. -/
def value (m : QMap V) (i : Nat) : Option V := (m.entries.get? i).map Prod.snd

def insert (m : QMap V) (k : Int) (v : V) : QMap V :=
  ⟨insertL m.entries k v, by
    have h := m.ordered
    generalize m.entries = l at h
    induction l with
    | nil => simp [insertL]
    | cons e rest ih =>
      rw [List.pairwise_cons] at h
      have hmem : ∀ x ∈ insertL rest k v, x = (k, v) ∨ x ∈ rest := by
        clear ih h
        induction rest with
        | nil => intro x hx; simpa [insertL] using hx
        | cons f r ihr =>
          intro x hx
          unfold insertL at hx
          split_ifs at hx with h1 h2
          · rcases List.mem_cons.1 hx with hx | hx
            · exact Or.inl hx
            · exact Or.inr hx
          · rcases List.mem_cons.1 hx with hx | hx
            · exact Or.inl hx
            · exact Or.inr (List.mem_cons_of_mem _ hx)
          · rcases List.mem_cons.1 hx with hx | hx
            · exact Or.inr (hx ▸ List.mem_cons_self _ _)
            · rcases ihr x hx with hx | hx
              · exact Or.inl hx
              · exact Or.inr (List.mem_cons_of_mem _ hx)
      unfold insertL
      split_ifs with h1 h2
      · refine List.pairwise_cons.2 ⟨?_, List.pairwise_cons.2 h⟩
        intro x hx
        rcases List.mem_cons.1 hx with hx | hx
        · subst hx; exact h1
        · exact lt_trans h1 (h.1 x hx)
      · refine List.pairwise_cons.2 ⟨?_, h.2⟩
        intro x hx
        have := h.1 x hx
        simpa [h2] using this
      · refine List.pairwise_cons.2 ⟨?_, ih h.2⟩
        intro x hx
        rcases hmem x hx with hx | hx
        · subst hx
          show e.1 < k
          omega
        · exact h.1 x hx⟩

def remove (m : QMap V) (k : Int) : QMap V :=
  ⟨removeL m.entries k, List.Pairwise.filter _ m.ordered⟩

end QMap

/-! ## Time ranges and keyframe objects -/

/-- Modelled from the spec: `KisTimeRange` (kis_time_range.h is not among the
sources).  A range is either the frames `start .. end` (`fromTime`) or every
frame from `start` on (`infinite`). -/
inductive KisTimeRange where
  | fromTime (start : Int) (last : Int)
  | infinite (start : Int)
  deriving DecidableEq, Repr

/-- Modelled from the spec: `KisTimeRange::contains`, membership of a frame in
a range. -/
def KisTimeRange.contains : KisTimeRange → Int → Bool
  | .fromTime s e, t => decide (s ≤ t) && decide (t ≤ e)
  | .infinite s, t => decide (s ≤ t)

/-- Modelled from the spec: `KisTimeRange::start`, the first frame of a
range. -/
def KisTimeRange.start : KisTimeRange → Int
  | .fromTime s _ => s
  | .infinite s => s

/-- Modelled from the spec: the interpolation modes of a keyframe
(kis_keyframe.h is not among the sources). -/
inductive InterpolationMode where
  | Constant
  | Linear
  | Bezier
  deriving DecidableEq, Repr

/-- The part of a keyframe object the channel reads and writes. -/
structure KisKeyframe where
  time : Int
  interpolationMode : InterpolationMode
  deriving DecidableEq, Repr

/-- A shared pointer to a keyframe: `none` is null, `some a` an address. -/
abbrev KisKeyframeSP := Option Nat

/-! ## The channel -/

/-- State of a channel (`KisKeyframeChannel::Private`) together with the
keyframe objects its pointers refer to.
`store a` is the object at address `a`, addresses below `allocated` are in use,
and `requested` lists the ranges given to `requestUpdate`, oldest first. -/
structure KisKeyframeChannel where
  keys : QMap Nat
  id : String
  store : Nat → KisKeyframe
  allocated : Nat
  requested : List KisTimeRange

namespace KisKeyframeChannel

/-- The call `keyframe->time()` on a non-null pointer. -/
def time (c : KisKeyframeChannel) (keyframe : Nat) : Int := (c.store keyframe).time

/-- The call `keyframe->setTime(t)`. -/
def setTime (c : KisKeyframeChannel) (keyframe : Nat) (t : Int) : KisKeyframeChannel :=
  { c with store := fun a => if a = keyframe then { c.store a with time := t } else c.store a }

def keyframeCount (c : KisKeyframeChannel) : Int := c.keys.count

def keyframeAt (c : KisKeyframeChannel) (time : Int) : KisKeyframeSP :=
  let i := c.keys.constFind time
  if i ≠ c.keys.constEnd then c.keys.value i else none

def activeKeyIterator (c : KisKeyframeChannel) (time : Int) : Nat :=
  let i := c.keys.upperBound time
  if i = c.keys.constBegin then c.keys.constEnd else i - 1

def activeKeyframeAt (c : KisKeyframeChannel) (time : Int) : KisKeyframeSP :=
  let i := c.activeKeyIterator time
  if i ≠ c.keys.constEnd then c.keys.value i else none

def affectedFrames (c : KisKeyframeChannel) (time : Int) : KisTimeRange :=
  if c.keys.isEmpty then KisTimeRange.infinite 0
  else
    let active := c.activeKeyIterator time
    let fromNext : Int × Nat :=
      if active = c.keys.constEnd then (0, c.keys.constBegin)
      else (c.keys.key active, active + 1)
    if fromNext.2 = c.keys.constEnd then KisTimeRange.infinite fromNext.1
    else KisTimeRange.fromTime fromNext.1 (c.keys.key fromNext.2 - 1)

/-- The call `requestUpdate(range, rect)`: the range is recorded. -/
def requestUpdate (c : KisKeyframeChannel) (range : KisTimeRange) : KisKeyframeChannel :=
  { c with requested := c.requested ++ [range] }

def insertKeyframeLogical (c : KisKeyframeChannel) (keyframe : Nat) : KisKeyframeChannel :=
  let time := c.time keyframe
  let c1 := { c with keys := c.keys.insert time keyframe }
  let range := c1.affectedFrames time
  c1.requestUpdate range

def removeKeyframeLogical (c : KisKeyframeChannel) (keyframe : Nat) : KisKeyframeChannel :=
  let range := c.affectedFrames (c.time keyframe)
  let c1 := { c with keys := c.keys.remove (c.time keyframe) }
  c1.requestUpdate range

/-- Returns the keyframe found at `time` and the channel after the call.
`Q_ASSERT` is compiled out of release builds and has no effect here. -/
def replaceKeyframeAt (c : KisKeyframeChannel) (time : Int) (newKeyframe : KisKeyframeSP) :
    KisKeyframeSP × KisKeyframeChannel :=
  let existingKeyframe := c.keyframeAt time
  let c1 := match existingKeyframe with
    | some e => c.removeKeyframeLogical e
    | none => c
  let c2 := match newKeyframe with
    | some n => c1.insertKeyframeLogical n
    | none => c1
  (existingKeyframe, c2)

/-- Both `KIS_ASSERT_RECOVER_RETURN` guards return without doing anything. -/
def moveKeyframeImpl (c : KisKeyframeChannel) (keyframe : KisKeyframeSP) (newTime : Int) :
    KisKeyframeChannel :=
  match keyframe with
  | none => c
  | some k =>
    if (c.keyframeAt newTime).isSome then c
    else
      let rangeSrc := c.affectedFrames (c.time k)
      let c1 := { c with keys := c.keys.remove (c.time k) }
      let c2 := c1.setTime k newTime
      let c3 := { c2 with keys := c2.keys.insert newTime k }
      let rangeDst := c3.affectedFrames (c3.time k)
      (c3.requestUpdate rangeSrc).requestUpdate rangeDst

/-- Modelled from the spec: `createKeyframe` is pure virtual in the channel and
its overrides are not among the sources.  It yields a new keyframe object at
the requested time (a copy of `copySrc` when that is non-null) and leaves the
map alone.  The new object takes the first unused address. -/
def createKeyframe (c : KisKeyframeChannel) (time : Int) (copySrc : KisKeyframeSP) :
    Nat × KisKeyframeChannel :=
  let obj : KisKeyframe := match copySrc with
    | some s => { c.store s with time := time }
    | none => { time := time, interpolationMode := InterpolationMode.Constant }
  (c.allocated,
    { c with
      store := fun a => if a = c.allocated then obj else c.store a
      allocated := c.allocated + 1 })

/-- Modelled from the spec: `destroyKeyframe` is pure virtual in the channel and
its overrides are not among the sources.  It releases the content owned by the
keyframe; the map and the keyframe object itself are not touched. -/
def destroyKeyframe (c : KisKeyframeChannel) (_keyframe : Nat) : KisKeyframeChannel := c

/-- Modelled from the spec: `KisReplaceKeyframeCommand::redo`
(kis_keyframe_commands.cpp is not among the sources) applies
`replaceKeyframeAt(time, keyframe)` and keeps the result for its undo. -/
def replaceKeyframeCommandRedo (c : KisKeyframeChannel) (time : Int) (keyframe : KisKeyframeSP) :
    KisKeyframeChannel :=
  (c.replaceKeyframeAt time keyframe).2

/-- Modelled from the spec: `KisMoveFrameCommand::redo`
(kis_keyframe_commands.cpp is not among the sources) applies
`moveKeyframeImpl(keyframe, newTime)`. -/
def moveFrameCommandRedo (c : KisKeyframeChannel) (keyframe : KisKeyframeSP) (newTime : Int) :
    KisKeyframeChannel :=
  c.moveKeyframeImpl keyframe newTime

/-- The body of `deleteKeyframeImpl` for `recreate == false`.  The source's
recursion `deleteKeyframeImpl -> addKeyframe -> insertKeyframe ->
deleteKeyframeImpl(.., false)` ends at this call, which cannot reach
`addKeyframe`. -/
def deleteKeyframeImplFalse (c : KisKeyframeChannel) (keyframe : Nat) :
    Bool × KisKeyframeChannel :=
  let c1 := c.replaceKeyframeCommandRedo (c.time keyframe) none
  let c2 := c1.destroyKeyframe keyframe
  (true, c2)

def insertKeyframe (c : KisKeyframeChannel) (time : Int) (copySrc : KisKeyframeSP) :
    KisKeyframeSP × KisKeyframeChannel :=
  let keyframe := c.keyframeAt time
  let c1 := match keyframe with
    | some k => (c.deleteKeyframeImplFalse k).2
    | none => c
  let created := c1.createKeyframe time copySrc
  let c3 := created.2.replaceKeyframeCommandRedo (created.2.time created.1) (some created.1)
  (some created.1, c3)

def addKeyframe (c : KisKeyframeChannel) (time : Int) : KisKeyframeSP × KisKeyframeChannel :=
  c.insertKeyframe time none

def copyKeyframe (c : KisKeyframeChannel) (keyframe : KisKeyframeSP) (newTime : Int) :
    KisKeyframeSP × KisKeyframeChannel :=
  c.insertKeyframe newTime keyframe

def deleteKeyframeImpl (c : KisKeyframeChannel) (keyframe : Nat) (recreate : Bool) :
    Bool × KisKeyframeChannel :=
  let c1 := c.replaceKeyframeCommandRedo (c.time keyframe) none
  let c2 := c1.destroyKeyframe keyframe
  let c3 := if recreate && decide (c2.time keyframe = 0) then (c2.addKeyframe 0).2 else c2
  (true, c3)

def deleteKeyframe (c : KisKeyframeChannel) (keyframe : Nat) : Bool × KisKeyframeChannel :=
  c.deleteKeyframeImpl keyframe true

def moveKeyframe (c : KisKeyframeChannel) (keyframe : Nat) (newTime : Int) :
    Bool × KisKeyframeChannel :=
  if newTime = c.time keyframe then (false, c)
  else
    let other := c.keyframeAt newTime
    let c1 := match other with
      | some o => (c.deleteKeyframeImpl o false).2
      | none => c
    let srcTime := c1.time keyframe
    let c2 := c1.moveFrameCommandRedo (some keyframe) newTime
    let c3 := if srcTime = 0 then (c2.addKeyframe srcTime).2 else c2
    (true, c3)

/-! ## Invariants and reference definitions -/

/-- Every entry of the map is stored under the time of its keyframe. -/
def KeyTimeConsistent (c : KisKeyframeChannel) : Prop :=
  ∀ e ∈ c.keys.entries, c.time e.2 = e.1

instance (c : KisKeyframeChannel) : Decidable c.KeyTimeConsistent :=
  inferInstanceAs (Decidable (∀ e ∈ c.keys.entries, c.time e.2 = e.1))

/-- Every keyframe of the map is an object in use. -/
def StoredAllocated (c : KisKeyframeChannel) : Prop :=
  ∀ e ∈ c.keys.entries, e.2 < c.allocated

instance (c : KisKeyframeChannel) : Decidable c.StoredAllocated :=
  inferInstanceAs (Decidable (∀ e ∈ c.keys.entries, e.2 < c.allocated))

/-- Least element of a list of times, if any. -/
def leastTime : List Int → Option Int
  | [] => none
  | x :: rest => match leastTime rest with
    | none => some x
    | some y => some (if x ≤ y then x else y)

/-- The affected range as the specification words it: infinite from 0 on a
channel without keyframes; otherwise from the time of the keyframe active at
`t` (from 0 when there is none) to one frame before the time of the next
keyframe, infinite when no later keyframe exists. -/
def affectedFramesSpec (c : KisKeyframeChannel) (t : Int) : KisTimeRange :=
  if c.keyframeCount = 0 then KisTimeRange.infinite 0
  else
    let start : Int := match c.activeKeyframeAt t with
      | some k => c.time k
      | none => 0
    let later := (c.keys.entries.map (fun e => c.time e.2)).filter (fun x => decide (t < x))
    match leastTime later with
    | none => KisTimeRange.infinite start
    | some n => KisTimeRange.fromTime start (n - 1)

/-- A small channel used to evaluate the operations: keyframes at times 0, 10
and 20, stored at addresses 0, 1 and 2. -/
def sampleChannel : KisKeyframeChannel where
  keys := ⟨[(0, 0), (10, 1), (20, 2)], by decide⟩
  id := "opacity"
  store := fun a => { time := 10 * (a : Int), interpolationMode := InterpolationMode.Constant }
  allocated := 3
  requested := []

/-! ## Neighbours, hash, identical frames and external copies -/

/-- The call `m_d->keys.first()`.  `QMap::first()` requires a non-empty map: on
an empty map it reads through `begin() == end()`, which has no defined result
(`none`).  Otherwise the result is the pointer of the first entry. -/
def firstKeyframe (c : KisKeyframeChannel) : Option KisKeyframeSP :=
  match c.keys.entries with
  | [] => none
  | e :: _ => some (some e.2)

def nextKeyframe (c : KisKeyframeChannel) (keyframe : Nat) : KisKeyframeSP :=
  let i := c.keys.constFind (c.time keyframe)
  if i = c.keys.constEnd then none
  else
    let i1 := i + 1
    if i1 = c.keys.constEnd then none else c.keys.value i1

def previousKeyframe (c : KisKeyframeChannel) (keyframe : Nat) : KisKeyframeSP :=
  let i := c.keys.constFind (c.time keyframe)
  if i = c.keys.constBegin ∨ i = c.keys.constEnd then none
  else c.keys.value (i - 1)

/-- Arithmetic of a 32-bit `int`: the sum wraps around in two's complement. -/
def wrapInt32 (x : Int) : Int := (x + 2147483648) % 4294967296 - 2147483648

/-- The values of a 32-bit `int`. -/
def inInt32 (x : Int) : Prop := -2147483648 ≤ x ∧ x < 2147483648

instance (x : Int) : Decidable (inInt32 x) :=
  inferInstanceAs (Decidable (-2147483648 ≤ x ∧ x < 2147483648))

/-- Sum of the keys of an entry list, without wrap-around. -/
def keySum {V : Type} (l : List (Int × V)) : Int := (l.map Prod.fst).sum

/-- The loop `hash += it.key()` over the map, in `int` arithmetic. -/
def framesHash (c : KisKeyframeChannel) : Int :=
  c.keys.entries.foldl (fun hash e => wrapInt32 (hash + e.1)) 0

/-- The call `active->data()->interpolationMode()`. -/
def interpolationMode (c : KisKeyframeChannel) (keyframe : Nat) : InterpolationMode :=
  (c.store keyframe).interpolationMode

/-- The iterator `active` is dereferenced only after the comparison with
`constEnd()`, so `value active` is a keyframe there. -/
def identicalFrames (c : KisKeyframeChannel) (time : Int) : KisTimeRange :=
  let active := c.activeKeyIterator time
  if active ≠ c.keys.constEnd ∧ active + 1 ≠ c.keys.constEnd then
    match c.keys.value active with
    | some a =>
      if c.interpolationMode a ≠ InterpolationMode.Constant then KisTimeRange.fromTime time time
      else c.affectedFrames time
    | none => c.affectedFrames time
  else c.affectedFrames time

/-- Modelled from the spec: `uploadExternalKeyframe` is pure virtual in the
channel and its overrides are not among the sources.  It copies the content of
the source channel's frame into the new keyframe; the map and the keyframe's
time are not touched. -/
def uploadExternalKeyframe (c : KisKeyframeChannel) (_srcChannel : KisKeyframeChannel)
    (_srcTime : Int) (_dstFrame : Nat) : KisKeyframeChannel := c

/-- The source channel is read only for its id; the warning printed when the
ids differ is not modelled. -/
def copyExternalKeyframe (c : KisKeyframeChannel) (srcChannel : KisKeyframeChannel)
    (srcTime dstTime : Int) : KisKeyframeSP × KisKeyframeChannel :=
  if srcChannel.id ≠ c.id then (none, c)
  else
    let dstFrame := c.keyframeAt dstTime
    let c1 := match dstFrame with
      | some d => (c.deleteKeyframeImpl d false).2
      | none => c
    let created := c1.createKeyframe dstTime none
    let c2 := created.2.uploadExternalKeyframe srcChannel srcTime created.1
    let c3 := c2.replaceKeyframeCommandRedo (c2.time created.1) (some created.1)
    (some created.1, c3)

/-! ## First and last keyframe, rows -/

def lastKeyframe (c : KisKeyframeChannel) : KisKeyframeSP :=
  if c.keys.isEmpty then none
  else c.keys.value (c.keys.constEnd - 1)

/-- The loop of `keyframeRowIndexOf` from an iterator on, with the row counted
so far; the raw pointer `it.value().data()` is compared with `keyframe`. -/
def rowIndexOfL : List (Int × Nat) → KisKeyframeSP → Int → Int
  | [], _, _ => -1
  | e :: rest, keyframe, row =>
    if some e.2 = keyframe then row else rowIndexOfL rest keyframe (row + 1)

def keyframeRowIndexOf (c : KisKeyframeChannel) (keyframe : KisKeyframeSP) : Int :=
  rowIndexOfL c.keys.entries keyframe 0

/-- The loop of `keyframeAtRow` from an iterator on, with the rows still to
skip. -/
def keyframeAtRowL : List (Int × Nat) → Int → KisKeyframeSP
  | [], _ => none
  | e :: rest, row => if row ≤ 0 then some e.2 else keyframeAtRowL rest (row - 1)

def keyframeAtRow (c : KisKeyframeChannel) (row : Int) : KisKeyframeSP :=
  keyframeAtRowL c.keys.entries row

/-- Set of frames of a range is part of the set of frames of another. -/
def rangeWithin (r q : KisTimeRange) : Prop := ∀ u, r.contains u = true → q.contains u = true

/-- A channel with keyframes at times 10 and 20 only; the object at address 0
has time 0 and is not stored. -/
def lateChannel : KisKeyframeChannel where
  keys := ⟨[(10, 1), (20, 2)], by decide⟩
  id := "opacity"
  store := fun a => { time := 10 * (a : Int), interpolationMode := InterpolationMode.Constant }
  allocated := 3
  requested := []

/-- A channel without keyframes. -/
def emptyChannel : KisKeyframeChannel where
  keys := QMap.empty
  id := "opacity"
  store := fun a => { time := 10 * (a : Int), interpolationMode := InterpolationMode.Constant }
  allocated := 0
  requested := []

/-- Keyframes at times 0 and 10 with linear interpolation. -/
def linearChannel : KisKeyframeChannel where
  keys := ⟨[(0, 0), (10, 1)], by decide⟩
  id := "opacity"
  store := fun a => { time := 10 * (a : Int), interpolationMode := InterpolationMode.Linear }
  allocated := 2
  requested := []

/-- Keyframes at times 5 and 6 with constant interpolation. -/
def adjacentChannel : KisKeyframeChannel where
  keys := ⟨[(5, 0), (6, 1)], by decide⟩
  id := "opacity"
  store := fun a => { time := 5 + (a : Int), interpolationMode := InterpolationMode.Constant }
  allocated := 2
  requested := []

end KisKeyframeChannel

/-! ## The curves model -/

/-- The values `data` returns for the two roles embedded here: an invalid
(empty) `QVariant` or one holding an `int`. -/
inductive QVariant where
  | invalid
  | int (v : Int)
  deriving DecidableEq, Repr

structure QModelIndex where
  row : Int
  column : Int

/-- The roles of `KisAnimationCurvesModel::data` embedded here. -/
inductive CurvesRole where
  | PreviousKeyframeTime
  | NextKeyframeTime
  deriving DecidableEq, Repr

/-- State `KisAnimationCurvesModel::Private`: the channels shown, each with the
outcome of `dynamic_cast<KisScalarKeyframeChannel*>` (true: a scalar channel). -/
structure KisAnimationCurvesModel where
  channels : List (KisKeyframeChannel × Bool)

namespace KisAnimationCurvesModel

def getChannelAt (m : KisAnimationCurvesModel) (index : QModelIndex) :
    Option (KisKeyframeChannel × Bool) :=
  let row := index.row
  if row < 0 ∨ row ≥ m.channels.length then none
  else m.channels.get? row.toNat

/-- The roles `PreviousKeyframeTime` and `NextKeyframeTime` of `data`.  The
result is `none` where the call has no defined result.  `baseData` stands for
`KisTimeBasedItemModel::data(index, role)`, which is not among the sources. -/
def data (m : KisAnimationCurvesModel) (index : QModelIndex) (role : CurvesRole)
    (baseData : QVariant) : Option QVariant :=
  match m.getChannelAt index with
  | some (channel, true) =>
    let time := index.column
    match role with
    | CurvesRole.PreviousKeyframeTime =>
      match channel.activeKeyframeAt time with
      | none => some QVariant.invalid
      | some active =>
        if channel.time active < time then some (QVariant.int (channel.time active))
        else
          match channel.previousKeyframe active with
          | none => some QVariant.invalid
          | some previous => some (QVariant.int (channel.time previous))
    | CurvesRole.NextKeyframeTime =>
      match channel.activeKeyframeAt time with
      | none =>
        match channel.firstKeyframe with
        | none => none
        | some first =>
          match first with
          | some f =>
            if channel.time f > time then some (QVariant.int (channel.time f))
            else some QVariant.invalid
          | none => some QVariant.invalid
      | some active =>
        match channel.nextKeyframe active with
        | none => some QVariant.invalid
        | some next => some (QVariant.int (channel.time next))
  | _ => some baseData

end KisAnimationCurvesModel

/-! ## The keyframe delegate of the curves view -/

/-- A point with real coordinates (`QPointF`); coordinates are exact
rationals. -/
structure QPointF where
  x : ℚ
  y : ℚ

/-- Sum of two points (`operator+` of `QPointF`). -/
def QPointF.add (p q : QPointF) : QPointF := ⟨p.x + q.x, p.y + q.y⟩

/-- A rectangle with integer coordinates as `QRect(topLeft, bottomRight)` builds
it: both corners belong to the rectangle. -/
structure QRect where
  x1 : Int
  y1 : Int
  x2 : Int
  y2 : Int
  deriving DecidableEq, Repr

/-- Modelled from the spec: a point with real coordinates lies in a rectangle
when each coordinate lies between those of the two corners. -/
def QRect.containsF (r : QRect) (p : QPointF) : Prop :=
  (r.x1 : ℚ) ≤ p.x ∧ p.x ≤ (r.x2 : ℚ) ∧ (r.y1 : ℚ) ≤ p.y ∧ p.y ≤ (r.y2 : ℚ)

/-- Conversion of a real to `int`: the fraction is discarded (truncation toward
zero). -/
def truncToInt (q : ℚ) : Int := if 0 ≤ q then ⌊q⌋ else ⌈q⌉

def NODE_RENDER_RADIUS : Int := 2

/-- The functions of `TimelineRulerHeader` the delegate calls; the class is not
among the sources, so they are parameters. -/
structure TimelineRulerHeader where
  logicalIndex : Int → Int
  sectionViewportPosition : Int → Int
  sectionSize : Int → Int
  defaultSectionSize : Int

/-- The functions of `KisAnimationCurvesValueRuler` the delegate calls; the
class is not among the sources, so they are parameters. -/
structure KisAnimationCurvesValueRuler where
  mapValueToView : ℚ → ℚ
  scaleFactor : ℚ

/-- What `index.data(role)` yields for the roles the delegate reads:
`ScalarValueRole`, `LeftTangentRole` and `RightTangentRole`. -/
structure IndexData where
  scalarValue : ℚ
  leftTangent : QPointF
  rightTangent : QPointF

/-- State `KisAnimationCurvesKeyframeDelegate::Private`. -/
structure KisAnimationCurvesKeyframeDelegate where
  horizontalRuler : TimelineRulerHeader
  verticalRuler : KisAnimationCurvesValueRuler
  selectionOffset : QPointF

namespace KisAnimationCurvesKeyframeDelegate

def nodeCenter (d : KisAnimationCurvesKeyframeDelegate) (index : QModelIndex)
    (data : IndexData) (selected : Bool) : QPointF :=
  let section_ := d.horizontalRuler.logicalIndex index.column
  let x : Int := d.horizontalRuler.sectionViewportPosition section_
    + (d.horizontalRuler.sectionSize section_).tdiv 2
  let value := data.scalarValue
  let y := d.verticalRuler.mapValueToView value
  let center : QPointF := ⟨(x : ℚ), y⟩
  if selected then center.add d.selectionOffset else center

def leftHandle (d : KisAnimationCurvesKeyframeDelegate) (data : IndexData) : QPointF :=
  let tangent := data.leftTangent
  let x := tangent.x * (d.horizontalRuler.defaultSectionSize : ℚ)
  let y := tangent.y * d.verticalRuler.scaleFactor
  ⟨x, y⟩

def rightHandle (d : KisAnimationCurvesKeyframeDelegate) (data : IndexData) : QPointF :=
  let tangent := data.rightTangent
  let x := tangent.x * (d.horizontalRuler.defaultSectionSize : ℚ)
  let y := tangent.y * d.verticalRuler.scaleFactor
  ⟨x, y⟩

def visualRect (d : KisAnimationCurvesKeyframeDelegate) (index : QModelIndex)
    (data : IndexData) : QRect :=
  let center := d.nodeCenter index data false
  let leftHandlePos := center.add (d.leftHandle data)
  let rightHandlePos := center.add (d.rightHandle data)
  let minX := truncToInt (min center.x leftHandlePos.x - (NODE_RENDER_RADIUS : ℚ))
  let maxX := truncToInt (max center.x rightHandlePos.x + (NODE_RENDER_RADIUS : ℚ))
  let minY := truncToInt
    (min center.y (min leftHandlePos.y rightHandlePos.y) - (NODE_RENDER_RADIUS : ℚ))
  let maxY := truncToInt
    (max center.y (max leftHandlePos.y rightHandlePos.y) + (NODE_RENDER_RADIUS : ℚ))
  ⟨minX, minY, maxX, maxY⟩

/-- A delegate whose columns are 10 wide and whose value ruler maps a value to
itself. -/
def sampleDelegate : KisAnimationCurvesKeyframeDelegate where
  horizontalRuler :=
    { logicalIndex := fun i => i
      sectionViewportPosition := fun i => 10 * i
      sectionSize := fun _ => 10
      defaultSectionSize := 10 }
  verticalRuler := { mapValueToView := fun v => v, scaleFactor := 1 }
  selectionOffset := ⟨0, 0⟩

/-- Index data whose right tangent points to the left: value 50, left tangent
(-1, 0), right tangent (-3, 0). -/
def leftwardData : IndexData where
  scalarValue := 50
  leftTangent := ⟨-1, 0⟩
  rightTangent := ⟨-3, 0⟩

/-- Index data with the left tangent pointing left and the right tangent
pointing right: value 50, left tangent (-1, 3), right tangent (2, -4). -/
def outwardData : IndexData where
  scalarValue := 50
  leftTangent := ⟨-1, 3⟩
  rightTangent := ⟨2, -4⟩

end KisAnimationCurvesKeyframeDelegate

/-! ## Entries under the iterators -/

/-- Entry under the iterator `constFind(t)`, if it is not `constEnd()`. -/
def findEntryL {V : Type} (l : List (Int × V)) (t : Int) : Option (Int × V) :=
  if constFindL l t ≠ l.length then l.get? (constFindL l t) else none

/-- Entry under the iterator that `activeKeyIterator` computes from
`upperBound(t)`, if it is not `constEnd()`. -/
def activeEntryL {V : Type} (l : List (Int × V)) (t : Int) : Option (Int × V) :=
  if upperBoundL l t = 0 then none else l.get? (upperBoundL l t - 1)

/-- Entry under the iterator `upperBound(t)`, if it is not `constEnd()`. -/
def nextEntryL {V : Type} (l : List (Int × V)) (t : Int) : Option (Int × V) :=
  l.get? (upperBoundL l t)

/-- The entry `e` has the greatest key not above `t`. -/
def IsActiveEntry {V : Type} (l : List (Int × V)) (t : Int) (e : Int × V) : Prop :=
  e ∈ l ∧ e.1 ≤ t ∧ ∀ x ∈ l, x.1 ≤ t → x.1 ≤ e.1

/-- The entry `e` has the least key above `t`. -/
def IsNextEntry {V : Type} (l : List (Int × V)) (t : Int) (e : Int × V) : Prop :=
  e ∈ l ∧ t < e.1 ∧ ∀ x ∈ l, t < x.1 → e.1 ≤ x.1

/-! ## Facts about the ordered entry list -/

section ListFacts

variable {V : Type}

theorem upperBoundL_le_length (l : List (Int × V)) (t : Int) :
    upperBoundL l t ≤ l.length := by
  induction l with
  | nil => simp [upperBoundL]
  | cons e rest ih =>
    unfold upperBoundL
    split_ifs
    · exact Nat.zero_le _
    · simpa using ih

theorem constFindL_le_length (l : List (Int × V)) (t : Int) :
    constFindL l t ≤ l.length := by
  induction l with
  | nil => simp [constFindL]
  | cons e rest ih =>
    unfold constFindL
    split_ifs
    · exact Nat.zero_le _
    · simpa using ih

theorem key_unique {l : List (Int × V)} (hl : l.Pairwise (fun a b => a.1 < b.1))
    {x y : Int × V} (hx : x ∈ l) (hy : y ∈ l) (hk : x.1 = y.1) : x = y := by
  induction l with
  | nil => simp at hx
  | cons e rest ih =>
    rw [List.pairwise_cons] at hl
    rcases List.mem_cons.1 hx with hx1 | hx1 <;> rcases List.mem_cons.1 hy with hy1 | hy1
    · rw [hx1, hy1]
    · have := hl.1 y hy1
      rw [hx1] at hk
      omega
    · have := hl.1 x hx1
      rw [hy1] at hk
      omega
    · exact ih hl.2 hx1 hy1

theorem findEntryL_cons (e : Int × V) (rest : List (Int × V)) (t : Int) :
    findEntryL (e :: rest) t = if e.1 = t then some e else findEntryL rest t := by
  unfold findEntryL
  by_cases h : e.1 = t
  · simp [constFindL, h]
  · simp [constFindL, h]

theorem findEntryL_eq_some_iff {l : List (Int × V)} (hl : l.Pairwise (fun a b => a.1 < b.1))
    (t : Int) (x : Int × V) : findEntryL l t = some x ↔ x ∈ l ∧ x.1 = t := by
  induction l with
  | nil => simp [findEntryL, constFindL]
  | cons e rest ih =>
    rw [List.pairwise_cons] at hl
    rw [findEntryL_cons]
    by_cases h : e.1 = t
    · simp only [h, if_true, Option.some.injEq, List.mem_cons]
      constructor
      · intro hx
        subst hx
        exact ⟨Or.inl rfl, h⟩
      · rintro ⟨hx | hx, hk⟩
        · exact hx.symm
        · have := hl.1 x hx
          omega
    · simp only [h, if_false, ih hl.2, List.mem_cons]
      constructor
      · rintro ⟨hx, hk⟩
        exact ⟨Or.inr hx, hk⟩
      · rintro ⟨hx | hx, hk⟩
        · subst hx
          exact absurd hk h
        · exact ⟨hx, hk⟩

theorem findEntryL_eq_none_iff (l : List (Int × V)) (t : Int) :
    findEntryL l t = none ↔ ∀ x ∈ l, x.1 ≠ t := by
  induction l with
  | nil => simp [findEntryL, constFindL]
  | cons e rest ih =>
    rw [findEntryL_cons]
    by_cases h : e.1 = t
    · simp [h]
    · simp [h, ih]

theorem activeEntryL_cons (e : Int × V) (rest : List (Int × V)) (t : Int) :
    activeEntryL (e :: rest) t =
      if t < e.1 then none
      else match activeEntryL rest t with
        | none => some e
        | some x => some x := by
  unfold activeEntryL
  by_cases h : t < e.1
  · simp [upperBoundL, h]
  · have hle := upperBoundL_le_length rest t
    rcases hn : upperBoundL rest t with _ | n
    · simp [upperBoundL, h, hn]
    · rw [hn] at hle
      have hlt : n < rest.length := by omega
      simp [upperBoundL, h, hn, List.getElem?_eq_getElem hlt]

theorem nextEntryL_cons (e : Int × V) (rest : List (Int × V)) (t : Int) :
    nextEntryL (e :: rest) t = if t < e.1 then some e else nextEntryL rest t := by
  unfold nextEntryL
  by_cases h : t < e.1
  · simp [upperBoundL, h]
  · simp [upperBoundL, h]

theorem activeEntryL_eq_none_iff {l : List (Int × V)}
    (hl : l.Pairwise (fun a b => a.1 < b.1)) (t : Int) :
    activeEntryL l t = none ↔ ∀ x ∈ l, t < x.1 := by
  induction l with
  | nil => simp [activeEntryL, upperBoundL]
  | cons e rest ih =>
    rw [List.pairwise_cons] at hl
    rw [activeEntryL_cons]
    by_cases h : t < e.1
    · simp only [h, if_true, true_iff]
      intro x hx
      rcases List.mem_cons.1 hx with hx1 | hx1
      · rw [hx1]; exact h
      · exact lt_trans h (hl.1 x hx1)
    · simp only [h, if_false]
      constructor
      · intro hn
        cases ha : activeEntryL rest t <;> simp [ha] at hn
      · intro hall
        exact absurd (hall e (List.mem_cons_self _ _)) h

theorem activeEntryL_isActive {l : List (Int × V)}
    (hl : l.Pairwise (fun a b => a.1 < b.1)) (t : Int) (e : Int × V)
    (h : activeEntryL l t = some e) : IsActiveEntry l t e := by
  induction l with
  | nil => simp [activeEntryL, upperBoundL] at h
  | cons f rest ih =>
    rw [List.pairwise_cons] at hl
    rw [activeEntryL_cons] at h
    by_cases hf : t < f.1
    · simp [hf] at h
    · simp only [hf, if_false] at h
      cases ha : activeEntryL rest t with
      | none =>
        rw [ha] at h
        simp only [Option.some.injEq] at h
        subst h
        have hnone := (activeEntryL_eq_none_iff hl.2 t).1 ha
        refine ⟨List.mem_cons_self _ _, by omega, ?_⟩
        intro x hx hxt
        rcases List.mem_cons.1 hx with hx1 | hx1
        · rw [hx1]
        · have := hnone x hx1
          omega
      | some y =>
        rw [ha] at h
        simp only [Option.some.injEq] at h
        subst h
        obtain ⟨hm, hle, hmax⟩ := ih hl.2 ha
        refine ⟨List.mem_cons_of_mem _ hm, hle, ?_⟩
        intro x hx hxt
        rcases List.mem_cons.1 hx with hx1 | hx1
        · rw [hx1]
          exact le_of_lt (hl.1 y hm)
        · exact hmax x hx1 hxt

theorem activeEntryL_eq_some_iff {l : List (Int × V)}
    (hl : l.Pairwise (fun a b => a.1 < b.1)) (t : Int) (e : Int × V) :
    activeEntryL l t = some e ↔ IsActiveEntry l t e := by
  constructor
  · exact activeEntryL_isActive hl t e
  · rintro ⟨hm, hle, hmax⟩
    cases ha : activeEntryL l t with
    | none =>
      have := (activeEntryL_eq_none_iff hl t).1 ha e hm
      omega
    | some y =>
      obtain ⟨hm2, hle2, hmax2⟩ := activeEntryL_isActive hl t y ha
      have h1 := hmax y hm2 hle2
      have h2 := hmax2 e hm hle
      rw [key_unique hl hm2 hm (by omega)]

theorem nextEntryL_eq_none_iff (l : List (Int × V)) (t : Int) :
    nextEntryL l t = none ↔ ∀ x ∈ l, x.1 ≤ t := by
  induction l with
  | nil => simp [nextEntryL, upperBoundL]
  | cons e rest ih =>
    rw [nextEntryL_cons]
    by_cases h : t < e.1
    · simp only [h, if_true]
      constructor
      · intro hn; simp at hn
      · intro hall
        have := hall e (List.mem_cons_self _ _)
        omega
    · simp only [h, if_false, ih, List.mem_cons]
      constructor
      · intro hall x hx
        rcases hx with hx1 | hx1
        · rw [hx1]; omega
        · exact hall x hx1
      · intro hall x hx
        exact hall x (Or.inr hx)

theorem nextEntryL_isNext {l : List (Int × V)}
    (hl : l.Pairwise (fun a b => a.1 < b.1)) (t : Int) (e : Int × V)
    (h : nextEntryL l t = some e) : IsNextEntry l t e := by
  induction l with
  | nil => simp [nextEntryL, upperBoundL] at h
  | cons f rest ih =>
    rw [List.pairwise_cons] at hl
    rw [nextEntryL_cons] at h
    by_cases hf : t < f.1
    · simp only [hf, if_true, Option.some.injEq] at h
      subst h
      refine ⟨List.mem_cons_self _ _, hf, ?_⟩
      intro x hx _
      rcases List.mem_cons.1 hx with hx1 | hx1
      · rw [hx1]
      · exact le_of_lt (hl.1 x hx1)
    · simp only [hf, if_false] at h
      obtain ⟨hm, hlt, hmin⟩ := ih hl.2 h
      refine ⟨List.mem_cons_of_mem _ hm, hlt, ?_⟩
      intro x hx hxt
      rcases List.mem_cons.1 hx with hx1 | hx1
      · rw [hx1] at hxt
        exact absurd hxt hf
      · exact hmin x hx1 hxt

theorem mem_removeL (l : List (Int × V)) (k : Int) (x : Int × V) :
    x ∈ removeL l k ↔ x ∈ l ∧ x.1 ≠ k := by
  simp [removeL]

theorem mem_insertL {l : List (Int × V)} (hl : l.Pairwise (fun a b => a.1 < b.1))
    (k : Int) (v : V) (x : Int × V) :
    x ∈ insertL l k v ↔ x = (k, v) ∨ (x ∈ l ∧ x.1 ≠ k) := by
  induction l with
  | nil => simp [insertL]
  | cons e rest ih =>
    rw [List.pairwise_cons] at hl
    unfold insertL
    split_ifs with h1 h2
    · simp only [List.mem_cons]
      constructor
      · rintro (hx | hx | hx)
        · exact Or.inl hx
        · refine Or.inr ⟨Or.inl hx, ?_⟩
          rw [hx]; omega
        · refine Or.inr ⟨Or.inr hx, ?_⟩
          have := hl.1 x hx
          omega
      · rintro (hx | ⟨hx | hx, _⟩)
        · exact Or.inl hx
        · exact Or.inr (Or.inl hx)
        · exact Or.inr (Or.inr hx)
    · simp only [List.mem_cons]
      constructor
      · rintro (hx | hx)
        · exact Or.inl hx
        · refine Or.inr ⟨Or.inr hx, ?_⟩
          have := hl.1 x hx
          omega
      · rintro (hx | ⟨hx | hx, hk⟩)
        · exact Or.inl hx
        · rw [hx] at hk
          exact absurd h2.symm hk
        · exact Or.inr hx
    · simp only [List.mem_cons, ih hl.2]
      constructor
      · rintro (hx | hx | ⟨hx, hk⟩)
        · refine Or.inr ⟨Or.inl hx, ?_⟩
          rw [hx]
          exact fun h => h2 h.symm
        · exact Or.inl hx
        · exact Or.inr ⟨Or.inr hx, hk⟩
      · rintro (hx | ⟨hx | hx, hk⟩)
        · exact Or.inr (Or.inl hx)
        · exact Or.inl hx
        · exact Or.inr (Or.inr ⟨hx, hk⟩)

theorem leastTime_mem (l : List Int) (y : Int) (h : KisKeyframeChannel.leastTime l = some y) : y ∈ l := by
  induction l generalizing y with
  | nil => simp [KisKeyframeChannel.leastTime] at h
  | cons x rest ih =>
    unfold KisKeyframeChannel.leastTime at h
    cases hr : KisKeyframeChannel.leastTime rest with
    | none =>
      rw [hr] at h
      simp only [Option.some.injEq] at h
      rw [← h]
      exact List.mem_cons_self _ _
    | some z =>
      rw [hr] at h
      simp only [Option.some.injEq] at h
      have hz := ih z hr
      split_ifs at h
      · rw [← h]; exact List.mem_cons_self _ _
      · rw [← h]; exact List.mem_cons_of_mem _ hz

theorem leastTime_later_eq {l : List (Int × V)} (hl : l.Pairwise (fun a b => a.1 < b.1))
    (t : Int) :
    KisKeyframeChannel.leastTime ((l.map Prod.fst).filter (fun x => decide (t < x))) =
      (nextEntryL l t).map Prod.fst := by
  induction l with
  | nil => simp [KisKeyframeChannel.leastTime, nextEntryL, upperBoundL]
  | cons e rest ih =>
    rw [List.pairwise_cons] at hl
    rw [nextEntryL_cons]
    by_cases h : t < e.1
    · simp only [List.map_cons, h, decide_True, List.filter_cons_of_pos, if_true, Option.map_some']
      unfold KisKeyframeChannel.leastTime
      cases hr : KisKeyframeChannel.leastTime (List.filter (fun x => decide (t < x)) (List.map Prod.fst rest)) with
      | none => rfl
      | some y =>
        have hy := leastTime_mem _ y hr
        rw [List.mem_filter, List.mem_map] at hy
        obtain ⟨⟨x, hx, hxy⟩, _⟩ := hy
        have := hl.1 x hx
        have hle : e.1 ≤ y := by omega
        simp [hle]
    · simp only [List.map_cons, h, decide_False, if_false]
      rw [List.filter_cons_of_neg (by simpa using h)]
      exact ih hl.2

end ListFacts

/-! ## Observers of the channel in terms of its entries -/

namespace KisKeyframeChannel

theorem keyframeAt_eq (c : KisKeyframeChannel) (t : Int) :
    c.keyframeAt t = (findEntryL c.keys.entries t).map Prod.snd := by
  unfold keyframeAt findEntryL QMap.constFind QMap.constEnd QMap.value
  by_cases h : constFindL c.keys.entries t = c.keys.entries.length
  · simp [h]
  · simp [h]

theorem keyframeAt_eq_some_iff (c : KisKeyframeChannel) (t : Int) (k : Nat) :
    c.keyframeAt t = some k ↔ (t, k) ∈ c.keys.entries := by
  rw [keyframeAt_eq, Option.map_eq_some']
  constructor
  · rintro ⟨x, hx, hk⟩
    obtain ⟨hm, ht⟩ := (findEntryL_eq_some_iff c.keys.ordered t x).1 hx
    have : x = (t, k) := Prod.ext ht hk
    rw [← this]
    exact hm
  · intro hm
    exact ⟨(t, k), (findEntryL_eq_some_iff c.keys.ordered t (t, k)).2 ⟨hm, rfl⟩, rfl⟩

theorem keyframeAt_eq_none_iff (c : KisKeyframeChannel) (t : Int) :
    c.keyframeAt t = none ↔ ∀ e ∈ c.keys.entries, e.1 ≠ t := by
  rw [keyframeAt_eq, Option.map_eq_none', findEntryL_eq_none_iff]

theorem activeKeyframeAt_eq (c : KisKeyframeChannel) (t : Int) :
    c.activeKeyframeAt t = (activeEntryL c.keys.entries t).map Prod.snd := by
  have hle := upperBoundL_le_length c.keys.entries t
  unfold activeKeyframeAt activeKeyIterator activeEntryL QMap.upperBound QMap.constBegin
    QMap.constEnd QMap.value
  by_cases h : upperBoundL c.keys.entries t = 0
  · simp [h]
  · have hne : upperBoundL c.keys.entries t - 1 ≠ c.keys.entries.length := by omega
    simp [h, hne]

theorem affectedFrames_eq (c : KisKeyframeChannel) (t : Int) :
    c.affectedFrames t =
      if c.keys.entries = [] then KisTimeRange.infinite 0
      else
        let start : Int := match activeEntryL c.keys.entries t with
          | some e => e.1
          | none => 0
        match nextEntryL c.keys.entries t with
        | none => KisTimeRange.infinite start
        | some n => KisTimeRange.fromTime start (n.1 - 1) := by
  have hle := upperBoundL_le_length c.keys.entries t
  unfold affectedFrames activeKeyIterator activeEntryL nextEntryL QMap.upperBound
    QMap.constBegin QMap.constEnd QMap.key QMap.isEmpty
  by_cases hnil : c.keys.entries = []
  · simp [hnil]
  · have hpos : 0 < c.keys.entries.length := List.length_pos.2 hnil
    simp only [List.isEmpty_iff, hnil, if_false]
    by_cases h : upperBoundL c.keys.entries t = 0
    · have hne : ¬ (0 = c.keys.entries.length) := by omega
      simp [h, hne, List.getElem?_eq_getElem hpos]
    · have hne : upperBoundL c.keys.entries t - 1 ≠ c.keys.entries.length := by omega
      have hlt : upperBoundL c.keys.entries t - 1 < c.keys.entries.length := by omega
      have hadd : upperBoundL c.keys.entries t - 1 + 1 = upperBoundL c.keys.entries t := by omega
      simp only [h, hne, if_false, hadd, List.get?_eq_getElem?, List.getElem?_eq_getElem hlt,
        Option.map_some', Option.getD_some]
      by_cases hend : upperBoundL c.keys.entries t = c.keys.entries.length
      · simp [hend]
      · have hlt2 : upperBoundL c.keys.entries t < c.keys.entries.length := by omega
        simp [hend, List.getElem?_eq_getElem hlt2]

theorem affectedFrames_contains_iff (c : KisKeyframeChannel) (T : Int) (a : Nat)
    (h : (T, a) ∈ c.keys.entries) (u : Int) :
    (c.affectedFrames T).contains u = true ↔ activeEntryL c.keys.entries u = some (T, a) := by
  have hnil : c.keys.entries ≠ [] := List.ne_nil_of_mem h
  have hact : activeEntryL c.keys.entries T = some (T, a) :=
    (activeEntryL_eq_some_iff c.keys.ordered T (T, a)).2 ⟨h, le_refl _, fun x _ hx => hx⟩
  rw [affectedFrames_eq, activeEntryL_eq_some_iff c.keys.ordered]
  simp only [hnil, if_false, hact]
  cases hn : nextEntryL c.keys.entries T with
  | none =>
    have hall := (nextEntryL_eq_none_iff c.keys.entries T).1 hn
    simp only [KisTimeRange.contains, decide_eq_true_eq]
    constructor
    · intro hTu
      exact ⟨h, hTu, fun x hx _ => hall x hx⟩
    · intro hact2
      exact hact2.2.1
  | some n =>
    obtain ⟨hnm, hTn, hmin⟩ := nextEntryL_isNext c.keys.ordered T n hn
    simp only [KisTimeRange.contains, Bool.and_eq_true, decide_eq_true_eq]
    constructor
    · rintro ⟨hTu, hun⟩
      refine ⟨h, hTu, ?_⟩
      intro x hx hxu
      by_contra hcon
      have := hmin x hx (by simpa using hcon)
      omega
    · rintro ⟨_, hTu, hmax⟩
      refine ⟨hTu, ?_⟩
      by_contra hcon
      have := hmax n hnm (by omega)
      simp only at this
      omega

/-- Two ordered entry lists that agree away from the key `T`, the second
holding `T` whenever the first does, have the same active entry at `u` unless
the active entry of the second is the one stored under `T`. -/
theorem activeEntryL_agree {V : Type} {l l2 : List (Int × V)}
    (hl : l.Pairwise (fun a b => a.1 < b.1)) (hl2 : l2.Pairwise (fun a b => a.1 < b.1))
    (T u : Int) (hagree : ∀ x : Int × V, x.1 ≠ T → (x ∈ l ↔ x ∈ l2))
    (hT : (∃ x ∈ l, x.1 = T) → ∃ x ∈ l2, x.1 = T)
    (hnot : ∀ y, activeEntryL l2 u = some y → y.1 ≠ T) :
    activeEntryL l u = activeEntryL l2 u := by
  cases ha : activeEntryL l2 u with
  | none =>
    have hall := (activeEntryL_eq_none_iff hl2 u).1 ha
    rw [activeEntryL_eq_none_iff hl]
    intro x hx
    by_cases hk : x.1 = T
    · obtain ⟨y, hy, hyT⟩ := hT ⟨x, hx, hk⟩
      have := hall y hy
      omega
    · exact hall x ((hagree x hk).1 hx)
  | some y =>
    obtain ⟨hm, hle, hmax⟩ := (activeEntryL_eq_some_iff hl2 u y).1 ha
    have hyT := hnot y ha
    rw [activeEntryL_eq_some_iff hl]
    refine ⟨(hagree y hyT).2 hm, hle, ?_⟩
    intro x hx hxu
    by_cases hk : x.1 = T
    · obtain ⟨z, hz, hzT⟩ := hT ⟨x, hx, hk⟩
      have := hmax z hz (by omega)
      omega
    · exact hmax x ((hagree x hk).1 hx) hxu

theorem affectedFrames_congr (c d : KisKeyframeChannel)
    (h : c.keys.entries = d.keys.entries) (t : Int) :
    c.affectedFrames t = d.affectedFrames t := by
  rw [affectedFrames_eq, affectedFrames_eq, h]

theorem moveKeyframeImpl_entries (c : KisKeyframeChannel) (k : Nat) (newTime : Int)
    (hfree : c.keyframeAt newTime = none) :
    (c.moveKeyframeImpl (some k) newTime).keys.entries =
      insertL (removeL c.keys.entries (c.time k)) newTime k := by
  simp [moveKeyframeImpl, hfree, requestUpdate, setTime, QMap.insert, QMap.remove]

theorem moveKeyframeImpl_store (c : KisKeyframeChannel) (k : Nat) (newTime : Int)
    (hfree : c.keyframeAt newTime = none) :
    (c.moveKeyframeImpl (some k) newTime).store =
      fun a => if a = k then { c.store a with time := newTime } else c.store a := by
  simp [moveKeyframeImpl, hfree, requestUpdate, setTime]

theorem moveKeyframeImpl_allocated (c : KisKeyframeChannel) (k : KisKeyframeSP)
    (newTime : Int) : (c.moveKeyframeImpl k newTime).allocated = c.allocated := by
  unfold moveKeyframeImpl
  cases k with
  | none => rfl
  | some a =>
    simp only
    split_ifs <;> rfl

theorem moveKeyframeImpl_requested (c : KisKeyframeChannel) (k : Nat) (newTime : Int)
    (hfree : c.keyframeAt newTime = none) :
    (c.moveKeyframeImpl (some k) newTime).requested =
      c.requested ++ [c.affectedFrames (c.time k),
        (c.moveKeyframeImpl (some k) newTime).affectedFrames newTime] := by
  have hdst : (c.moveKeyframeImpl (some k) newTime).affectedFrames newTime =
      ({ (c.setTime k newTime) with
          keys := (c.keys.remove (c.time k)).insert newTime k } :
        KisKeyframeChannel).affectedFrames newTime :=
    affectedFrames_congr _ _ (by rw [moveKeyframeImpl_entries c k newTime hfree]; rfl) _
  rw [hdst]
  simp [moveKeyframeImpl, hfree, requestUpdate, setTime, time]

theorem entries_ext {V : Type} {l l2 : List (Int × V)}
    (hl : l.Pairwise (fun a b => a.1 < b.1)) (hl2 : l2.Pairwise (fun a b => a.1 < b.1))
    (h : ∀ x, x ∈ l ↔ x ∈ l2) : l = l2 := by
  induction l generalizing l2 with
  | nil =>
    cases l2 with
    | nil => rfl
    | cons y r => exact absurd ((h y).2 (List.mem_cons_self _ _)) (List.not_mem_nil _)
  | cons e rest ih =>
    cases l2 with
    | nil => exact absurd ((h e).1 (List.mem_cons_self _ _)) (List.not_mem_nil _)
    | cons y r =>
      rw [List.pairwise_cons] at hl hl2
      have hey : e = y := by
        rcases List.mem_cons.1 ((h e).1 (List.mem_cons_self _ _)) with h1 | h1
        · exact h1
        · rcases List.mem_cons.1 ((h y).2 (List.mem_cons_self _ _)) with h2 | h2
          · exact h2.symm
          · have := hl.1 y h2
            have := hl2.1 e h1
            omega
      subst hey
      congr 1
      apply ih hl.2 hl2.2
      intro x
      constructor
      · intro hx
        rcases List.mem_cons.1 ((h x).1 (List.mem_cons_of_mem _ hx)) with h1 | h1
        · have := hl.1 x hx
          rw [h1] at this
          omega
        · exact h1
      · intro hx
        rcases List.mem_cons.1 ((h x).2 (List.mem_cons_of_mem _ hx)) with h1 | h1
        · have := hl2.1 x hx
          rw [h1] at this
          omega
        · exact h1

theorem QMap.ext_entries {V : Type} (m m2 : QMap V) (h : m.entries = m2.entries) : m = m2 := by
  cases m
  cases m2
  simp only at h
  subst h
  rfl

theorem removeL_of_not_mem {V : Type} (l : List (Int × V)) (k : Int)
    (h : ∀ x ∈ l, x.1 ≠ k) : removeL l k = l := by
  unfold removeL
  rw [List.filter_eq_self]
  intro x hx
  simpa using h x hx

theorem length_insertL_of_not_mem {V : Type} (l : List (Int × V)) (k : Int) (v : V)
    (h : ∀ x ∈ l, x.1 ≠ k) : (insertL l k v).length = l.length + 1 := by
  induction l with
  | nil => simp [insertL]
  | cons e rest ih =>
    unfold insertL
    split_ifs with h1 h2
    · simp
    · exact absurd h2.symm (h e (List.mem_cons_self _ _))
    · simp [ih (fun x hx => h x (List.mem_cons_of_mem _ hx))]

theorem length_removeL_of_mem {V : Type} {l : List (Int × V)}
    (hl : l.Pairwise (fun a b => a.1 < b.1)) (k : Int) (h : ∃ x ∈ l, x.1 = k) :
    (removeL l k).length + 1 = l.length := by
  induction l with
  | nil =>
    obtain ⟨x, hx, _⟩ := h
    exact absurd hx (List.not_mem_nil _)
  | cons e rest ih =>
    rw [List.pairwise_cons] at hl
    by_cases hk : e.1 = k
    · have hrest : removeL rest k = rest := by
        apply removeL_of_not_mem
        intro x hx
        have := hl.1 x hx
        omega
      have : removeL (e :: rest) k = removeL rest k := by
        simp [removeL, hk]
      rw [this, hrest]
      simp
    · have hcons : removeL (e :: rest) k = e :: removeL rest k := by
        simp [removeL, hk]
      rw [hcons]
      obtain ⟨x, hx, hxk⟩ := h
      rcases List.mem_cons.1 hx with h1 | h1
      · rw [h1] at hxk
        exact absurd hxk hk
      · simp [ih hl.2 ⟨x, h1, hxk⟩]

theorem keyframeAt_congr (c d : KisKeyframeChannel) (u : Int)
    (h : ∀ a, (u, a) ∈ c.keys.entries ↔ (u, a) ∈ d.keys.entries) :
    c.keyframeAt u = d.keyframeAt u := by
  apply Option.ext
  intro a
  rw [Option.mem_def, Option.mem_def, keyframeAt_eq_some_iff, keyframeAt_eq_some_iff]
  exact h a

theorem replaceKeyframeAt_entries_of (c : KisKeyframeChannel) (t : Int) (n : KisKeyframeSP)
    (hold : ∀ e, c.keyframeAt t = some e → c.time e = t)
    (hn : ∀ a, n = some a → c.time a = t) :
    (c.replaceKeyframeAt t n).2.keys.entries =
      match n with
      | some a => insertL (removeL c.keys.entries t) t a
      | none => removeL c.keys.entries t := by
  cases he : c.keyframeAt t with
  | none =>
    have hrem : removeL c.keys.entries t = c.keys.entries :=
      removeL_of_not_mem _ _ ((keyframeAt_eq_none_iff c t).1 he)
    cases n with
    | none => simp [replaceKeyframeAt, he, hrem]
    | some a =>
      have ha := hn a rfl
      simp [replaceKeyframeAt, he, hrem, insertKeyframeLogical, requestUpdate, QMap.insert, ha]
  | some e =>
    have hte : c.time e = t := hold e he
    cases n with
    | none =>
      simp [replaceKeyframeAt, he, removeKeyframeLogical, requestUpdate, QMap.remove, hte]
    | some a =>
      have ha := hn a rfl
      have ha2 : (c.removeKeyframeLogical e).time a = t := ha
      simp [replaceKeyframeAt, he, insertKeyframeLogical, requestUpdate, QMap.insert, ha2]
      simp [removeKeyframeLogical, requestUpdate, QMap.remove, hte]

theorem replaceKeyframeAt_entries (c : KisKeyframeChannel) (hc : c.KeyTimeConsistent)
    (t : Int) (n : KisKeyframeSP) (hn : ∀ a, n = some a → c.time a = t) :
    (c.replaceKeyframeAt t n).2.keys.entries =
      match n with
      | some a => insertL (removeL c.keys.entries t) t a
      | none => removeL c.keys.entries t :=
  replaceKeyframeAt_entries_of c t n
    (fun e he => hc (t, e) ((keyframeAt_eq_some_iff c t e).1 he)) hn

theorem replaceKeyframeAt_store (c : KisKeyframeChannel) (t : Int) (n : KisKeyframeSP) :
    (c.replaceKeyframeAt t n).2.store = c.store ∧
      (c.replaceKeyframeAt t n).2.allocated = c.allocated ∧
      (c.replaceKeyframeAt t n).2.id = c.id := by
  unfold replaceKeyframeAt
  cases c.keyframeAt t <;> cases n <;> exact ⟨rfl, rfl, rfl⟩

theorem deleteKeyframeImpl_false (c : KisKeyframeChannel) (k : Nat) :
    c.deleteKeyframeImpl k false = c.deleteKeyframeImplFalse k := by
  simp [deleteKeyframeImpl, deleteKeyframeImplFalse]

theorem deleteKeyframeImplFalse_eq (c : KisKeyframeChannel) (k : Nat) :
    c.deleteKeyframeImplFalse k = (true, (c.replaceKeyframeAt (c.time k) none).2) := rfl

/-- State after `insertKeyframe(t, copySrc)` when the keyframe found at `t`,
if any, has time `t`: the new keyframe takes the first unused address and is
stored under `t`. -/
theorem insertKeyframe_result (c : KisKeyframeChannel) (t : Int) (src : KisKeyframeSP)
    (hold : ∀ e, c.keyframeAt t = some e → c.time e = t) :
    (c.insertKeyframe t src).1 = some c.allocated ∧
    (c.insertKeyframe t src).2.keys.entries =
      insertL (removeL c.keys.entries t) t c.allocated ∧
    (c.insertKeyframe t src).2.time c.allocated = t ∧
    (∀ a, a ≠ c.allocated → (c.insertKeyframe t src).2.store a = c.store a) ∧
    (c.insertKeyframe t src).2.allocated = c.allocated + 1 := by
  have hc1 : ∃ c1 : KisKeyframeChannel,
      (match c.keyframeAt t with
        | some k => (c.deleteKeyframeImplFalse k).2
        | none => c) = c1 ∧
      c1.keys.entries = removeL c.keys.entries t ∧ c1.store = c.store ∧
      c1.allocated = c.allocated := by
    refine ⟨_, rfl, ?_⟩
    cases he : c.keyframeAt t with
    | none =>
      exact ⟨(removeL_of_not_mem _ _ ((keyframeAt_eq_none_iff c t).1 he)).symm, rfl, rfl⟩
    | some e =>
      have hte := hold e he
      simp only [deleteKeyframeImplFalse_eq, hte]
      refine ⟨?_, (replaceKeyframeAt_store c t none).1, (replaceKeyframeAt_store c t none).2.1⟩
      rw [replaceKeyframeAt_entries_of c t none hold (by simp)]
  obtain ⟨c1, hc1eq, hent, hstore, halloc⟩ := hc1
  have hl1 : (removeL c.keys.entries t).Pairwise (fun a b => a.1 < b.1) :=
    (c.keys.remove t).ordered
  have hnone : (c1.createKeyframe t src).2.keyframeAt t = none := by
    rw [keyframeAt_eq_none_iff]
    intro e he
    have he2 : e ∈ c1.keys.entries := he
    rw [hent] at he2
    exact ((mem_removeL _ _ _).1 he2).2
  have htime : (c1.createKeyframe t src).2.time (c1.createKeyframe t src).1 = t := by
    cases src <;> simp [createKeyframe, time]
  have hfinal : (c.insertKeyframe t src).2 =
      (c1.createKeyframe t src).2.insertKeyframeLogical (c1.createKeyframe t src).1 := by
    unfold insertKeyframe
    simp only [hc1eq, replaceKeyframeCommandRedo, htime]
    simp only [replaceKeyframeAt, hnone]
  have hfst : (c.insertKeyframe t src).1 = some (c1.createKeyframe t src).1 := by
    unfold insertKeyframe
    simp only [hc1eq]
  have haddr : (c1.createKeyframe t src).1 = c.allocated := halloc
  refine ⟨by rw [hfst, haddr], ?_, ?_, ?_, ?_⟩
  · rw [hfinal]
    show insertL (c1.createKeyframe t src).2.keys.entries
      ((c1.createKeyframe t src).2.time (c1.createKeyframe t src).1)
      (c1.createKeyframe t src).1 = _
    rw [htime, haddr]
    show insertL c1.keys.entries t c.allocated = _
    rw [hent]
  · rw [hfinal, ← haddr]
    exact htime
  · intro a ha
    rw [hfinal]
    show (c1.createKeyframe t src).2.store a = c.store a
    rw [← hstore]
    have ha2 : a ≠ c1.allocated := by rw [halloc]; exact ha
    simp [createKeyframe, ha2]
  · rw [hfinal]
    show c1.allocated + 1 = c.allocated + 1
    rw [halloc]

/-! ## Active keyframe and affected range -/

/-- C1: `activeKeyframeAt(t)` returns the keyframe stored under the greatest key
not above `t`, and the null keyframe exactly when no key is `<= t`.  On a channel
whose entries are stored under their keyframes' times the same holds with
`time()` in place of the key: the result is the stored keyframe whose time is
the greatest keyframe time `<= t`, and it is null exactly when no keyframe has
time `<= t`. -/
theorem activeKeyframeAt_greatest_time_not_above (c : KisKeyframeChannel) (t : Int) :
    (∀ k, c.activeKeyframeAt t = some k ↔
      ∃ key, (key, k) ∈ c.keys.entries ∧ key ≤ t ∧
        ∀ e ∈ c.keys.entries, e.1 ≤ t → e.1 ≤ key) ∧
    (c.activeKeyframeAt t = none ↔ ∀ e ∈ c.keys.entries, ¬ e.1 ≤ t) ∧
    (c.KeyTimeConsistent →
      (∀ k, c.activeKeyframeAt t = some k ↔
        (∃ e ∈ c.keys.entries, e.2 = k) ∧ c.time k ≤ t ∧
          ∀ e ∈ c.keys.entries, c.time e.2 ≤ t → c.time e.2 ≤ c.time k) ∧
      (c.activeKeyframeAt t = none ↔ ∀ e ∈ c.keys.entries, ¬ c.time e.2 ≤ t)) := by
  have hsome : ∀ k, c.activeKeyframeAt t = some k ↔
      ∃ key, (key, k) ∈ c.keys.entries ∧ key ≤ t ∧
        ∀ e ∈ c.keys.entries, e.1 ≤ t → e.1 ≤ key := by
    intro k
    rw [activeKeyframeAt_eq, Option.map_eq_some']
    constructor
    · rintro ⟨x, hx, hk⟩
      have hact := (activeEntryL_eq_some_iff c.keys.ordered t x).1 hx
      refine ⟨x.1, ?_, hact.2.1, hact.2.2⟩
      rw [← hk]
      exact hact.1
    · rintro ⟨key, hm, hle, hmax⟩
      exact ⟨(key, k), (activeEntryL_eq_some_iff c.keys.ordered t (key, k)).2 ⟨hm, hle, hmax⟩, rfl⟩
  have hnone : c.activeKeyframeAt t = none ↔ ∀ e ∈ c.keys.entries, ¬ e.1 ≤ t := by
    rw [activeKeyframeAt_eq, Option.map_eq_none', activeEntryL_eq_none_iff c.keys.ordered]
    constructor
    · intro h e he
      have := h e he
      omega
    · intro h e he
      have := h e he
      omega
  refine ⟨hsome, hnone, ?_⟩
  intro hc
  constructor
  · intro k
    rw [hsome]
    constructor
    · rintro ⟨key, hm, hle, hmax⟩
      have hk : c.time k = key := hc (key, k) hm
      refine ⟨⟨(key, k), hm, rfl⟩, by omega, ?_⟩
      intro e he het
      rw [hc e he] at het ⊢
      rw [hk]
      exact hmax e he het
    · rintro ⟨⟨e, he, hek⟩, hle, hmax⟩
      have hk : c.time k = e.1 := by rw [← hek]; exact hc e he
      refine ⟨e.1, ?_, by omega, ?_⟩
      · rw [← hek]
        exact he
      · intro x hx hxt
        have := hmax x hx (by rw [hc x hx]; exact hxt)
        rw [hc x hx, hk] at this
        exact this
  · rw [hnone]
    constructor
    · intro h e he
      rw [hc e he]
      exact h e he
    · intro h e he
      have := h e he
      rw [hc e he] at this
      exact this

/-- Witness of C1 on the sample channel: at time 15 the keyframe at address 1
(time 10) is active. -/
theorem activeKeyframeAt_greatest_time_not_above_witness :
    sampleChannel.KeyTimeConsistent ∧ sampleChannel.activeKeyframeAt 15 = some 1 ∧
      (sampleChannel.activeKeyframeAt 15 = some 1 ↔
        (∃ e ∈ sampleChannel.keys.entries, e.2 = 1) ∧ sampleChannel.time 1 ≤ 15 ∧
          ∀ e ∈ sampleChannel.keys.entries,
            sampleChannel.time e.2 ≤ 15 → sampleChannel.time e.2 ≤ sampleChannel.time 1) :=
  ⟨by decide, by decide,
    ((activeKeyframeAt_greatest_time_not_above sampleChannel 15).2.2 (by decide)).1 1⟩

theorem affectedFrames_contains_self (c : KisKeyframeChannel) (t : Int) (ht : 0 ≤ t) :
    (c.affectedFrames t).contains t = true := by
  rw [affectedFrames_eq]
  by_cases hnil : c.keys.entries = []
  · simp [hnil, KisTimeRange.contains, ht]
  · simp only [hnil, if_false]
    have hstart : (match activeEntryL c.keys.entries t with
        | some e => e.1
        | none => (0 : Int)) ≤ t := by
      cases ha : activeEntryL c.keys.entries t with
      | none => simpa using ht
      | some e => exact ((activeEntryL_eq_some_iff c.keys.ordered t e).1 ha).2.1
    cases hn : nextEntryL c.keys.entries t with
    | none => simpa [KisTimeRange.contains] using hstart
    | some n =>
      have hlt := (nextEntryL_isNext c.keys.ordered t n hn).2.1
      simp only [KisTimeRange.contains, Bool.and_eq_true, decide_eq_true_eq]
      exact ⟨hstart, by omega⟩

/-- C2: on a channel whose entries are stored under their keyframes' times,
`affectedFrames(t)` equals the reference definition `affectedFramesSpec`
(infinite from 0 without keyframes; otherwise from the time of the active
keyframe, or 0, to one frame before the time of the next keyframe, infinite
when no later keyframe exists); and when all keyframe times and `t` are
`>= 0` the returned range contains `t`. -/
theorem affectedFrames_eq_affectedFramesSpec (c : KisKeyframeChannel)
    (hc : c.KeyTimeConsistent) (t : Int) :
    c.affectedFrames t = c.affectedFramesSpec t ∧
    ((∀ e ∈ c.keys.entries, 0 ≤ c.time e.2) → 0 ≤ t →
      (c.affectedFrames t).contains t = true) := by
  refine ⟨?_, fun _ ht => affectedFrames_contains_self c t ht⟩
  rw [affectedFrames_eq]
  unfold affectedFramesSpec keyframeCount QMap.count
  have hmap : c.keys.entries.map (fun e => c.time e.2) = c.keys.entries.map Prod.fst :=
    List.map_congr_left (fun e he => hc e he)
  by_cases hnil : c.keys.entries = []
  · simp [hnil]
  · have hlen : ¬ ((c.keys.entries.length : Int) = 0) := by
      have := List.length_pos.2 hnil
      omega
    simp only [hnil, hlen, if_false, hmap, leastTime_later_eq c.keys.ordered,
      activeKeyframeAt_eq]
    cases ha : activeEntryL c.keys.entries t with
    | none => cases hn : nextEntryL c.keys.entries t <;> simp
    | some e =>
      have hm := ((activeEntryL_eq_some_iff c.keys.ordered t e).1 ha).1
      cases hn : nextEntryL c.keys.entries t <;> simp [hc e hm]

/-- Witness of C2 on the sample channel at time 15: the range is 10..19. -/
theorem affectedFrames_eq_affectedFramesSpec_witness :
    sampleChannel.KeyTimeConsistent ∧
      sampleChannel.affectedFrames 15 = KisTimeRange.fromTime 10 19 ∧
      sampleChannel.affectedFrames 15 = sampleChannel.affectedFramesSpec 15 ∧
      (sampleChannel.affectedFrames 15).contains 15 = true :=
  ⟨by decide, by decide,
    (affectedFrames_eq_affectedFramesSpec sampleChannel (by decide) 15).1,
    (affectedFrames_eq_affectedFramesSpec sampleChannel (by decide) 15).2
      (by decide) (by decide)⟩

/-- C3: the range that `insertKeyframeLogical(k)` (k not stored in the channel
before) and `removeKeyframeLogical(k)` (k stored in the channel, under its
time) hand to `requestUpdate` is exactly the set of frames whose active
keyframe changes: `activeKeyframeAt(u)` differs before and after the call if
and only if the range contains `u`. -/
theorem logical_update_range_exact (c : KisKeyframeChannel) (k : Nat) :
    ((∀ e ∈ c.keys.entries, e.2 ≠ k) →
      ∃ r, (c.insertKeyframeLogical k).requested = c.requested ++ [r] ∧
        ∀ u, c.activeKeyframeAt u ≠ (c.insertKeyframeLogical k).activeKeyframeAt u ↔
          r.contains u = true) ∧
    (c.KeyTimeConsistent → (c.time k, k) ∈ c.keys.entries →
      ∃ r, (c.removeKeyframeLogical k).requested = c.requested ++ [r] ∧
        ∀ u, c.activeKeyframeAt u ≠ (c.removeKeyframeLogical k).activeKeyframeAt u ↔
          r.contains u = true) := by
  constructor
  · intro hk
    refine ⟨_, rfl, ?_⟩
    intro u
    have hmem : (c.time k, k) ∈ (c.keys.insert (c.time k) k).entries :=
      (mem_insertL c.keys.ordered _ _ _).2 (Or.inl rfl)
    rw [affectedFrames_contains_iff _ (c.time k) k hmem u, activeKeyframeAt_eq,
      activeKeyframeAt_eq]
    show _ ≠ Option.map Prod.snd (activeEntryL (c.keys.insert (c.time k) k).entries u) ↔
      activeEntryL (c.keys.insert (c.time k) k).entries u = some (c.time k, k)
    constructor
    · intro hne
      by_contra hcon
      apply hne
      rw [activeEntryL_agree c.keys.ordered (c.keys.insert (c.time k) k).ordered (c.time k) u]
      · intro x hx
        constructor
        · intro hm
          exact (mem_insertL c.keys.ordered _ _ _).2 (Or.inr ⟨hm, hx⟩)
        · intro hm
          rcases (mem_insertL c.keys.ordered _ _ _).1 hm with h1 | h1
          · rw [h1] at hx
            exact absurd rfl hx
          · exact h1.1
      · intro _
        exact ⟨_, hmem, rfl⟩
      · intro y hy hyT
        apply hcon
        rw [hy]
        have hym := ((activeEntryL_eq_some_iff (c.keys.insert (c.time k) k).ordered u y).1 hy).1
        rw [key_unique (c.keys.insert (c.time k) k).ordered hym hmem hyT]
    · intro hact hsame
      rw [hact] at hsame
      obtain ⟨x, hx, hxk⟩ := Option.map_eq_some'.1 hsame
      have hxm := ((activeEntryL_eq_some_iff c.keys.ordered u x).1 hx).1
      exact hk x hxm hxk
  · intro hc hk
    refine ⟨_, rfl, ?_⟩
    intro u
    rw [affectedFrames_contains_iff c (c.time k) k hk u, activeKeyframeAt_eq,
      activeKeyframeAt_eq]
    show _ ≠ Option.map Prod.snd (activeEntryL (c.keys.remove (c.time k)).entries u) ↔ _
    constructor
    · intro hne
      by_contra hcon
      apply hne
      rw [← activeEntryL_agree (c.keys.remove (c.time k)).ordered c.keys.ordered (c.time k) u]
      · intro x hx
        constructor
        · intro hm
          exact ((mem_removeL _ _ _).1 hm).1
        · intro hm
          exact (mem_removeL _ _ _).2 ⟨hm, hx⟩
      · intro _
        exact ⟨_, hk, rfl⟩
      · intro y hy hyT
        apply hcon
        rw [hy]
        have hym := ((activeEntryL_eq_some_iff c.keys.ordered u y).1 hy).1
        rw [key_unique c.keys.ordered hym hk hyT]
    · intro hact hsame
      rw [hact] at hsame
      obtain ⟨x, hx, hxk⟩ := Option.map_eq_some'.1 hsame.symm
      have hxm := ((activeEntryL_eq_some_iff (c.keys.remove (c.time k)).ordered u x).1 hx).1
      obtain ⟨hxl, hxT⟩ := (mem_removeL _ _ _).1 hxm
      apply hxT
      rw [← hc x hxl, hxk]

/-- Witness of C3 on the sample channel: inserting the keyframe at address 3
(time 30) requests the infinite range from 30, removing the keyframe at
address 1 (time 10) requests 10..19. -/
theorem logical_update_range_exact_witness :
    ((sampleChannel.insertKeyframeLogical 3).requested = [KisTimeRange.infinite 30] ∧
      ∃ r, (sampleChannel.insertKeyframeLogical 3).requested = sampleChannel.requested ++ [r] ∧
        ∀ u, sampleChannel.activeKeyframeAt u ≠
            (sampleChannel.insertKeyframeLogical 3).activeKeyframeAt u ↔
          r.contains u = true) ∧
    ((sampleChannel.removeKeyframeLogical 1).requested = [KisTimeRange.fromTime 10 19] ∧
      ∃ r, (sampleChannel.removeKeyframeLogical 1).requested = sampleChannel.requested ++ [r] ∧
        ∀ u, sampleChannel.activeKeyframeAt u ≠
            (sampleChannel.removeKeyframeLogical 1).activeKeyframeAt u ↔
          r.contains u = true) :=
  ⟨⟨by decide, (logical_update_range_exact sampleChannel 3).1 (by decide)⟩,
    ⟨by decide, (logical_update_range_exact sampleChannel 1).2 (by decide) (by decide)⟩⟩

/-- C4: `moveKeyframeImpl(k, newTime)`, for a keyframe `k` stored in the channel
under its time and a `newTime` without keyframe, requests exactly two updates:
`affectedFrames(old time of k)` computed before the move and
`affectedFrames(newTime)` computed after it; every `u` whose active keyframe
differs before and after the move lies in one of the two ranges. -/
theorem moveKeyframeImpl_ranges_cover_changes (c : KisKeyframeChannel) (k : Nat)
    (newTime : Int) (hk : c.keyframeAt (c.time k) = some k)
    (hfree : c.keyframeAt newTime = none) :
    (c.moveKeyframeImpl (some k) newTime).requested =
      c.requested ++ [c.affectedFrames (c.time k),
        (c.moveKeyframeImpl (some k) newTime).affectedFrames newTime] ∧
    ∀ u, c.activeKeyframeAt u ≠ (c.moveKeyframeImpl (some k) newTime).activeKeyframeAt u →
      (c.affectedFrames (c.time k)).contains u = true ∨
      ((c.moveKeyframeImpl (some k) newTime).affectedFrames newTime).contains u = true := by
  refine ⟨moveKeyframeImpl_requested c k newTime hfree, ?_⟩
  intro u hne
  have hkm : (c.time k, k) ∈ c.keys.entries := (keyframeAt_eq_some_iff c _ k).1 hk
  have hent := moveKeyframeImpl_entries c k newTime hfree
  have hl1 : (removeL c.keys.entries (c.time k)).Pairwise (fun a b => a.1 < b.1) :=
    (c.keys.remove (c.time k)).ordered
  have hl2 := (c.moveKeyframeImpl (some k) newTime).keys.ordered
  have hdm : (newTime, k) ∈ (c.moveKeyframeImpl (some k) newTime).keys.entries := by
    rw [hent]
    exact (mem_insertL hl1 _ _ _).2 (Or.inl rfl)
  rw [affectedFrames_contains_iff c (c.time k) k hkm u,
    affectedFrames_contains_iff _ newTime k hdm u]
  by_contra hcon
  rw [not_or] at hcon
  apply hne
  rw [activeKeyframeAt_eq, activeKeyframeAt_eq]
  have h1 : activeEntryL (removeL c.keys.entries (c.time k)) u = activeEntryL c.keys.entries u := by
    apply activeEntryL_agree hl1 c.keys.ordered (c.time k) u
    · intro x hx
      rw [mem_removeL]
      exact ⟨fun h => h.1, fun h => ⟨h, hx⟩⟩
    · intro _
      exact ⟨_, hkm, rfl⟩
    · intro y hy hyT
      apply hcon.1
      rw [hy]
      have hym := ((activeEntryL_eq_some_iff c.keys.ordered u y).1 hy).1
      rw [key_unique c.keys.ordered hym hkm hyT]
  have h2 : activeEntryL (removeL c.keys.entries (c.time k)) u =
      activeEntryL (c.moveKeyframeImpl (some k) newTime).keys.entries u := by
    apply activeEntryL_agree hl1 hl2 newTime u
    · intro x hx
      rw [hent, mem_insertL hl1]
      constructor
      · intro h
        exact Or.inr ⟨h, hx⟩
      · rintro (h | h)
        · rw [h] at hx
          exact absurd rfl hx
        · exact h.1
    · intro _
      exact ⟨_, hdm, rfl⟩
    · intro y hy hyT
      apply hcon.2
      rw [hy]
      have hym := ((activeEntryL_eq_some_iff hl2 u y).1 hy).1
      rw [key_unique hl2 hym hdm hyT]
  rw [← h1, h2]

/-- Witness of C4 on the sample channel: moving the keyframe at address 1
from time 10 to time 15 requests 10..19 and 15..19. -/
theorem moveKeyframeImpl_ranges_cover_changes_witness :
    (sampleChannel.moveKeyframeImpl (some 1) 15).requested =
      [KisTimeRange.fromTime 10 19, KisTimeRange.fromTime 15 19] ∧
    ∀ u, sampleChannel.activeKeyframeAt u ≠
        (sampleChannel.moveKeyframeImpl (some 1) 15).activeKeyframeAt u →
      (sampleChannel.affectedFrames (sampleChannel.time 1)).contains u = true ∨
      ((sampleChannel.moveKeyframeImpl (some 1) 15).affectedFrames 15).contains u = true :=
  ⟨by decide,
    (moveKeyframeImpl_ranges_cover_changes sampleChannel 1 15 (by decide) (by decide)).2⟩

/-! ## Replacing and moving keyframes -/

theorem mem_replaceKeyframeAt_entries (c : KisKeyframeChannel) (hc : c.KeyTimeConsistent)
    (t : Int) (n : KisKeyframeSP) (hn : ∀ a, n = some a → c.time a = t) (x : Int × Nat) :
    x ∈ (c.replaceKeyframeAt t n).2.keys.entries ↔
      (n = some x.2 ∧ x.1 = t) ∨ (x ∈ c.keys.entries ∧ x.1 ≠ t) := by
  rw [replaceKeyframeAt_entries c hc t n hn]
  cases n with
  | none => simp [mem_removeL]
  | some a =>
    have hl1 : (removeL c.keys.entries t).Pairwise (fun a b => a.1 < b.1) :=
      (c.keys.remove t).ordered
    show x ∈ insertL (removeL c.keys.entries t) t a ↔ _
    rw [mem_insertL hl1, mem_removeL, Option.some.injEq]
    constructor
    · rintro (h | h)
      · rw [h]
        exact Or.inl ⟨rfl, rfl⟩
      · exact Or.inr h.1
    · rintro (⟨h1, h2⟩ | h)
      · exact Or.inl (Prod.ext h2 h1.symm)
      · exact Or.inr ⟨h, h.2⟩

theorem replaceKeyframeAt_facts (c : KisKeyframeChannel)
    (hc : c.KeyTimeConsistent) (t : Int) (n : KisKeyframeSP)
    (hn : ∀ a, n = some a → c.time a = t) :
    (c.replaceKeyframeAt t n).1 = c.keyframeAt t ∧
    (c.replaceKeyframeAt t n).2.keyframeAt t = n ∧
    ∀ u, u ≠ t → (c.replaceKeyframeAt t n).2.keyframeAt u = c.keyframeAt u := by
  refine ⟨rfl, ?_, ?_⟩
  · apply Option.ext
    intro a
    rw [Option.mem_def, Option.mem_def, keyframeAt_eq_some_iff,
      mem_replaceKeyframeAt_entries c hc t n hn]
    constructor
    · rintro (h | h)
      · exact h.1
      · exact absurd rfl h.2
    · intro h
      exact Or.inl ⟨h, rfl⟩
  · intro u hu
    apply keyframeAt_congr
    intro a
    rw [mem_replaceKeyframeAt_entries c hc t n hn]
    constructor
    · rintro (h | h)
      · exact absurd h.2 hu
      · exact h.1
    · intro h
      exact Or.inr ⟨h, hu⟩

/-- C5: on a channel whose entries are stored under their keyframes' times,
`replaceKeyframeAt(t, n)` with `n` null or a keyframe of time `t` returns the
keyframe stored at `t` before the call (null if none); afterwards
`keyframeAt(t)` is `n` and `keyframeAt(u)` is unchanged for every `u != t`. -/
theorem replaceKeyframeAt_returns_old_stores_new (c : KisKeyframeChannel)
    (hc : c.KeyTimeConsistent) (t : Int) (n : KisKeyframeSP)
    (hn : ∀ a, n = some a → c.time a = t) :
    (c.replaceKeyframeAt t n).1 = c.keyframeAt t ∧
    (c.replaceKeyframeAt t n).2.keyframeAt t = n ∧
    ∀ u, u ≠ t → (c.replaceKeyframeAt t n).2.keyframeAt u = c.keyframeAt u := by
  have h := replaceKeyframeAt_facts c hc t n hn
  exact ⟨h.1, h.2.1, fun u hu => h.2.2 u hu⟩

/-- Witness of C5 on the sample channel: the keyframe at address 4, whose time
is set to 10, replaces the keyframe at address 1. -/
theorem replaceKeyframeAt_returns_old_stores_new_witness :
    ((sampleChannel.setTime 4 10).replaceKeyframeAt 10 (some 4)).1 = some 1 ∧
    ((sampleChannel.setTime 4 10).replaceKeyframeAt 10 (some 4)).1 =
      (sampleChannel.setTime 4 10).keyframeAt 10 ∧
    ((sampleChannel.setTime 4 10).replaceKeyframeAt 10 (some 4)).2.keyframeAt 10 = some 4 ∧
    ∀ u, u ≠ 10 →
      ((sampleChannel.setTime 4 10).replaceKeyframeAt 10 (some 4)).2.keyframeAt u =
        (sampleChannel.setTime 4 10).keyframeAt u :=
  ⟨by decide,
    replaceKeyframeAt_returns_old_stores_new (sampleChannel.setTime 4 10) (by decide) 10
      (some 4) (by decide)⟩

/-- C6: replace is undone by replace.  On a channel whose entries are stored
under their keyframes' times, for `n` null or a keyframe of time `t`, calling
`old = replaceKeyframeAt(t, n)` and then `replaceKeyframeAt(t, old)` returns
`n` from the second call and leaves the map as it was before the first. -/
theorem replaceKeyframeAt_undone_by_replace (c : KisKeyframeChannel)
    (hc : c.KeyTimeConsistent) (t : Int) (n : KisKeyframeSP)
    (hn : ∀ a, n = some a → c.time a = t) :
    ((c.replaceKeyframeAt t n).2.replaceKeyframeAt t (c.replaceKeyframeAt t n).1).1 = n ∧
    ((c.replaceKeyframeAt t n).2.replaceKeyframeAt t (c.replaceKeyframeAt t n).1).2.keys =
      c.keys := by
  have hstore := (replaceKeyframeAt_store c t n).1
  have htime : ∀ a, (c.replaceKeyframeAt t n).2.time a = c.time a := by
    intro a
    unfold time
    rw [hstore]
  have hc1 : (c.replaceKeyframeAt t n).2.KeyTimeConsistent := by
    intro x hx
    rw [htime]
    rcases (mem_replaceKeyframeAt_entries c hc t n hn x).1 hx with h | h
    · rw [hn x.2 h.1, h.2]
    · exact hc x h.1
  have hold : ∀ a, (c.replaceKeyframeAt t n).1 = some a →
      (c.replaceKeyframeAt t n).2.time a = t := by
    intro a ha
    rw [htime]
    exact hc (t, a) ((keyframeAt_eq_some_iff c t a).1 ha)
  refine ⟨(replaceKeyframeAt_facts c hc t n hn).2.1, ?_⟩
  apply QMap.ext_entries
  apply entries_ext (QMap.ordered _) c.keys.ordered
  intro x
  rw [mem_replaceKeyframeAt_entries _ hc1 t _ hold, mem_replaceKeyframeAt_entries c hc t n hn]
  show (c.keyframeAt t = some x.2 ∧ x.1 = t) ∨ _ ↔ _
  rw [keyframeAt_eq_some_iff]
  constructor
  · rintro (⟨h1, h2⟩ | ⟨h1 | h1, h2⟩)
    · rw [← h2] at h1
      exact h1
    · exact absurd h1.2 h2
    · exact h1.1
  · intro h
    by_cases hx : x.1 = t
    · refine Or.inl ⟨?_, hx⟩
      rw [← hx]
      exact h
    · exact Or.inr ⟨Or.inr ⟨h, hx⟩, hx⟩

/-- Witness of C6 on the sample channel: replacing the keyframe at time 10 by
the keyframe at address 4 and replacing back restores the three entries. -/
theorem replaceKeyframeAt_undone_by_replace_witness :
    (((sampleChannel.setTime 4 10).replaceKeyframeAt 10 (some 4)).2.replaceKeyframeAt 10
      ((sampleChannel.setTime 4 10).replaceKeyframeAt 10 (some 4)).1).1 = some 4 ∧
    (((sampleChannel.setTime 4 10).replaceKeyframeAt 10 (some 4)).2.replaceKeyframeAt 10
      ((sampleChannel.setTime 4 10).replaceKeyframeAt 10 (some 4)).1).2.keys =
      (sampleChannel.setTime 4 10).keys :=
  replaceKeyframeAt_undone_by_replace (sampleChannel.setTime 4 10) (by decide) 10
    (some 4) (by decide)

theorem mem_moveKeyframeImpl_entries (c : KisKeyframeChannel) (k : Nat) (newTime : Int)
    (hfree : c.keyframeAt newTime = none) (x : Int × Nat) :
    x ∈ (c.moveKeyframeImpl (some k) newTime).keys.entries ↔
      x = (newTime, k) ∨ (x ∈ c.keys.entries ∧ x.1 ≠ c.time k ∧ x.1 ≠ newTime) := by
  have hl1 : (removeL c.keys.entries (c.time k)).Pairwise (fun a b => a.1 < b.1) :=
    (c.keys.remove (c.time k)).ordered
  rw [moveKeyframeImpl_entries c k newTime hfree, mem_insertL hl1, mem_removeL]
  constructor
  · rintro (h | h)
    · exact Or.inl h
    · exact Or.inr ⟨h.1.1, h.1.2, h.2⟩
  · rintro (h | h)
    · exact Or.inl h
    · exact Or.inr ⟨⟨h.1, h.2.1⟩, h.2.2⟩

theorem moveKeyframeImpl_time (c : KisKeyframeChannel) (k : Nat) (newTime : Int)
    (hfree : c.keyframeAt newTime = none) :
    (c.moveKeyframeImpl (some k) newTime).time k = newTime := by
  unfold time
  rw [moveKeyframeImpl_store c k newTime hfree]
  simp

theorem moveKeyframeImpl_count (c : KisKeyframeChannel) (k : Nat) (newTime : Int)
    (hk : c.keyframeAt (c.time k) = some k) (hfree : c.keyframeAt newTime = none) :
    (c.moveKeyframeImpl (some k) newTime).keyframeCount = c.keyframeCount := by
  have hkm : (c.time k, k) ∈ c.keys.entries := (keyframeAt_eq_some_iff c _ k).1 hk
  have hfree2 := (keyframeAt_eq_none_iff c newTime).1 hfree
  unfold keyframeCount QMap.count
  rw [moveKeyframeImpl_entries c k newTime hfree, length_insertL_of_not_mem]
  · have := length_removeL_of_mem c.keys.ordered (c.time k) ⟨_, hkm, rfl⟩
    omega
  · intro x hx
    exact hfree2 x ((mem_removeL _ _ _).1 hx).1

/-- C7: on a channel whose entries are stored under their keyframes' times,
after `moveKeyframeImpl(k, newTime)` for a keyframe `k` stored at time `s` and
a `newTime` without keyframe: `k.time() == newTime`, `keyframeAt(newTime)` is
`k`, `keyframeAt(s)` is null, `keyframeCount()` is unchanged, and
`keyframeAt(u)` is unchanged for every `u` other than `s` and `newTime`. -/
theorem moveKeyframeImpl_rekeys_keyframe (c : KisKeyframeChannel)
    (hc : c.KeyTimeConsistent) (k : Nat) (s newTime : Int)
    (hk : c.keyframeAt s = some k) (hfree : c.keyframeAt newTime = none) :
    (c.moveKeyframeImpl (some k) newTime).time k = newTime ∧
    (c.moveKeyframeImpl (some k) newTime).keyframeAt newTime = some k ∧
    (c.moveKeyframeImpl (some k) newTime).keyframeAt s = none ∧
    (c.moveKeyframeImpl (some k) newTime).keyframeCount = c.keyframeCount ∧
    ∀ u, u ≠ s → u ≠ newTime →
      (c.moveKeyframeImpl (some k) newTime).keyframeAt u = c.keyframeAt u := by
  have hkm : (s, k) ∈ c.keys.entries := (keyframeAt_eq_some_iff c s k).1 hk
  have hs : c.time k = s := hc (s, k) hkm
  have hfree2 := (keyframeAt_eq_none_iff c newTime).1 hfree
  have hne : newTime ≠ s := fun h => hfree2 (s, k) hkm h.symm
  have hmem := mem_moveKeyframeImpl_entries c k newTime hfree
  rw [hs] at hmem
  refine ⟨moveKeyframeImpl_time c k newTime hfree, ?_, ?_, ?_, ?_⟩
  · rw [keyframeAt_eq_some_iff, hmem]
    exact Or.inl rfl
  · rw [keyframeAt_eq_none_iff]
    intro e he
    rcases (hmem e).1 he with h | h
    · rw [h]
      exact hne
    · exact h.2.1
  · exact moveKeyframeImpl_count c k newTime (by rw [hs]; exact hk) hfree
  · intro u hus hun
    apply keyframeAt_congr
    intro a
    rw [hmem]
    constructor
    · rintro (h | h)
      · exact absurd (congrArg Prod.fst h) hun
      · exact h.1
    · intro h
      exact Or.inr ⟨h, hus, hun⟩

/-- Witness of C7 on the sample channel: the keyframe at address 1 moves from
time 10 to time 15. -/
theorem moveKeyframeImpl_rekeys_keyframe_witness :
    (sampleChannel.moveKeyframeImpl (some 1) 15).keys.entries = [(0, 0), (15, 1), (20, 2)] ∧
    (sampleChannel.moveKeyframeImpl (some 1) 15).time 1 = 15 ∧
    (sampleChannel.moveKeyframeImpl (some 1) 15).keyframeAt 15 = some 1 ∧
    (sampleChannel.moveKeyframeImpl (some 1) 15).keyframeAt 10 = none ∧
    (sampleChannel.moveKeyframeImpl (some 1) 15).keyframeCount = sampleChannel.keyframeCount ∧
    ∀ u, u ≠ 10 → u ≠ 15 →
      (sampleChannel.moveKeyframeImpl (some 1) 15).keyframeAt u = sampleChannel.keyframeAt u :=
  ⟨by decide,
    moveKeyframeImpl_rekeys_keyframe sampleChannel (by decide) 1 10 15 (by decide) (by decide)⟩

/-! ## Adding, copying, deleting and moving keyframes -/

theorem length_insertL_removeL {V : Type} {l : List (Int × V)}
    (hl : l.Pairwise (fun a b => a.1 < b.1)) (t : Int) (v : V) :
    ((insertL (removeL l t) t v).length : Int) =
      (l.length : Int) + (if ∀ x ∈ l, x.1 ≠ t then 1 else 0) := by
  have hlen : (insertL (removeL l t) t v).length = (removeL l t).length + 1 :=
    length_insertL_of_not_mem _ _ _ (fun x hx => ((mem_removeL _ _ _).1 hx).2)
  by_cases h : ∀ x ∈ l, x.1 ≠ t
  · rw [hlen, removeL_of_not_mem l t h, if_pos h]
    push_cast
    rfl
  · have hex : ∃ x ∈ l, x.1 = t := by
      by_contra hcon
      apply h
      intro x hx hxt
      exact hcon ⟨x, hx, hxt⟩
    have := length_removeL_of_mem hl t hex
    rw [hlen, if_neg h]
    omega

theorem insertKeyframe_stores (c : KisKeyframeChannel) (hc : c.KeyTimeConsistent) (t : Int)
    (src : KisKeyframeSP) :
    ∃ k, (c.insertKeyframe t src).1 = some k ∧ (c.insertKeyframe t src).2.time k = t ∧
      (c.insertKeyframe t src).2.keyframeAt t = some k ∧
      (c.keyframeAt t = none →
        (c.insertKeyframe t src).2.keyframeCount = c.keyframeCount + 1) ∧
      (c.keyframeAt t ≠ none → (c.insertKeyframe t src).2.keyframeCount = c.keyframeCount) ∧
      ∀ u, u ≠ t → (c.insertKeyframe t src).2.keyframeAt u = c.keyframeAt u := by
  obtain ⟨hfst, hent, htime, _, _⟩ := insertKeyframe_result c t src
    (fun e he => hc (t, e) ((keyframeAt_eq_some_iff c t e).1 he))
  have hl1 : (removeL c.keys.entries t).Pairwise (fun a b => a.1 < b.1) :=
    (c.keys.remove t).ordered
  have hcount : (c.insertKeyframe t src).2.keyframeCount =
      c.keyframeCount + (if ∀ x ∈ c.keys.entries, x.1 ≠ t then 1 else 0) := by
    unfold keyframeCount QMap.count
    rw [hent]
    exact length_insertL_removeL c.keys.ordered t _
  refine ⟨c.allocated, hfst, htime, ?_, ?_, ?_, ?_⟩
  · rw [keyframeAt_eq_some_iff, hent, mem_insertL hl1]
    exact Or.inl rfl
  · intro hnone
    rw [hcount, if_pos ((keyframeAt_eq_none_iff c t).1 hnone)]
  · intro hsome
    rw [hcount, if_neg (fun h => hsome ((keyframeAt_eq_none_iff c t).2 h))]
    simp
  · intro u hu
    apply keyframeAt_congr
    intro a
    rw [hent, mem_insertL hl1, mem_removeL]
    constructor
    · rintro (h | h)
      · exact absurd (congrArg Prod.fst h) hu
      · exact h.1.1
    · intro h
      exact Or.inr ⟨⟨h, hu⟩, hu⟩

/-- C8: on a channel whose entries are stored under their keyframes' times,
`addKeyframe(t)` and `copyKeyframe(src, t)` (both `insertKeyframe`, with
`createKeyframe` yielding a keyframe at the requested time and the replace
command's redo applying `replaceKeyframeAt`) return a keyframe of time `t`
that `keyframeAt(t)` then yields; `keyframeCount()` grows by one if no
keyframe existed at `t` and is unchanged if one did; `keyframeAt(u)` is
unchanged for every `u != t`. -/
theorem addKeyframe_copyKeyframe_store_new_keyframe (c : KisKeyframeChannel)
    (hc : c.KeyTimeConsistent) (t : Int) (src : KisKeyframeSP) :
    ∀ r, r = c.addKeyframe t ∨ r = c.copyKeyframe src t →
      ∃ k, r.1 = some k ∧ r.2.time k = t ∧ r.2.keyframeAt t = some k ∧
        (c.keyframeAt t = none → r.2.keyframeCount = c.keyframeCount + 1) ∧
        (c.keyframeAt t ≠ none → r.2.keyframeCount = c.keyframeCount) ∧
        ∀ u, u ≠ t → r.2.keyframeAt u = c.keyframeAt u := by
  rintro r (hr | hr)
  · rw [hr]
    exact insertKeyframe_stores c hc t none
  · rw [hr]
    exact insertKeyframe_stores c hc t src

/-- Witness of C8 on the sample channel: adding at time 10 replaces the
keyframe there by the new keyframe at address 3, copying the keyframe at
address 2 to time 5 adds an entry. -/
theorem addKeyframe_copyKeyframe_store_new_keyframe_witness :
    (sampleChannel.addKeyframe 10).2.keys.entries = [(0, 0), (10, 3), (20, 2)] ∧
    (sampleChannel.copyKeyframe (some 2) 5).2.keys.entries =
      [(0, 0), (5, 3), (10, 1), (20, 2)] ∧
    ∃ k, (sampleChannel.copyKeyframe (some 2) 5).1 = some k ∧
      (sampleChannel.copyKeyframe (some 2) 5).2.time k = 5 ∧
      (sampleChannel.copyKeyframe (some 2) 5).2.keyframeAt 5 = some k ∧
      (sampleChannel.keyframeAt 5 = none →
        (sampleChannel.copyKeyframe (some 2) 5).2.keyframeCount =
          sampleChannel.keyframeCount + 1) ∧
      (sampleChannel.keyframeAt 5 ≠ none →
        (sampleChannel.copyKeyframe (some 2) 5).2.keyframeCount =
          sampleChannel.keyframeCount) ∧
      ∀ u, u ≠ 5 →
        (sampleChannel.copyKeyframe (some 2) 5).2.keyframeAt u = sampleChannel.keyframeAt u :=
  ⟨by decide, by decide,
    addKeyframe_copyKeyframe_store_new_keyframe sampleChannel (by decide) 5 (some 2)
      (sampleChannel.copyKeyframe (some 2) 5) (Or.inr rfl)⟩

theorem deleteKeyframe_eq (c : KisKeyframeChannel) (k : Nat) :
    c.deleteKeyframe k =
      (true,
        if c.time k = 0 then ((c.replaceKeyframeAt (c.time k) none).2.insertKeyframe 0 none).2
        else (c.replaceKeyframeAt (c.time k) none).2) := by
  have htime : (c.replaceKeyframeAt (c.time k) none).2.time k = c.time k := by
    show ((c.replaceKeyframeAt (c.time k) none).2.store k).time = (c.store k).time
    rw [(replaceKeyframeAt_store c (c.time k) none).1]
  unfold deleteKeyframe deleteKeyframeImpl
  simp only [replaceKeyframeCommandRedo, destroyKeyframe, addKeyframe, htime, Bool.true_and,
    decide_eq_true_eq]

/-- C9: on a channel whose entries are stored under their keyframes' times and
whose keyframes are objects in use, `deleteKeyframe(k)` for a keyframe `k` of
the channel returns true.  If `k.time() != 0`, afterwards
`keyframeAt(k.time())` is null and `keyframeCount()` is one less; if
`k.time() == 0` a newly created keyframe, different from `k`, is stored at
time 0 and `keyframeCount()` is unchanged.  In both cases `keyframeAt(u)` is
unchanged for every `u != k.time()`. -/
theorem deleteKeyframe_removes_or_recreates (c : KisKeyframeChannel)
    (hc : c.KeyTimeConsistent) (ha : c.StoredAllocated) (k : Nat)
    (hk : c.keyframeAt (c.time k) = some k) :
    (c.deleteKeyframe k).1 = true ∧
    (c.time k ≠ 0 →
      (c.deleteKeyframe k).2.keyframeAt (c.time k) = none ∧
      (c.deleteKeyframe k).2.keyframeCount = c.keyframeCount - 1) ∧
    (c.time k = 0 →
      (∃ a, (c.deleteKeyframe k).2.keyframeAt 0 = some a ∧ a ≠ k ∧ ¬ a < c.allocated) ∧
      (c.deleteKeyframe k).2.keyframeCount = c.keyframeCount) ∧
    ∀ u, u ≠ c.time k → (c.deleteKeyframe k).2.keyframeAt u = c.keyframeAt u := by
  have hkm : (c.time k, k) ∈ c.keys.entries := (keyframeAt_eq_some_iff c _ k).1 hk
  have hrep := replaceKeyframeAt_facts c hc (c.time k) none (by simp)
  have hent1 : (c.replaceKeyframeAt (c.time k) none).2.keys.entries =
      removeL c.keys.entries (c.time k) := replaceKeyframeAt_entries c hc (c.time k) none (by simp)
  have hlen1 := length_removeL_of_mem c.keys.ordered (c.time k) ⟨_, hkm, rfl⟩
  rw [deleteKeyframe_eq]
  refine ⟨rfl, ?_, ?_, ?_⟩
  · intro h0
    simp only [if_neg h0]
    refine ⟨hrep.2.1, ?_⟩
    unfold keyframeCount QMap.count
    rw [hent1]
    omega
  · intro h0
    simp only [if_pos h0]
    have hnone : (c.replaceKeyframeAt (c.time k) none).2.keyframeAt 0 = none := by
      have := hrep.2.1
      rw [h0] at this
      rw [h0]
      exact this
    obtain ⟨hfst, hent, _, _, _⟩ :=
      insertKeyframe_result (c.replaceKeyframeAt (c.time k) none).2 0 none
        (by rw [hnone]; intro e he; exact absurd he (by simp))
    have hl1 : (removeL (c.replaceKeyframeAt (c.time k) none).2.keys.entries 0).Pairwise
        (fun a b => a.1 < b.1) := ((c.replaceKeyframeAt (c.time k) none).2.keys.remove 0).ordered
    have halloc : (c.replaceKeyframeAt (c.time k) none).2.allocated = c.allocated :=
      (replaceKeyframeAt_store c (c.time k) none).2.1
    refine ⟨⟨c.allocated, ?_, ?_, lt_irrefl _⟩, ?_⟩
    · rw [keyframeAt_eq_some_iff, hent, mem_insertL hl1, halloc]
      exact Or.inl rfl
    · have := ha _ hkm
      simp only at this
      omega
    · unfold keyframeCount QMap.count
      rw [hent, length_insertL_of_not_mem _ _ _ (fun x hx => ((mem_removeL _ _ _).1 hx).2),
        removeL_of_not_mem _ _ ((keyframeAt_eq_none_iff _ 0).1 hnone), hent1]
      omega
  · intro u hu
    by_cases h0 : c.time k = 0
    · simp only [if_pos h0]
      have hnone : (c.replaceKeyframeAt (c.time k) none).2.keyframeAt 0 = none := by
        have := hrep.2.1
        rw [h0] at this
        rw [h0]
        exact this
      obtain ⟨_, hent, _, _, _⟩ :=
        insertKeyframe_result (c.replaceKeyframeAt (c.time k) none).2 0 none
          (by rw [hnone]; intro e he; exact absurd he (by simp))
      have hl1 : (removeL (c.replaceKeyframeAt (c.time k) none).2.keys.entries 0).Pairwise
          (fun a b => a.1 < b.1) :=
        ((c.replaceKeyframeAt (c.time k) none).2.keys.remove 0).ordered
      rw [h0] at hu
      apply keyframeAt_congr
      intro a
      rw [hent, mem_insertL hl1, mem_removeL, hent1, mem_removeL, h0]
      constructor
      · rintro (h | h)
        · exact absurd (congrArg Prod.fst h) hu
        · exact h.1.1.1
      · intro h
        exact Or.inr ⟨⟨⟨h, hu⟩, hu⟩, hu⟩
    · simp only [if_neg h0]
      exact hrep.2.2 u hu

/-- Witness of C9 on the sample channel: deleting the keyframe at time 10
removes its entry, deleting the keyframe at time 0 stores the new keyframe at
address 3 there. -/
theorem deleteKeyframe_removes_or_recreates_witness :
    (sampleChannel.deleteKeyframe 1).2.keys.entries = [(0, 0), (20, 2)] ∧
    (sampleChannel.deleteKeyframe 0).2.keys.entries = [(0, 3), (10, 1), (20, 2)] ∧
    ((sampleChannel.deleteKeyframe 0).1 = true ∧
      (sampleChannel.time 0 ≠ 0 →
        (sampleChannel.deleteKeyframe 0).2.keyframeAt (sampleChannel.time 0) = none ∧
        (sampleChannel.deleteKeyframe 0).2.keyframeCount = sampleChannel.keyframeCount - 1) ∧
      (sampleChannel.time 0 = 0 →
        (∃ a, (sampleChannel.deleteKeyframe 0).2.keyframeAt 0 = some a ∧ a ≠ 0 ∧
          ¬ a < sampleChannel.allocated) ∧
        (sampleChannel.deleteKeyframe 0).2.keyframeCount = sampleChannel.keyframeCount) ∧
      ∀ u, u ≠ sampleChannel.time 0 →
        (sampleChannel.deleteKeyframe 0).2.keyframeAt u = sampleChannel.keyframeAt u) :=
  ⟨by decide, by decide,
    deleteKeyframe_removes_or_recreates sampleChannel (by decide) (by decide) 0 (by decide)⟩

/-- The state in which `moveKeyframe` calls the move command: any keyframe
found at `newTime` has been deleted. -/
theorem moveKeyframe_eq (c : KisKeyframeChannel) (hc : c.KeyTimeConsistent) (k : Nat)
    (newTime : Int) (hne : newTime ≠ c.time k) :
    ∃ c1 : KisKeyframeChannel,
      c1.keys.entries = removeL c.keys.entries newTime ∧ c1.store = c.store ∧
      c1.allocated = c.allocated ∧
      c.moveKeyframe k newTime =
        (true,
          if c.time k = 0 then ((c1.moveKeyframeImpl (some k) newTime).insertKeyframe 0 none).2
          else c1.moveKeyframeImpl (some k) newTime) := by
  refine ⟨match c.keyframeAt newTime with
    | some o => (c.deleteKeyframeImpl o false).2
    | none => c, ?_, ?_, ?_, ?_⟩
  · cases he : c.keyframeAt newTime with
    | none => exact (removeL_of_not_mem _ _ ((keyframeAt_eq_none_iff c newTime).1 he)).symm
    | some e =>
      have hte : c.time e = newTime := hc (newTime, e) ((keyframeAt_eq_some_iff c _ e).1 he)
      simp only [deleteKeyframeImpl_false, deleteKeyframeImplFalse_eq, hte]
      exact replaceKeyframeAt_entries c hc newTime none (by simp)
  · cases he : c.keyframeAt newTime with
    | none => rfl
    | some e =>
      simp only [deleteKeyframeImpl_false, deleteKeyframeImplFalse_eq]
      exact (replaceKeyframeAt_store c _ none).1
  · cases he : c.keyframeAt newTime with
    | none => rfl
    | some e =>
      simp only [deleteKeyframeImpl_false, deleteKeyframeImplFalse_eq]
      exact (replaceKeyframeAt_store c _ none).2.1
  · have hstore : (match c.keyframeAt newTime with
        | some o => (c.deleteKeyframeImpl o false).2
        | none => c).time k = c.time k := by
      cases he : c.keyframeAt newTime with
      | none => rfl
      | some e =>
        simp only [deleteKeyframeImpl_false, deleteKeyframeImplFalse_eq]
        show ((c.replaceKeyframeAt (c.time e) none).2.store k).time = (c.store k).time
        rw [(replaceKeyframeAt_store c _ none).1]
    unfold moveKeyframe
    simp only [if_neg hne, moveFrameCommandRedo, addKeyframe, hstore]
    by_cases h0 : c.time k = 0
    · simp only [h0, if_true]
    · simp only [h0, if_false]

/-- C10: on a channel whose entries are stored under their keyframes' times
and whose keyframes are objects in use, `moveKeyframe(k, newTime)` for a
keyframe `k` stored at time `s` returns false and leaves the channel
unchanged if and only if `newTime == s`.  Otherwise it returns true and
afterwards `k.time() == newTime`, `keyframeAt(newTime)` is `k`, `keyframeAt(s)`
is null unless `s == 0`, in which case a newly created keyframe of time 0 is
stored at 0; and `keyframeCount()` is the count before, minus one if a
keyframe existed at `newTime`, plus one if `s == 0`. -/
theorem moveKeyframe_moves_unless_same_time (c : KisKeyframeChannel)
    (hc : c.KeyTimeConsistent) (ha : c.StoredAllocated) (k : Nat) (s newTime : Int)
    (hk : c.keyframeAt s = some k) :
    (((c.moveKeyframe k newTime).1 = false ∧ (c.moveKeyframe k newTime).2 = c) ↔
      newTime = s) ∧
    (newTime ≠ s →
      (c.moveKeyframe k newTime).1 = true ∧
      (c.moveKeyframe k newTime).2.time k = newTime ∧
      (c.moveKeyframe k newTime).2.keyframeAt newTime = some k ∧
      (s ≠ 0 → (c.moveKeyframe k newTime).2.keyframeAt s = none) ∧
      (s = 0 → ∃ a, (c.moveKeyframe k newTime).2.keyframeAt 0 = some a ∧
        ¬ a < c.allocated ∧ (c.moveKeyframe k newTime).2.time a = 0) ∧
      (c.moveKeyframe k newTime).2.keyframeCount =
        c.keyframeCount - (if c.keyframeAt newTime = none then 0 else 1) +
          (if s = 0 then 1 else 0)) := by
  have hkm : (s, k) ∈ c.keys.entries := (keyframeAt_eq_some_iff c s k).1 hk
  have hs : c.time k = s := hc (s, k) hkm
  have hkalloc : k < c.allocated := ha _ hkm
  have hmove : newTime ≠ s →
      (c.moveKeyframe k newTime).1 = true ∧
      (c.moveKeyframe k newTime).2.time k = newTime ∧
      (c.moveKeyframe k newTime).2.keyframeAt newTime = some k ∧
      (s ≠ 0 → (c.moveKeyframe k newTime).2.keyframeAt s = none) ∧
      (s = 0 → ∃ a, (c.moveKeyframe k newTime).2.keyframeAt 0 = some a ∧
        ¬ a < c.allocated ∧ (c.moveKeyframe k newTime).2.time a = 0) ∧
      (c.moveKeyframe k newTime).2.keyframeCount =
        c.keyframeCount - (if c.keyframeAt newTime = none then 0 else 1) +
          (if s = 0 then 1 else 0) := by
    intro hne
    obtain ⟨c1, hent1, hstore1, halloc1, heq⟩ :=
      moveKeyframe_eq c hc k newTime (by rw [hs]; exact hne)
    have htime1 : c1.time k = s := by
      unfold time
      rw [hstore1]
      exact hs
    have hkm1 : (s, k) ∈ c1.keys.entries := by
      rw [hent1]
      exact (mem_removeL _ _ _).2 ⟨hkm, fun h => hne h.symm⟩
    have hfree1 : c1.keyframeAt newTime = none := by
      rw [keyframeAt_eq_none_iff, hent1]
      intro e he
      exact ((mem_removeL _ _ _).1 he).2
    have hk1 : c1.keyframeAt (c1.time k) = some k := by
      rw [htime1, keyframeAt_eq_some_iff]
      exact hkm1
    have hmem2 := mem_moveKeyframeImpl_entries c1 k newTime hfree1
    rw [htime1] at hmem2
    have htime2 := moveKeyframeImpl_time c1 k newTime hfree1
    have hcount2 := moveKeyframeImpl_count c1 k newTime hk1 hfree1
    have hcount1 : c1.keyframeCount =
        c.keyframeCount - (if c.keyframeAt newTime = none then 0 else 1) := by
      unfold keyframeCount QMap.count
      rw [hent1]
      by_cases hn : c.keyframeAt newTime = none
      · rw [removeL_of_not_mem _ _ ((keyframeAt_eq_none_iff c newTime).1 hn), if_pos hn]
        simp
      · rw [if_neg hn]
        obtain ⟨o, ho⟩ := Option.ne_none_iff_exists'.1 hn
        have := length_removeL_of_mem c.keys.ordered newTime
          ⟨_, (keyframeAt_eq_some_iff c newTime o).1 ho, rfl⟩
        omega
    generalize (if c.keyframeAt newTime = none then (0 : Int) else 1) = d at hcount1 ⊢
    rw [heq, hs]
    by_cases h0 : s = 0
    · rw [if_pos h0, if_pos h0]
      rw [h0] at hmem2
      have hnone2 : (c1.moveKeyframeImpl (some k) newTime).keyframeAt 0 = none := by
        rw [keyframeAt_eq_none_iff]
        intro e he
        rcases (hmem2 e).1 he with h | h
        · rw [h]
          intro hcon
          exact hne (by rw [h0]; exact hcon)
        · exact h.2.1
      obtain ⟨_, hent3, htime3, hstore3, _⟩ :=
        insertKeyframe_result (c1.moveKeyframeImpl (some k) newTime) 0 none
          (by rw [hnone2]; intro e he; exact absurd he (by simp))
      have halloc2 : (c1.moveKeyframeImpl (some k) newTime).allocated = c.allocated := by
        rw [moveKeyframeImpl_allocated, halloc1]
      rw [halloc2] at hent3 htime3 hstore3
      have hl2 : (removeL (c1.moveKeyframeImpl (some k) newTime).keys.entries 0).Pairwise
          (fun a b => a.1 < b.1) :=
        ((c1.moveKeyframeImpl (some k) newTime).keys.remove 0).ordered
      have hn0 : newTime ≠ 0 := by rw [← h0]; exact hne
      refine ⟨rfl, ?_, ?_, fun h => absurd h0 h,
        fun _ => ⟨c.allocated, ?_, lt_irrefl _, htime3⟩, ?_⟩
      · unfold time
        rw [hstore3 k (by omega)]
        exact htime2
      · rw [keyframeAt_eq_some_iff, hent3, mem_insertL hl2, mem_removeL]
        exact Or.inr ⟨⟨(hmem2 _).2 (Or.inl rfl), hn0⟩, hn0⟩
      · rw [keyframeAt_eq_some_iff, hent3, mem_insertL hl2]
        exact Or.inl rfl
      · unfold keyframeCount QMap.count
        rw [hent3, length_insertL_of_not_mem _ _ _ (fun x hx => ((mem_removeL _ _ _).1 hx).2),
          removeL_of_not_mem _ _ ((keyframeAt_eq_none_iff _ 0).1 hnone2)]
        unfold keyframeCount QMap.count at hcount2 hcount1
        push_cast
        omega
    · rw [if_neg h0, if_neg h0]
      refine ⟨rfl, htime2, ?_, fun _ => ?_, fun h => absurd h h0, ?_⟩
      · rw [keyframeAt_eq_some_iff, hmem2]
        exact Or.inl rfl
      · rw [keyframeAt_eq_none_iff]
        intro e he
        rcases (hmem2 e).1 he with h | h
        · rw [h]
          exact hne
        · exact h.2.1
      · rw [hcount2, hcount1]
        simp
  refine ⟨?_, hmove⟩
  constructor
  · rintro ⟨hfalse, _⟩
    by_contra hne
    rw [(hmove hne).1] at hfalse
    exact absurd hfalse (by simp)
  · intro heq
    have : newTime = c.time k := by rw [hs]; exact heq
    unfold moveKeyframe
    rw [if_pos this]
    exact ⟨rfl, rfl⟩

/-- Witness of C10 on the sample channel: moving the keyframe at time 0 onto
the keyframe at time 10 removes that one and stores the new keyframe at
address 3 at time 0. -/
theorem moveKeyframe_moves_unless_same_time_witness :
    (sampleChannel.moveKeyframe 0 10).2.keys.entries = [(0, 3), (10, 0), (20, 2)] ∧
    (sampleChannel.moveKeyframe 0 10).1 = true ∧
    (sampleChannel.moveKeyframe 0 10).2.time 0 = 10 ∧
    (sampleChannel.moveKeyframe 0 10).2.keyframeAt 10 = some 0 ∧
    ((0 : Int) ≠ 0 → (sampleChannel.moveKeyframe 0 10).2.keyframeAt 0 = none) ∧
    ((0 : Int) = 0 → ∃ a, (sampleChannel.moveKeyframe 0 10).2.keyframeAt 0 = some a ∧
      ¬ a < sampleChannel.allocated ∧ (sampleChannel.moveKeyframe 0 10).2.time a = 0) ∧
    (sampleChannel.moveKeyframe 0 10).2.keyframeCount =
      sampleChannel.keyframeCount - (if sampleChannel.keyframeAt 10 = none then 0 else 1) +
        (if (0 : Int) = 0 then 1 else 0) :=
  ⟨by decide,
    (moveKeyframe_moves_unless_same_time sampleChannel (by decide) (by decide) 0 0 10
      (by decide)).2 (by decide)⟩

/-! ## Copies from another channel -/

theorem copyExternalKeyframe_eq_insertKeyframe (c src : KisKeyframeChannel)
    (srcTime dstTime : Int) (hid : src.id = c.id) :
    c.copyExternalKeyframe src srcTime dstTime = c.insertKeyframe dstTime none := by
  unfold copyExternalKeyframe insertKeyframe
  simp only [hid, ne_eq, not_true_eq_false, if_false, deleteKeyframeImpl_false,
    uploadExternalKeyframe]

/-- C11: `copyExternalKeyframe(srcChannel, srcTime, dstTime)` returns the null
keyframe and leaves the channel unchanged when the id of `srcChannel` differs
from the channel's id.  When the ids are equal, on a channel whose entries are
stored under their keyframes' times, it returns a newly created keyframe of
time `dstTime` that is then stored at `dstTime`, every other time being
unchanged. -/
theorem copyExternalKeyframe_rejects_other_id_else_stores (c src : KisKeyframeChannel)
    (hc : c.KeyTimeConsistent) (srcTime dstTime : Int) :
    (src.id ≠ c.id → c.copyExternalKeyframe src srcTime dstTime = (none, c)) ∧
    (src.id = c.id →
      ∃ k, (c.copyExternalKeyframe src srcTime dstTime).1 = some k ∧ ¬ k < c.allocated ∧
        (c.copyExternalKeyframe src srcTime dstTime).2.time k = dstTime ∧
        (c.copyExternalKeyframe src srcTime dstTime).2.keyframeAt dstTime = some k ∧
        ∀ u, u ≠ dstTime →
          (c.copyExternalKeyframe src srcTime dstTime).2.keyframeAt u = c.keyframeAt u) := by
  constructor
  · intro hid
    unfold copyExternalKeyframe
    rw [if_pos hid]
  · intro hid
    rw [copyExternalKeyframe_eq_insertKeyframe c src srcTime dstTime hid]
    obtain ⟨hfst, _, _, _, _⟩ := insertKeyframe_result c dstTime none
      (fun e he => hc (dstTime, e) ((keyframeAt_eq_some_iff c dstTime e).1 he))
    obtain ⟨k, hk1, hk2, hk3, _, _, hk6⟩ := insertKeyframe_stores c hc dstTime none
    have hk : k = c.allocated := by
      rw [hfst] at hk1
      exact (Option.some.inj hk1).symm
    refine ⟨k, hk1, ?_, hk2, hk3, hk6⟩
    rw [hk]
    exact lt_irrefl _

/-- Witness of C11 on the sample channel: a copy from a channel of the same
id to time 5 stores the new keyframe at address 3 there; a copy from a
channel of another id changes nothing. -/
theorem copyExternalKeyframe_rejects_other_id_else_stores_witness :
    (sampleChannel.copyExternalKeyframe lateChannel 10 5).2.keys.entries =
      [(0, 0), (5, 3), (10, 1), (20, 2)] ∧
    sampleChannel.copyExternalKeyframe { lateChannel with id := "content" } 10 5 =
      (none, sampleChannel) ∧
    ∃ k, (sampleChannel.copyExternalKeyframe lateChannel 10 5).1 = some k ∧
      ¬ k < sampleChannel.allocated ∧
      (sampleChannel.copyExternalKeyframe lateChannel 10 5).2.time k = 5 ∧
      (sampleChannel.copyExternalKeyframe lateChannel 10 5).2.keyframeAt 5 = some k ∧
      ∀ u, u ≠ 5 →
        (sampleChannel.copyExternalKeyframe lateChannel 10 5).2.keyframeAt u =
          sampleChannel.keyframeAt u :=
  ⟨by decide,
    (copyExternalKeyframe_rejects_other_id_else_stores sampleChannel
      { lateChannel with id := "content" } (by decide) 10 5).1 (by decide),
    (copyExternalKeyframe_rejects_other_id_else_stores sampleChannel lateChannel
      (by decide) 10 5).2 (by decide)⟩

/-! ## Neighbouring keyframes -/

theorem constFindL_eq_length_iff {V : Type} (l : List (Int × V)) (t : Int) :
    constFindL l t = l.length ↔ ∀ x ∈ l, x.1 ≠ t := by
  induction l with
  | nil => simp [constFindL]
  | cons e rest ih =>
    unfold constFindL
    by_cases h : e.1 = t
    · simp [h]
    · simp [h, ih]

theorem upperBoundL_eq_zero {V : Type} (l : List (Int × V)) (t : Int)
    (h : ∀ x ∈ l, t < x.1) : upperBoundL l t = 0 := by
  cases l with
  | nil => rfl
  | cons e rest =>
    unfold upperBoundL
    rw [if_pos (h e (List.mem_cons_self _ _))]

theorem upperBoundL_of_key {V : Type} {l : List (Int × V)}
    (hl : l.Pairwise (fun a b => a.1 < b.1)) (t : Int) (h : ∃ x ∈ l, x.1 = t) :
    upperBoundL l t = constFindL l t + 1 ∧ upperBoundL l (t - 1) = constFindL l t := by
  induction l with
  | nil =>
    obtain ⟨x, hx, _⟩ := h
    exact absurd hx (List.not_mem_nil _)
  | cons e rest ih =>
    rw [List.pairwise_cons] at hl
    unfold upperBoundL constFindL
    by_cases he : e.1 = t
    · have hrest : upperBoundL rest t = 0 := by
        apply upperBoundL_eq_zero
        intro x hx
        have := hl.1 x hx
        omega
      have h1 : ¬ t < e.1 := by omega
      have h2 : t - 1 < e.1 := by omega
      simp [he, h1, h2, hrest]
    · obtain ⟨x, hx, hxt⟩ := h
      rcases List.mem_cons.1 hx with hx1 | hx1
      · rw [hx1] at hxt
        exact absurd hxt he
      · have hlt := hl.1 x hx1
        have h1 : ¬ t < e.1 := by omega
        have h2 : ¬ t - 1 < e.1 := by omega
        obtain ⟨ih1, ih2⟩ := ih hl.2 ⟨x, hx1, hxt⟩
        simp [he, h1, h2, ih1, ih2]

theorem nextEntryL_eq_some_iff {V : Type} {l : List (Int × V)}
    (hl : l.Pairwise (fun a b => a.1 < b.1)) (t : Int) (e : Int × V) :
    nextEntryL l t = some e ↔ IsNextEntry l t e := by
  constructor
  · exact nextEntryL_isNext hl t e
  · rintro ⟨hm, hlt, hmin⟩
    cases hn : nextEntryL l t with
    | none =>
      have := (nextEntryL_eq_none_iff l t).1 hn e hm
      omega
    | some y =>
      obtain ⟨hm2, hlt2, hmin2⟩ := nextEntryL_isNext hl t y hn
      have h1 := hmin y hm2 hlt2
      have h2 := hmin2 e hm hlt
      rw [key_unique hl hm2 hm (by omega)]

theorem nextKeyframe_eq (c : KisKeyframeChannel) (k : Nat)
    (hkey : ∃ x ∈ c.keys.entries, x.1 = c.time k) :
    c.nextKeyframe k = (nextEntryL c.keys.entries (c.time k)).map Prod.snd := by
  obtain ⟨hub, _⟩ := upperBoundL_of_key c.keys.ordered (c.time k) hkey
  have hne : constFindL c.keys.entries (c.time k) ≠ c.keys.entries.length := by
    intro h
    obtain ⟨x, hx, hxt⟩ := hkey
    exact (constFindL_eq_length_iff _ _).1 h x hx hxt
  unfold nextKeyframe nextEntryL QMap.constFind QMap.constEnd QMap.value
  simp only [hne, if_false, hub]
  by_cases hend : constFindL c.keys.entries (c.time k) + 1 = c.keys.entries.length
  · simp [hend]
  · simp [hend]

theorem previousKeyframe_eq (c : KisKeyframeChannel) (k : Nat)
    (hkey : ∃ x ∈ c.keys.entries, x.1 = c.time k) :
    c.previousKeyframe k = (activeEntryL c.keys.entries (c.time k - 1)).map Prod.snd := by
  obtain ⟨_, hub⟩ := upperBoundL_of_key c.keys.ordered (c.time k) hkey
  have hne : constFindL c.keys.entries (c.time k) ≠ c.keys.entries.length := by
    intro h
    obtain ⟨x, hx, hxt⟩ := hkey
    exact (constFindL_eq_length_iff _ _).1 h x hx hxt
  unfold previousKeyframe activeEntryL QMap.constFind QMap.constEnd QMap.constBegin QMap.value
  rw [hub]
  by_cases h0 : constFindL c.keys.entries (c.time k) = 0
  · simp [h0]
  · simp [h0, hne]

theorem neighbours_of_absent_time (c : KisKeyframeChannel) (k : Nat)
    (h : ∀ e ∈ c.keys.entries, e.1 ≠ c.time k) :
    c.nextKeyframe k = none ∧ c.previousKeyframe k = none := by
  have hlen := (constFindL_eq_length_iff c.keys.entries (c.time k)).2 h
  unfold nextKeyframe previousKeyframe QMap.constFind QMap.constEnd
  simp [hlen]

theorem nextKeyframe_eq_some_iff (c : KisKeyframeChannel) (k : Nat)
    (hkey : ∃ x ∈ c.keys.entries, x.1 = c.time k) (n : Nat) :
    c.nextKeyframe k = some n ↔
      ∃ key, (key, n) ∈ c.keys.entries ∧ c.time k < key ∧
        ∀ x ∈ c.keys.entries, c.time k < x.1 → key ≤ x.1 := by
  rw [nextKeyframe_eq c k hkey, Option.map_eq_some']
  constructor
  · rintro ⟨e, he, hen⟩
    obtain ⟨hm, hlt, hmin⟩ := (nextEntryL_eq_some_iff c.keys.ordered _ e).1 he
    refine ⟨e.1, ?_, hlt, hmin⟩
    rw [← hen]
    exact hm
  · rintro ⟨key, hm, hlt, hmin⟩
    exact ⟨(key, n), (nextEntryL_eq_some_iff c.keys.ordered _ _).2 ⟨hm, hlt, hmin⟩, rfl⟩

theorem nextKeyframe_eq_none_iff (c : KisKeyframeChannel) (k : Nat)
    (hkey : ∃ x ∈ c.keys.entries, x.1 = c.time k) :
    c.nextKeyframe k = none ↔ ∀ x ∈ c.keys.entries, x.1 ≤ c.time k := by
  rw [nextKeyframe_eq c k hkey, Option.map_eq_none', nextEntryL_eq_none_iff]

theorem previousKeyframe_eq_some_iff (c : KisKeyframeChannel) (k : Nat)
    (hkey : ∃ x ∈ c.keys.entries, x.1 = c.time k) (p : Nat) :
    c.previousKeyframe k = some p ↔
      ∃ key, (key, p) ∈ c.keys.entries ∧ key < c.time k ∧
        ∀ x ∈ c.keys.entries, x.1 < c.time k → x.1 ≤ key := by
  rw [previousKeyframe_eq c k hkey, Option.map_eq_some']
  constructor
  · rintro ⟨e, he, hep⟩
    obtain ⟨hm, hle, hmax⟩ := (activeEntryL_eq_some_iff c.keys.ordered _ e).1 he
    refine ⟨e.1, ?_, by omega, fun x hx hxt => hmax x hx (by omega)⟩
    rw [← hep]
    exact hm
  · rintro ⟨key, hm, hlt, hmax⟩
    refine ⟨(key, p), (activeEntryL_eq_some_iff c.keys.ordered _ _).2 ⟨hm, ?_, ?_⟩, rfl⟩
    · show key ≤ c.time k - 1
      omega
    · intro x hx hxt
      exact hmax x hx (by omega)

theorem previousKeyframe_eq_none_iff (c : KisKeyframeChannel) (k : Nat)
    (hkey : ∃ x ∈ c.keys.entries, x.1 = c.time k) :
    c.previousKeyframe k = none ↔ ∀ x ∈ c.keys.entries, c.time k ≤ x.1 := by
  rw [previousKeyframe_eq c k hkey, Option.map_eq_none',
    activeEntryL_eq_none_iff c.keys.ordered]
  constructor
  · intro h x hx
    have := h x hx
    omega
  · intro h x hx
    have := h x hx
    omega

theorem previousKeyframe_nextKeyframe (c : KisKeyframeChannel) (hc : c.KeyTimeConsistent)
    (k : Nat) (hk : (c.time k, k) ∈ c.keys.entries) (n : Nat)
    (hn : c.nextKeyframe k = some n) : c.previousKeyframe n = some k := by
  obtain ⟨key, hm, hlt, hmin⟩ := (nextKeyframe_eq_some_iff c k ⟨_, hk, rfl⟩ n).1 hn
  have htn : c.time n = key := hc (key, n) hm
  rw [previousKeyframe_eq_some_iff c n ⟨_, hm, htn.symm⟩, htn]
  refine ⟨c.time k, hk, hlt, ?_⟩
  intro x hx hxk
  by_contra hcon
  have := hmin x hx (by omega)
  omega

theorem nextKeyframe_previousKeyframe (c : KisKeyframeChannel) (hc : c.KeyTimeConsistent)
    (k : Nat) (hk : (c.time k, k) ∈ c.keys.entries) (p : Nat)
    (hp : c.previousKeyframe k = some p) : c.nextKeyframe p = some k := by
  obtain ⟨key, hm, hlt, hmax⟩ := (previousKeyframe_eq_some_iff c k ⟨_, hk, rfl⟩ p).1 hp
  have htp : c.time p = key := hc (key, p) hm
  rw [nextKeyframe_eq_some_iff c p ⟨_, hm, htp.symm⟩, htp]
  refine ⟨c.time k, hk, hlt, ?_⟩
  intro x hx hxk
  by_contra hcon
  have := hmax x hx (by omega)
  omega

/-- C12: on a channel whose entries are stored under their keyframes' times,
for a keyframe `k` stored in the channel, `nextKeyframe(k)` is the stored
keyframe with the smallest time greater than `k.time()` and null exactly when
no keyframe is later; `previousKeyframe(k)` is the stored keyframe with the
greatest time smaller than `k.time()` and null exactly when no keyframe is
earlier; `previousKeyframe(nextKeyframe(k))` is `k` when `nextKeyframe(k)` is
non-null, and symmetrically.  For a keyframe whose time is not a key of the
channel both return null. -/
theorem nextKeyframe_previousKeyframe_are_neighbours (c : KisKeyframeChannel)
    (hc : c.KeyTimeConsistent) (k : Nat) (hk : c.keyframeAt (c.time k) = some k) :
    (∀ n, c.nextKeyframe k = some n ↔
      (∃ e ∈ c.keys.entries, e.2 = n) ∧ c.time k < c.time n ∧
        ∀ e ∈ c.keys.entries, c.time k < c.time e.2 → c.time n ≤ c.time e.2) ∧
    (c.nextKeyframe k = none ↔ ∀ e ∈ c.keys.entries, c.time e.2 ≤ c.time k) ∧
    (∀ p, c.previousKeyframe k = some p ↔
      (∃ e ∈ c.keys.entries, e.2 = p) ∧ c.time p < c.time k ∧
        ∀ e ∈ c.keys.entries, c.time e.2 < c.time k → c.time e.2 ≤ c.time p) ∧
    (c.previousKeyframe k = none ↔ ∀ e ∈ c.keys.entries, c.time k ≤ c.time e.2) ∧
    (∀ n, c.nextKeyframe k = some n → c.previousKeyframe n = some k) ∧
    (∀ p, c.previousKeyframe k = some p → c.nextKeyframe p = some k) ∧
    (∀ j, (∀ e ∈ c.keys.entries, e.1 ≠ c.time j) →
      c.nextKeyframe j = none ∧ c.previousKeyframe j = none) := by
  have hkm : (c.time k, k) ∈ c.keys.entries := (keyframeAt_eq_some_iff c _ k).1 hk
  have hkey : ∃ x ∈ c.keys.entries, x.1 = c.time k := ⟨_, hkm, rfl⟩
  refine ⟨?_, ?_, ?_, ?_, previousKeyframe_nextKeyframe c hc k hkm,
    nextKeyframe_previousKeyframe c hc k hkm, neighbours_of_absent_time c⟩
  · intro n
    rw [nextKeyframe_eq_some_iff c k hkey]
    constructor
    · rintro ⟨key, hm, hlt, hmin⟩
      have htn : c.time n = key := hc (key, n) hm
      refine ⟨⟨(key, n), hm, rfl⟩, by omega, ?_⟩
      intro e he het
      rw [hc e he] at het ⊢
      rw [htn]
      exact hmin e he het
    · rintro ⟨⟨e, he, hen⟩, hlt, hmin⟩
      have htn : c.time n = e.1 := by rw [← hen]; exact hc e he
      refine ⟨e.1, ?_, by omega, ?_⟩
      · rw [← hen]
        exact he
      · intro x hx hxt
        have := hmin x hx (by rw [hc x hx]; exact hxt)
        rw [hc x hx, htn] at this
        exact this
  · rw [nextKeyframe_eq_none_iff c k hkey]
    constructor
    · intro h e he
      rw [hc e he]
      exact h e he
    · intro h e he
      have := h e he
      rw [hc e he] at this
      exact this
  · intro p
    rw [previousKeyframe_eq_some_iff c k hkey]
    constructor
    · rintro ⟨key, hm, hlt, hmax⟩
      have htp : c.time p = key := hc (key, p) hm
      refine ⟨⟨(key, p), hm, rfl⟩, by omega, ?_⟩
      intro e he het
      rw [hc e he] at het ⊢
      rw [htp]
      exact hmax e he het
    · rintro ⟨⟨e, he, hep⟩, hlt, hmax⟩
      have htp : c.time p = e.1 := by rw [← hep]; exact hc e he
      refine ⟨e.1, ?_, by omega, ?_⟩
      · rw [← hep]
        exact he
      · intro x hx hxt
        have := hmax x hx (by rw [hc x hx]; exact hxt)
        rw [hc x hx, htp] at this
        exact this
  · rw [previousKeyframe_eq_none_iff c k hkey]
    constructor
    · intro h e he
      rw [hc e he]
      exact h e he
    · intro h e he
      have := h e he
      rw [hc e he] at this
      exact this

/-- Witness of C12 on the sample channel: the keyframe at time 10 has the
keyframe at time 20 as next and the keyframe at time 0 as previous. -/
theorem nextKeyframe_previousKeyframe_are_neighbours_witness :
    sampleChannel.nextKeyframe 1 = some 2 ∧ sampleChannel.previousKeyframe 1 = some 0 ∧
    sampleChannel.nextKeyframe 2 = none ∧ sampleChannel.previousKeyframe 0 = none ∧
    (∀ n, sampleChannel.nextKeyframe 1 = some n → sampleChannel.previousKeyframe n = some 1) ∧
    (∀ p, sampleChannel.previousKeyframe 1 = some p → sampleChannel.nextKeyframe p = some 1) :=
  ⟨by decide, by decide, by decide, by decide,
    (nextKeyframe_previousKeyframe_are_neighbours sampleChannel (by decide) 1
      (by decide)).2.2.2.2.1,
    (nextKeyframe_previousKeyframe_are_neighbours sampleChannel (by decide) 1
      (by decide)).2.2.2.2.2.1⟩

/-! ## The frames hash -/

theorem wrapInt32_add_wrapInt32 (a b : Int) :
    wrapInt32 (wrapInt32 a + b) = wrapInt32 (a + b) := by
  unfold wrapInt32
  omega

theorem wrapInt32_of_inInt32 (a : Int) (h : inInt32 a) : wrapInt32 a = a := by
  unfold inInt32 at h
  unfold wrapInt32
  omega

theorem inInt32_wrapInt32 (a : Int) : inInt32 (wrapInt32 a) := by
  unfold inInt32 wrapInt32
  omega

theorem wrapInt32_add_ne (a t : Int) (ht : inInt32 t) :
    wrapInt32 (a + t) ≠ wrapInt32 a ↔ t ≠ 0 := by
  unfold inInt32 at ht
  unfold wrapInt32
  omega

theorem foldl_hash_eq {V : Type} (l : List (Int × V)) (a : Int) (ha : inInt32 a) :
    l.foldl (fun hash e => wrapInt32 (hash + e.1)) a = wrapInt32 (a + keySum l) := by
  induction l generalizing a with
  | nil => simp [keySum, wrapInt32_of_inInt32 a ha]
  | cons e rest ih =>
    rw [List.foldl_cons, ih _ (inInt32_wrapInt32 _), wrapInt32_add_wrapInt32]
    simp [keySum, add_assoc]

theorem framesHash_eq (c : KisKeyframeChannel) :
    c.framesHash = wrapInt32 (keySum c.keys.entries) := by
  unfold framesHash
  rw [foldl_hash_eq _ 0 (by unfold inInt32; omega)]
  simp

theorem keySum_insertL {V : Type} (l : List (Int × V)) (t : Int) (v : V)
    (h : ∀ x ∈ l, x.1 ≠ t) : keySum (insertL l t v) = keySum l + t := by
  induction l with
  | nil => simp [insertL, keySum]
  | cons e rest ih =>
    unfold insertL
    split_ifs with h1 h2
    · simp [keySum]
      omega
    · exact absurd h2.symm (h e (List.mem_cons_self _ _))
    · have := ih (fun x hx => h x (List.mem_cons_of_mem _ hx))
      simp only [keySum, List.map_cons, List.sum_cons] at this ⊢
      omega

theorem keySum_removeL {V : Type} {l : List (Int × V)}
    (hl : l.Pairwise (fun a b => a.1 < b.1)) (t : Int) (h : ∃ x ∈ l, x.1 = t) :
    keySum (removeL l t) = keySum l - t := by
  induction l with
  | nil =>
    obtain ⟨x, hx, _⟩ := h
    exact absurd hx (List.not_mem_nil _)
  | cons e rest ih =>
    rw [List.pairwise_cons] at hl
    by_cases hk : e.1 = t
    · have hrest : removeL rest t = rest := by
        apply removeL_of_not_mem
        intro x hx
        have := hl.1 x hx
        omega
      have : removeL (e :: rest) t = removeL rest t := by
        simp [removeL, hk]
      rw [this, hrest]
      simp only [keySum, List.map_cons, List.sum_cons]
      omega
    · have hcons : removeL (e :: rest) t = e :: removeL rest t := by
        simp [removeL, hk]
      rw [hcons]
      obtain ⟨x, hx, hxk⟩ := h
      rcases List.mem_cons.1 hx with h1 | h1
      · rw [h1] at hxk
        exact absurd hxk hk
      · have := ih hl.2 ⟨x, h1, hxk⟩
        simp only [keySum, List.map_cons, List.sum_cons] at this ⊢
        omega

/-- Counterexample to C13: inserting the keyframe of time 0 into a channel
with keyframes at 10 and 20 only leaves `framesHash()` at 30. -/
theorem framesHash_unchanged_by_insert_at_zero :
    ¬ (∀ (c : KisKeyframeChannel) (k : Nat), c.keyframeAt (c.time k) = none →
      (c.insertKeyframeLogical k).framesHash ≠ c.framesHash) :=
  fun h => h lateChannel 0 (by decide) (by decide)

/-- C13, amended: `framesHash()` is the sum of the keys in 32-bit `int`
arithmetic.  For a keyframe `k` whose time is an `int`: inserting `k` at a time
that had no keyframe, or removing the stored keyframe `k`, changes the hash
exactly when `k.time() != 0`; moving the stored keyframe `k` to a different
free time always changes it. -/
theorem framesHash_changes_unless_time_zero (c : KisKeyframeChannel) (k : Nat)
    (newTime : Int) (hr : inInt32 (c.time k)) :
    c.framesHash = wrapInt32 (keySum c.keys.entries) ∧
    (c.keyframeAt (c.time k) = none →
      ((c.insertKeyframeLogical k).framesHash ≠ c.framesHash ↔ c.time k ≠ 0)) ∧
    (c.keyframeAt (c.time k) = some k →
      ((c.removeKeyframeLogical k).framesHash ≠ c.framesHash ↔ c.time k ≠ 0)) ∧
    (c.keyframeAt (c.time k) = some k → c.keyframeAt newTime = none → inInt32 newTime →
      (c.moveKeyframeImpl (some k) newTime).framesHash ≠ c.framesHash) := by
  refine ⟨framesHash_eq c, ?_, ?_, ?_⟩
  · intro hfree
    rw [framesHash_eq, framesHash_eq]
    show wrapInt32 (keySum (insertL c.keys.entries (c.time k) k)) ≠ _ ↔ _
    rw [keySum_insertL _ _ _ ((keyframeAt_eq_none_iff c _).1 hfree)]
    exact wrapInt32_add_ne _ _ hr
  · intro hk
    have hkm : (c.time k, k) ∈ c.keys.entries := (keyframeAt_eq_some_iff c _ k).1 hk
    rw [framesHash_eq, framesHash_eq]
    show wrapInt32 (keySum (removeL c.keys.entries (c.time k))) ≠ _ ↔ _
    rw [keySum_removeL c.keys.ordered _ ⟨_, hkm, rfl⟩]
    unfold inInt32 at hr
    unfold wrapInt32
    omega
  · intro hk hfree hnew
    have hkm : (c.time k, k) ∈ c.keys.entries := (keyframeAt_eq_some_iff c _ k).1 hk
    have hne : newTime ≠ c.time k :=
      fun h => (keyframeAt_eq_none_iff c newTime).1 hfree _ hkm h.symm
    rw [framesHash_eq, framesHash_eq, moveKeyframeImpl_entries c k newTime hfree,
      keySum_insertL _ _ _ (fun x hx => (keyframeAt_eq_none_iff c newTime).1 hfree x
        ((mem_removeL _ _ _).1 hx).1),
      keySum_removeL c.keys.ordered _ ⟨_, hkm, rfl⟩]
    unfold inInt32 at hr hnew
    unfold wrapInt32
    omega

/-- Witness of C13, amended, on the sample channel with the keyframe at time
10 and the free time 15. -/
theorem framesHash_changes_unless_time_zero_witness :
    sampleChannel.framesHash = 30 ∧
    (sampleChannel.removeKeyframeLogical 1).framesHash = 20 ∧
    (sampleChannel.moveKeyframeImpl (some 1) 15).framesHash = 35 ∧
    ((sampleChannel.removeKeyframeLogical 1).framesHash ≠ sampleChannel.framesHash ↔
      sampleChannel.time 1 ≠ 0) ∧
    (sampleChannel.moveKeyframeImpl (some 1) 15).framesHash ≠ sampleChannel.framesHash :=
  ⟨by decide, by decide, by decide,
    (framesHash_changes_unless_time_zero sampleChannel 1 15 (by decide)).2.2.1 (by decide),
    (framesHash_changes_unless_time_zero sampleChannel 1 15 (by decide)).2.2.2 (by decide)
      (by decide) (by decide)⟩

end KisKeyframeChannel

/-! ## Previous and next keyframe time in the curves model -/

namespace KisAnimationCurvesModel

open KisKeyframeChannel

theorem data_previousKeyframeTime_eq (m : KisAnimationCurvesModel) (index : QModelIndex)
    (baseData : QVariant) (c : KisKeyframeChannel) (hget : m.getChannelAt index = some (c, true))
    (hc : c.KeyTimeConsistent) :
    m.data index CurvesRole.PreviousKeyframeTime baseData =
      some (match activeEntryL c.keys.entries (index.column - 1) with
        | none => QVariant.invalid
        | some e => QVariant.int e.1) := by
  unfold data
  rw [hget]
  simp only
  cases ha : c.activeKeyframeAt index.column with
  | none =>
    simp only
    rw [activeKeyframeAt_eq, Option.map_eq_none', activeEntryL_eq_none_iff c.keys.ordered] at ha
    have hnone : activeEntryL c.keys.entries (index.column - 1) = none := by
      rw [activeEntryL_eq_none_iff c.keys.ordered]
      intro x hx
      have := ha x hx
      omega
    rw [hnone]
  | some a =>
    simp only
    rw [activeKeyframeAt_eq, Option.map_eq_some'] at ha
    obtain ⟨e, he, hea⟩ := ha
    obtain ⟨hm, hle, hmax⟩ := (activeEntryL_eq_some_iff c.keys.ordered _ e).1 he
    have hta : c.time a = e.1 := by rw [← hea]; exact hc e hm
    by_cases hlt : c.time a < index.column
    · rw [if_pos hlt]
      have hact : activeEntryL c.keys.entries (index.column - 1) = some e := by
        rw [activeEntryL_eq_some_iff c.keys.ordered]
        exact ⟨hm, by omega, fun x hx hxt => hmax x hx (by omega)⟩
      rw [hact, hta]
    · rw [if_neg hlt]
      have hcol : index.column = c.time a := by omega
      rw [previousKeyframe_eq c a ⟨e, hm, hta.symm⟩, hcol]
      cases hp : activeEntryL c.keys.entries (c.time a - 1) with
      | none => rfl
      | some y =>
        have hym := ((activeEntryL_eq_some_iff c.keys.ordered _ y).1 hp).1
        simp only [Option.map_some']
        rw [hc y hym]

/-- C14: for a scalar keyframe channel shown at a valid row of the curves
model, whose entries are stored under their keyframes' times, and every column
time `t`, `data(index, PreviousKeyframeTime)` is the greatest keyframe time
strictly less than `t`, and an invalid `QVariant` exactly when no keyframe lies
strictly before `t`. -/
theorem data_previousKeyframeTime_greatest_before (m : KisAnimationCurvesModel)
    (index : QModelIndex) (baseData : QVariant) (c : KisKeyframeChannel)
    (hget : m.getChannelAt index = some (c, true)) (hc : c.KeyTimeConsistent) :
    (∀ x, m.data index CurvesRole.PreviousKeyframeTime baseData = some (QVariant.int x) ↔
      (∃ e ∈ c.keys.entries, c.time e.2 = x) ∧ x < index.column ∧
        ∀ e ∈ c.keys.entries, c.time e.2 < index.column → c.time e.2 ≤ x) ∧
    (m.data index CurvesRole.PreviousKeyframeTime baseData = some QVariant.invalid ↔
      ∀ e ∈ c.keys.entries, ¬ c.time e.2 < index.column) := by
  rw [data_previousKeyframeTime_eq m index baseData c hget hc]
  constructor
  · intro x
    cases hp : activeEntryL c.keys.entries (index.column - 1) with
    | none =>
      have hall := (activeEntryL_eq_none_iff c.keys.ordered _).1 hp
      simp only [Option.some.injEq]
      constructor
      · intro h
        exact QVariant.noConfusion h
      · rintro ⟨⟨e, he, hex⟩, hlt, _⟩
        have := hall e he
        rw [hc e he] at hex
        omega
    | some y =>
      obtain ⟨hm, hle, hmax⟩ := (activeEntryL_eq_some_iff c.keys.ordered _ y).1 hp
      simp only [Option.some.injEq, QVariant.int.injEq]
      constructor
      · intro hyx
        refine ⟨⟨y, hm, by rw [hc y hm]; exact hyx⟩, by omega, ?_⟩
        intro e he het
        rw [hc e he] at het ⊢
        have := hmax e he (by omega)
        omega
      · rintro ⟨⟨e, he, hex⟩, hlt, hgr⟩
        rw [hc e he] at hex
        have h1 := hmax e he (by omega)
        have h2 := hgr y hm (by rw [hc y hm]; omega)
        rw [hc y hm] at h2
        omega
  · cases hp : activeEntryL c.keys.entries (index.column - 1) with
    | none =>
      have hall := (activeEntryL_eq_none_iff c.keys.ordered _).1 hp
      simp only [true_iff]
      intro e he
      have := hall e he
      rw [hc e he]
      omega
    | some y =>
      obtain ⟨hm, hle, _⟩ := (activeEntryL_eq_some_iff c.keys.ordered _ y).1 hp
      simp only [Option.some.injEq]
      constructor
      · intro h
        exact QVariant.noConfusion h
      · intro hall
        have := hall y hm
        rw [hc y hm] at this
        omega

/-- Witness of C14 on a model showing the sample channel at row 0: at column
10 the previous keyframe time is 0, at column 0 there is none. -/
theorem data_previousKeyframeTime_greatest_before_witness :
    (KisAnimationCurvesModel.mk [(sampleChannel, true)]).data ⟨0, 10⟩
      CurvesRole.PreviousKeyframeTime QVariant.invalid = some (QVariant.int 0) ∧
    ((KisAnimationCurvesModel.mk [(sampleChannel, true)]).data ⟨0, 0⟩
      CurvesRole.PreviousKeyframeTime QVariant.invalid = some QVariant.invalid ↔
      ∀ e ∈ sampleChannel.keys.entries, ¬ sampleChannel.time e.2 < 0) :=
  ⟨by decide,
    (data_previousKeyframeTime_greatest_before (KisAnimationCurvesModel.mk [(sampleChannel, true)])
      ⟨0, 0⟩ QVariant.invalid sampleChannel rfl (by decide)).2⟩

theorem nextEntryL_of_active {V : Type} {l : List (Int × V)}
    (hl : l.Pairwise (fun a b => a.1 < b.1)) (t : Int) (e : Int × V)
    (he : IsActiveEntry l t e) : nextEntryL l e.1 = nextEntryL l t := by
  obtain ⟨_, hle, hmax⟩ := he
  cases hn : nextEntryL l t with
  | none =>
    have hall := (nextEntryL_eq_none_iff l t).1 hn
    rw [nextEntryL_eq_none_iff]
    intro x hx
    exact hmax x hx (hall x hx)
  | some y =>
    obtain ⟨hm, hlt, hmin⟩ := nextEntryL_isNext hl t y hn
    rw [nextEntryL_eq_some_iff hl]
    refine ⟨hm, by omega, ?_⟩
    intro x hx hxe
    apply hmin x hx
    by_contra hcon
    have := hmax x hx (by omega)
    omega

/-- On a channel with at least one keyframe the role `NextKeyframeTime` yields
the least key above the column time, or an invalid `QVariant`. -/
theorem data_nextKeyframeTime_of_nonempty (m : KisAnimationCurvesModel) (index : QModelIndex)
    (baseData : QVariant) (c : KisKeyframeChannel) (hget : m.getChannelAt index = some (c, true))
    (hc : c.KeyTimeConsistent) (hne : c.keys.entries ≠ []) :
    m.data index CurvesRole.NextKeyframeTime baseData =
      some (match nextEntryL c.keys.entries index.column with
        | none => QVariant.invalid
        | some e => QVariant.int e.1) := by
  unfold data
  rw [hget]
  simp only
  cases ha : c.activeKeyframeAt index.column with
  | none =>
    simp only
    rw [activeKeyframeAt_eq, Option.map_eq_none', activeEntryL_eq_none_iff c.keys.ordered] at ha
    cases hl : c.keys.entries with
    | nil => exact absurd hl hne
    | cons e rest =>
      have hem : e ∈ c.keys.entries := by rw [hl]; exact List.mem_cons_self _ _
      have hlt : index.column < e.1 := ha e hem
      have hte : c.time e.2 = e.1 := hc e hem
      have hfirst : c.firstKeyframe = some (some e.2) := by
        unfold firstKeyframe
        rw [hl]
      rw [hfirst, nextEntryL_cons, if_pos hlt]
      simp only [hte]
      rw [if_pos (by omega)]
  | some a =>
    simp only
    rw [activeKeyframeAt_eq, Option.map_eq_some'] at ha
    obtain ⟨e, he, hea⟩ := ha
    have hact := (activeEntryL_eq_some_iff c.keys.ordered _ e).1 he
    have hta : c.time a = e.1 := by rw [← hea]; exact hc e hact.1
    rw [nextKeyframe_eq c a ⟨e, hact.1, hta.symm⟩, hta,
      nextEntryL_of_active c.keys.ordered _ e hact]
    cases hn : nextEntryL c.keys.entries index.column with
    | none => rfl
    | some y =>
      have hym := (nextEntryL_isNext c.keys.ordered _ y hn).1
      simp only [Option.map_some']
      rw [hc y hym]

/-- C15 at its failing input: for a scalar channel without keyframes shown at
row 0, `data(index, NextKeyframeTime)` has no defined result, because
`firstKeyframe()` evaluates `first()` on the empty map; on the same input the
role `PreviousKeyframeTime` yields an invalid `QVariant`. -/
theorem data_nextKeyframeTime_undefined_without_keyframes :
    emptyChannel.firstKeyframe = none ∧
    (KisAnimationCurvesModel.mk [(emptyChannel, true)]).data ⟨0, 10⟩
      CurvesRole.NextKeyframeTime QVariant.invalid = none ∧
    (KisAnimationCurvesModel.mk [(emptyChannel, true)]).data ⟨0, 10⟩
      CurvesRole.PreviousKeyframeTime QVariant.invalid = some QVariant.invalid := by
  refine ⟨rfl, ?_, ?_⟩ <;> decide

end KisAnimationCurvesModel

namespace KisKeyframeChannel

/-! ## The key/time invariant -/

theorem insertKeyframeLogical_consistent (c : KisKeyframeChannel) (hc : c.KeyTimeConsistent)
    (k : Nat) : (c.insertKeyframeLogical k).KeyTimeConsistent := by
  intro x hx
  have hx2 : x ∈ insertL c.keys.entries (c.time k) k := hx
  show c.time x.2 = x.1
  rcases (mem_insertL c.keys.ordered _ _ x).1 hx2 with h | h
  · rw [h]
  · exact hc x h.1

theorem removeKeyframeLogical_consistent (c : KisKeyframeChannel) (hc : c.KeyTimeConsistent)
    (k : Nat) : (c.removeKeyframeLogical k).KeyTimeConsistent := by
  intro x hx
  have hx2 : x ∈ removeL c.keys.entries (c.time k) := hx
  show c.time x.2 = x.1
  exact hc x ((mem_removeL _ _ x).1 hx2).1

theorem replaceKeyframeAt_consistent (c : KisKeyframeChannel) (hc : c.KeyTimeConsistent)
    (t : Int) (n : KisKeyframeSP) : (c.replaceKeyframeAt t n).2.KeyTimeConsistent := by
  unfold replaceKeyframeAt
  cases c.keyframeAt t with
  | none =>
    cases n with
    | none => exact hc
    | some a => exact insertKeyframeLogical_consistent c hc a
  | some e =>
    cases n with
    | none => exact removeKeyframeLogical_consistent c hc e
    | some a =>
      exact insertKeyframeLogical_consistent _ (removeKeyframeLogical_consistent c hc e) a

theorem moveKeyframeImpl_consistent (c : KisKeyframeChannel) (hc : c.KeyTimeConsistent)
    (k : KisKeyframeSP) (newTime : Int) : (c.moveKeyframeImpl k newTime).KeyTimeConsistent := by
  cases k with
  | none => exact hc
  | some a =>
    cases hfree : c.keyframeAt newTime with
    | some o =>
      have : c.moveKeyframeImpl (some a) newTime = c := by
        simp [moveKeyframeImpl, hfree]
      rw [this]
      exact hc
    | none =>
      intro x hx
      have hstore := moveKeyframeImpl_store c a newTime hfree
      have htime : (c.moveKeyframeImpl (some a) newTime).time x.2 =
          if x.2 = a then newTime else c.time x.2 := by
        unfold time
        rw [hstore]
        by_cases h : x.2 = a
        · simp [h]
        · simp [h]
      rw [htime]
      rcases (mem_moveKeyframeImpl_entries c a newTime hfree x).1 hx with h | h
      · rw [h]
        simp
      · have hx1 := hc x h.1
        by_cases hxa : x.2 = a
        · rw [hxa] at hx1
          exact absurd hx1.symm h.2.1
        · rw [if_neg hxa]
          exact hx1

/-- C17: every entry of the keyframe map is stored under the key equal to its
keyframe's `time()`: this holds of a map without entries and is preserved by
`insertKeyframeLogical`, `removeKeyframeLogical`, `replaceKeyframeAt` (for a new
keyframe that is null or has the given time) and `moveKeyframeImpl`. -/
theorem keyTimeConsistent_is_preserved (c : KisKeyframeChannel) :
    (c.keys.entries = [] → c.KeyTimeConsistent) ∧
    (c.KeyTimeConsistent →
      (∀ k, (c.insertKeyframeLogical k).KeyTimeConsistent) ∧
      (∀ k, (c.removeKeyframeLogical k).KeyTimeConsistent) ∧
      (∀ t n, (∀ a, n = some a → c.time a = t) →
        (c.replaceKeyframeAt t n).2.KeyTimeConsistent) ∧
      (∀ k newTime, (c.moveKeyframeImpl k newTime).KeyTimeConsistent)) := by
  constructor
  · intro hnil x hx
    rw [hnil] at hx
    exact absurd hx (List.not_mem_nil _)
  · intro hc
    exact ⟨insertKeyframeLogical_consistent c hc, removeKeyframeLogical_consistent c hc,
      fun t n _ => replaceKeyframeAt_consistent c hc t n,
      moveKeyframeImpl_consistent c hc⟩

/-- Witness of C17 on the sample channel: moving the keyframe at address 1
to time 15 keeps every entry under its keyframe's time. -/
theorem keyTimeConsistent_is_preserved_witness :
    sampleChannel.KeyTimeConsistent ∧
    (sampleChannel.moveKeyframeImpl (some 1) 15).keys.entries = [(0, 0), (15, 1), (20, 2)] ∧
    (sampleChannel.moveKeyframeImpl (some 1) 15).time 1 = 15 ∧
    (sampleChannel.moveKeyframeImpl (some 1) 15).KeyTimeConsistent ∧
    (sampleChannel.insertKeyframeLogical 4).KeyTimeConsistent :=
  ⟨by decide, by decide, by decide,
    ((keyTimeConsistent_is_preserved sampleChannel).2 (by decide)).2.2.2 (some 1) 15,
    ((keyTimeConsistent_is_preserved sampleChannel).2 (by decide)).1 4⟩

/-! ## The keyframe at time zero -/

theorem insertKeyframe_keeps_zero (c : KisKeyframeChannel) (hc : c.KeyTimeConsistent)
    (h0 : c.keyframeAt 0 ≠ none) (t : Int) (src : KisKeyframeSP) :
    (c.insertKeyframe t src).2.keyframeAt 0 ≠ none := by
  obtain ⟨k, _, _, hat, _, _, hother⟩ := insertKeyframe_stores c hc t src
  by_cases ht : t = 0
  · subst ht
    rw [hat]
    simp
  · rw [hother 0 (fun h => ht h.symm)]
    exact h0

theorem deleteKeyframe_keeps_zero (c : KisKeyframeChannel) (hc : c.KeyTimeConsistent)
    (h0 : c.keyframeAt 0 ≠ none) (k : Nat) : (c.deleteKeyframe k).2.keyframeAt 0 ≠ none := by
  rw [deleteKeyframe_eq]
  by_cases hk : c.time k = 0
  · simp only [if_pos hk]
    obtain ⟨a, _, _, hat, _, _, _⟩ :=
      insertKeyframe_stores _ (replaceKeyframeAt_consistent c hc (c.time k) none) 0 none
    rw [hat]
    simp
  · simp only [if_neg hk]
    rw [(replaceKeyframeAt_facts c hc (c.time k) none (by simp)).2.2 0 (fun h => hk h.symm)]
    exact h0

theorem moveKeyframe_keeps_zero (c : KisKeyframeChannel) (hc : c.KeyTimeConsistent)
    (h0 : c.keyframeAt 0 ≠ none) (k : Nat) (newTime : Int) :
    (c.moveKeyframe k newTime).2.keyframeAt 0 ≠ none := by
  by_cases hsame : newTime = c.time k
  · unfold moveKeyframe
    rw [if_pos hsame]
    exact h0
  · obtain ⟨c1, hent1, hstore1, _, heq⟩ := moveKeyframe_eq c hc k newTime hsame
    have htime1 : ∀ a, c1.time a = c.time a := by
      intro a
      unfold time
      rw [hstore1]
    have hc1 : c1.KeyTimeConsistent := by
      intro x hx
      rw [hent1] at hx
      rw [htime1]
      exact hc x ((mem_removeL _ _ _).1 hx).1
    have hfree1 : c1.keyframeAt newTime = none := by
      rw [keyframeAt_eq_none_iff, hent1]
      intro e he
      exact ((mem_removeL _ _ _).1 he).2
    rw [heq]
    by_cases hk : c.time k = 0
    · simp only [if_pos hk]
      obtain ⟨a, _, _, hat, _, _, _⟩ :=
        insertKeyframe_stores _ (moveKeyframeImpl_consistent c1 hc1 (some k) newTime) 0 none
      rw [hat]
      simp
    · simp only [if_neg hk]
      obtain ⟨a, ha⟩ := Option.ne_none_iff_exists'.1 h0
      have ham : ((0 : Int), a) ∈ c.keys.entries := (keyframeAt_eq_some_iff c 0 a).1 ha
      by_cases hn : newTime = 0
      · have : (c1.moveKeyframeImpl (some k) newTime).keyframeAt 0 = some k := by
          rw [keyframeAt_eq_some_iff, mem_moveKeyframeImpl_entries c1 k newTime hfree1, hn]
          exact Or.inl rfl
        rw [this]
        simp
      · have : (c1.moveKeyframeImpl (some k) newTime).keyframeAt 0 = some a := by
          rw [keyframeAt_eq_some_iff, mem_moveKeyframeImpl_entries c1 k newTime hfree1, hent1,
            mem_removeL, htime1]
          exact Or.inr ⟨⟨ham, fun h => hn h.symm⟩, fun h => hk h.symm, fun h => hn h.symm⟩
        rw [this]
        simp

/-- C18: on a channel whose entries are stored under their keyframes' times
and which has a keyframe at time 0, there still is a keyframe at time 0 after
`addKeyframe`, `copyKeyframe`, `deleteKeyframe`, `moveKeyframe` and
`copyExternalKeyframe`, whatever their arguments. -/
theorem keyframe_at_time_zero_is_kept (c : KisKeyframeChannel) (hc : c.KeyTimeConsistent)
    (h0 : c.keyframeAt 0 ≠ none) :
    (∀ t, (c.addKeyframe t).2.keyframeAt 0 ≠ none) ∧
    (∀ src t, (c.copyKeyframe src t).2.keyframeAt 0 ≠ none) ∧
    (∀ k, (c.deleteKeyframe k).2.keyframeAt 0 ≠ none) ∧
    (∀ k newTime, (c.moveKeyframe k newTime).2.keyframeAt 0 ≠ none) ∧
    (∀ src srcTime dstTime,
      (c.copyExternalKeyframe src srcTime dstTime).2.keyframeAt 0 ≠ none) := by
  refine ⟨fun t => insertKeyframe_keeps_zero c hc h0 t none,
    fun src t => insertKeyframe_keeps_zero c hc h0 t src,
    deleteKeyframe_keeps_zero c hc h0, moveKeyframe_keeps_zero c hc h0, ?_⟩
  intro src srcTime dstTime
  by_cases hid : src.id = c.id
  · rw [copyExternalKeyframe_eq_insertKeyframe c src srcTime dstTime hid]
    exact insertKeyframe_keeps_zero c hc h0 dstTime none
  · unfold copyExternalKeyframe
    rw [if_pos hid]
    exact h0

/-- Witness of C18 on the sample channel: deleting the keyframe at time 0 or
moving it to time 5 leaves a new keyframe at time 0. -/
theorem keyframe_at_time_zero_is_kept_witness :
    (sampleChannel.deleteKeyframe 0).2.keyframeAt 0 = some 3 ∧
    (sampleChannel.moveKeyframe 0 5).2.keys.entries = [(0, 3), (5, 0), (10, 1), (20, 2)] ∧
    (sampleChannel.moveKeyframe 1 0).2.keys.entries = [(0, 1), (20, 2)] ∧
    (∀ k, (sampleChannel.deleteKeyframe k).2.keyframeAt 0 ≠ none) ∧
    (∀ k newTime, (sampleChannel.moveKeyframe k newTime).2.keyframeAt 0 ≠ none) :=
  ⟨by decide, by decide, by decide,
    (keyframe_at_time_zero_is_kept sampleChannel (by decide) (by decide)).2.2.1,
    (keyframe_at_time_zero_is_kept sampleChannel (by decide) (by decide)).2.2.2.1⟩

/-! ## Affected ranges as a partition, identical frames -/

theorem affectedFrames_partition_facts (c : KisKeyframeChannel) (t : Int) :
    (∀ u, (c.affectedFrames t).contains u = true → c.affectedFrames u = c.affectedFrames t) ∧
    (∀ x ∈ c.keys.entries, (c.affectedFrames t).contains x.1 = true →
      x.1 = (c.affectedFrames t).start) := by
  by_cases hnil : c.keys.entries = []
  · constructor
    · intro u _
      rw [affectedFrames_eq, affectedFrames_eq]
      simp [hnil]
    · intro x hx
      rw [hnil] at hx
      exact absurd hx (List.not_mem_nil _)
  · have hsame : ∀ u, activeEntryL c.keys.entries u = activeEntryL c.keys.entries t →
        nextEntryL c.keys.entries u = nextEntryL c.keys.entries t →
        c.affectedFrames u = c.affectedFrames t := by
      intro u h1 h2
      rw [affectedFrames_eq, affectedFrames_eq, h1, h2]
    cases ha : activeEntryL c.keys.entries t with
    | none =>
      have hall := (activeEntryL_eq_none_iff c.keys.ordered t).1 ha
      cases hn : nextEntryL c.keys.entries t with
      | none =>
        obtain ⟨y, hy⟩ := List.exists_mem_of_ne_nil _ hnil
        have h1 := hall y hy
        have h2 := (nextEntryL_eq_none_iff _ t).1 hn y hy
        omega
      | some n =>
        obtain ⟨hnm, hlt, hmin⟩ := nextEntryL_isNext c.keys.ordered t n hn
        have hrange : c.affectedFrames t = KisTimeRange.fromTime 0 (n.1 - 1) := by
          rw [affectedFrames_eq]
          simp [hnil, ha, hn]
        rw [hrange]
        simp only [KisTimeRange.contains, Bool.and_eq_true, decide_eq_true_eq]
        constructor
        · rintro u ⟨_, hun⟩
          rw [← hrange]
          apply hsame
          · rw [ha, activeEntryL_eq_none_iff c.keys.ordered]
            intro x hx
            have := hmin x hx (hall x hx)
            omega
          · rw [hn, nextEntryL_eq_some_iff c.keys.ordered]
            exact ⟨hnm, by omega, fun x hx _ => hmin x hx (hall x hx)⟩
        · rintro x hx ⟨_, hxn⟩
          have := hmin x hx (hall x hx)
          omega
    | some e =>
      obtain ⟨hem, hle, hmax⟩ := (activeEntryL_eq_some_iff c.keys.ordered t e).1 ha
      cases hn : nextEntryL c.keys.entries t with
      | none =>
        have hall := (nextEntryL_eq_none_iff _ t).1 hn
        have hrange : c.affectedFrames t = KisTimeRange.infinite e.1 := by
          rw [affectedFrames_eq]
          simp [hnil, ha, hn]
        rw [hrange]
        simp only [KisTimeRange.contains, decide_eq_true_eq, KisTimeRange.start]
        constructor
        · intro u hu
          rw [← hrange]
          apply hsame
          · rw [ha, activeEntryL_eq_some_iff c.keys.ordered]
            exact ⟨hem, hu, fun x hx _ => hmax x hx (hall x hx)⟩
          · rw [hn, nextEntryL_eq_none_iff]
            intro x hx
            have := hmax x hx (hall x hx)
            omega
        · intro x hx hxe
          have := hmax x hx (hall x hx)
          omega
      | some n =>
        obtain ⟨hnm, hlt, hmin⟩ := nextEntryL_isNext c.keys.ordered t n hn
        have hrange : c.affectedFrames t = KisTimeRange.fromTime e.1 (n.1 - 1) := by
          rw [affectedFrames_eq]
          simp [hnil, ha, hn]
        rw [hrange]
        simp only [KisTimeRange.contains, Bool.and_eq_true, decide_eq_true_eq,
          KisTimeRange.start]
        constructor
        · rintro u ⟨heu, hun⟩
          rw [← hrange]
          apply hsame
          · rw [ha, activeEntryL_eq_some_iff c.keys.ordered]
            refine ⟨hem, heu, ?_⟩
            intro x hx hxu
            apply hmax x hx
            by_contra hcon
            have := hmin x hx (by omega)
            omega
          · rw [hn, nextEntryL_eq_some_iff c.keys.ordered]
            refine ⟨hnm, by omega, ?_⟩
            intro x hx hxu
            apply hmin x hx
            by_contra hcon
            have := hmax x hx (by omega)
            omega
        · rintro x hx ⟨hex, hxn⟩
          have : x.1 ≤ e.1 := by
            apply hmax x hx
            by_contra hcon
            have := hmin x hx (by omega)
            omega
          omega

/-- C19: on a channel whose entries are stored under their keyframes' times,
with all keyframe times `>= 0` and `t >= 0`: for every `u` contained in
`affectedFrames(t)`, `affectedFrames(u)` equals `affectedFrames(t)`; and a
keyframe time that lies inside `affectedFrames(t)` is the start of that
range. -/
theorem affectedFrames_partition_timeline (c : KisKeyframeChannel)
    (hc : c.KeyTimeConsistent) (t : Int) :
    (∀ e ∈ c.keys.entries, 0 ≤ c.time e.2) → 0 ≤ t →
      (∀ u, (c.affectedFrames t).contains u = true →
        c.affectedFrames u = c.affectedFrames t) ∧
      (∀ e ∈ c.keys.entries, (c.affectedFrames t).contains (c.time e.2) = true →
        c.time e.2 = (c.affectedFrames t).start) := by
  intro _ _
  obtain ⟨h1, h2⟩ := affectedFrames_partition_facts c t
  refine ⟨h1, ?_⟩
  intro e he hcont
  rw [hc e he] at hcont ⊢
  exact h2 e he hcont

/-- Witness of C19 on the sample channel at time 15, whose range is 10..19. -/
theorem affectedFrames_partition_timeline_witness :
    sampleChannel.affectedFrames 15 = KisTimeRange.fromTime 10 19 ∧
    sampleChannel.affectedFrames 12 = sampleChannel.affectedFrames 15 ∧
    (∀ u, (sampleChannel.affectedFrames 15).contains u = true →
      sampleChannel.affectedFrames u = sampleChannel.affectedFrames 15) ∧
    (∀ e ∈ sampleChannel.keys.entries,
      (sampleChannel.affectedFrames 15).contains (sampleChannel.time e.2) = true →
      sampleChannel.time e.2 = (sampleChannel.affectedFrames 15).start) :=
  ⟨by decide, by decide,
    affectedFrames_partition_timeline sampleChannel (by decide) 15 (by decide) (by decide)⟩

theorem identicalFrames_eq (c : KisKeyframeChannel) (t : Int) :
    c.identicalFrames t =
      match c.activeKeyframeAt t, nextEntryL c.keys.entries t with
      | some a, some _ =>
        if c.interpolationMode a ≠ InterpolationMode.Constant then KisTimeRange.fromTime t t
        else c.affectedFrames t
      | _, _ => c.affectedFrames t := by
  have hle := upperBoundL_le_length c.keys.entries t
  rw [activeKeyframeAt_eq]
  unfold identicalFrames activeKeyIterator activeEntryL nextEntryL QMap.upperBound
    QMap.constBegin QMap.constEnd QMap.value
  by_cases h0 : upperBoundL c.keys.entries t = 0
  · simp [h0]
  · have hne : upperBoundL c.keys.entries t - 1 ≠ c.keys.entries.length := by omega
    have hlt : upperBoundL c.keys.entries t - 1 < c.keys.entries.length := by omega
    have hadd : upperBoundL c.keys.entries t - 1 + 1 = upperBoundL c.keys.entries t := by omega
    simp only [h0, if_false, hne, hadd, ne_eq, not_false_eq_true, true_and,
      List.get?_eq_getElem?, List.getElem?_eq_getElem hlt, Option.map_some']
    by_cases hend : upperBoundL c.keys.entries t = c.keys.entries.length
    · simp [hend]
    · have hlt2 : upperBoundL c.keys.entries t < c.keys.entries.length := by omega
      simp [hend, List.getElem?_eq_getElem hlt2]

theorem affectedFrames_contains_of_active (c : KisKeyframeChannel) (t : Int) (a : Nat)
    (ha : c.activeKeyframeAt t = some a) : (c.affectedFrames t).contains t = true := by
  rw [activeKeyframeAt_eq, Option.map_eq_some'] at ha
  obtain ⟨e, he, _⟩ := ha
  obtain ⟨hem, hle, _⟩ := (activeEntryL_eq_some_iff c.keys.ordered t e).1 he
  have hnil : c.keys.entries ≠ [] := List.ne_nil_of_mem hem
  rw [affectedFrames_eq]
  simp only [hnil, if_false, he]
  cases hn : nextEntryL c.keys.entries t with
  | none => simpa [KisTimeRange.contains] using hle
  | some n =>
    have hlt := (nextEntryL_isNext c.keys.ordered t n hn).2.1
    simp only [KisTimeRange.contains, Bool.and_eq_true, decide_eq_true_eq]
    exact ⟨hle, by omega⟩

/-- Counterexample to C20: with keyframes at times 5 and 6 and constant
interpolation, `identicalFrames(5)` is the single-frame range 5..5 although
the active keyframe's mode is Constant. -/
theorem identicalFrames_single_frame_with_constant_mode :
    ¬ (adjacentChannel.identicalFrames 5 = KisTimeRange.fromTime 5 5 ↔
      ∃ a, adjacentChannel.activeKeyframeAt 5 = some a ∧
        (∃ e ∈ adjacentChannel.keys.entries, 5 < e.1) ∧
        adjacentChannel.interpolationMode a ≠ InterpolationMode.Constant) := by
  intro h
  obtain ⟨a, ha, _, hmode⟩ := h.1 (by decide)
  have h0 : adjacentChannel.activeKeyframeAt 5 = some 0 := by decide
  rw [h0] at ha
  have : a = 0 := (Option.some.inj ha).symm
  rw [this] at hmode
  exact hmode (by decide)

/-- C20, amended: `identicalFrames(t)` is the single-frame range `[t, t]` when a
keyframe is active at `t`, a later keyframe exists and the active keyframe's
interpolation mode is not Constant; in every other case it equals
`affectedFrames(t)`.  So it is `[t, t]` exactly when those three conditions
hold or `affectedFrames(t)` is itself `[t, t]`, and for every channel and every
`t` the frames of `identicalFrames(t)` are frames of `affectedFrames(t)`. -/
theorem identicalFrames_single_frame_or_affectedFrames (c : KisKeyframeChannel) (t : Int) :
    ((∃ a, c.activeKeyframeAt t = some a ∧ (∃ e ∈ c.keys.entries, t < e.1) ∧
        c.interpolationMode a ≠ InterpolationMode.Constant) →
      c.identicalFrames t = KisTimeRange.fromTime t t) ∧
    (¬ (∃ a, c.activeKeyframeAt t = some a ∧ (∃ e ∈ c.keys.entries, t < e.1) ∧
        c.interpolationMode a ≠ InterpolationMode.Constant) →
      c.identicalFrames t = c.affectedFrames t) ∧
    (c.identicalFrames t = KisTimeRange.fromTime t t ↔
      (∃ a, c.activeKeyframeAt t = some a ∧ (∃ e ∈ c.keys.entries, t < e.1) ∧
        c.interpolationMode a ≠ InterpolationMode.Constant) ∨
      c.affectedFrames t = KisTimeRange.fromTime t t) ∧
    rangeWithin (c.identicalFrames t) (c.affectedFrames t) := by
  have hyes : (∃ a, c.activeKeyframeAt t = some a ∧ (∃ e ∈ c.keys.entries, t < e.1) ∧
        c.interpolationMode a ≠ InterpolationMode.Constant) →
      c.identicalFrames t = KisTimeRange.fromTime t t := by
    rintro ⟨a, ha, ⟨e, he, hlt⟩, hmode⟩
    rw [identicalFrames_eq, ha]
    cases hn : nextEntryL c.keys.entries t with
    | none =>
      have := (nextEntryL_eq_none_iff _ t).1 hn e he
      omega
    | some n => simp [hmode]
  have hno : ¬ (∃ a, c.activeKeyframeAt t = some a ∧ (∃ e ∈ c.keys.entries, t < e.1) ∧
        c.interpolationMode a ≠ InterpolationMode.Constant) →
      c.identicalFrames t = c.affectedFrames t := by
    intro hcond
    rw [identicalFrames_eq]
    cases ha : c.activeKeyframeAt t with
    | none => rfl
    | some a =>
      cases hn : nextEntryL c.keys.entries t with
      | none => rfl
      | some n =>
        obtain ⟨hnm, hlt, _⟩ := nextEntryL_isNext c.keys.ordered t n hn
        have hmode : ¬ c.interpolationMode a ≠ InterpolationMode.Constant :=
          fun hm => hcond ⟨a, ha, ⟨n, hnm, hlt⟩, hm⟩
        simp only [if_neg hmode]
  refine ⟨hyes, hno, ?_, ?_⟩
  · constructor
    · intro h
      by_cases hcond : ∃ a, c.activeKeyframeAt t = some a ∧ (∃ e ∈ c.keys.entries, t < e.1) ∧
          c.interpolationMode a ≠ InterpolationMode.Constant
      · exact Or.inl hcond
      · rw [hno hcond] at h
        exact Or.inr h
    · rintro (hcond | haff)
      · exact hyes hcond
      · by_cases hcond : ∃ a, c.activeKeyframeAt t = some a ∧
            (∃ e ∈ c.keys.entries, t < e.1) ∧
            c.interpolationMode a ≠ InterpolationMode.Constant
        · exact hyes hcond
        · rw [hno hcond]
          exact haff
  · by_cases hcond : ∃ a, c.activeKeyframeAt t = some a ∧ (∃ e ∈ c.keys.entries, t < e.1) ∧
        c.interpolationMode a ≠ InterpolationMode.Constant
    · rw [hyes hcond]
      obtain ⟨a, ha, _, _⟩ := hcond
      intro u hu
      simp only [KisTimeRange.contains, Bool.and_eq_true, decide_eq_true_eq] at hu
      have : u = t := by omega
      rw [this]
      exact affectedFrames_contains_of_active c t a ha
    · rw [hno hcond]
      intro u hu
      exact hu

/-- Witness of C20, amended: with linear interpolation between keyframes at 0
and 10, `identicalFrames(3)` is 3..3, inside `affectedFrames(3)`, which is
0..9. -/
theorem identicalFrames_single_frame_or_affectedFrames_witness :
    linearChannel.affectedFrames 3 = KisTimeRange.fromTime 0 9 ∧
    linearChannel.identicalFrames 3 = KisTimeRange.fromTime 3 3 ∧
    rangeWithin (linearChannel.identicalFrames 3) (linearChannel.affectedFrames 3) :=
  ⟨by decide,
    (identicalFrames_single_frame_or_affectedFrames linearChannel 3).1
      ⟨0, by decide, ⟨(10, 1), by decide, by decide⟩, by decide⟩,
    (identicalFrames_single_frame_or_affectedFrames linearChannel 3).2.2.2⟩

/-! ## Failing guards of the move -/

theorem moveKeyframeImpl_of_occupied (c : KisKeyframeChannel) (k : KisKeyframeSP)
    (newTime : Int) (h : c.keyframeAt newTime ≠ none) : c.moveKeyframeImpl k newTime = c := by
  cases k with
  | none => rfl
  | some a =>
    obtain ⟨o, ho⟩ := Option.ne_none_iff_exists'.1 h
    simp [moveKeyframeImpl, ho]

/-- C21: `moveKeyframeImpl(k, newTime)` does nothing when a guard fails: if `k`
is null, or a keyframe already exists at `newTime` (as it does for
`newTime == k.time()` when `k` is stored under its time), the channel after
the call is the channel before it, so the keyframe map and the time of every
keyframe are unchanged and no update range is requested. -/
theorem moveKeyframeImpl_noop_when_guard_fails (c : KisKeyframeChannel) (newTime : Int) :
    c.moveKeyframeImpl none newTime = c ∧
    (∀ k : KisKeyframeSP, c.keyframeAt newTime ≠ none → c.moveKeyframeImpl k newTime = c) ∧
    (∀ k : Nat, c.keyframeAt (c.time k) = some k →
      c.moveKeyframeImpl (some k) (c.time k) = c) ∧
    (∀ k : KisKeyframeSP, k = none ∨ c.keyframeAt newTime ≠ none →
      (c.moveKeyframeImpl k newTime).keys = c.keys ∧
      (∀ a, (c.moveKeyframeImpl k newTime).time a = c.time a) ∧
      (c.moveKeyframeImpl k newTime).requested = c.requested) := by
  refine ⟨rfl, fun k hk => moveKeyframeImpl_of_occupied c k newTime hk, ?_, ?_⟩
  · intro k hk
    apply moveKeyframeImpl_of_occupied
    rw [hk]
    simp
  · rintro k (hk | hk)
    · rw [hk]
      exact ⟨rfl, fun _ => rfl, rfl⟩
    · rw [moveKeyframeImpl_of_occupied c k newTime hk]
      exact ⟨rfl, fun _ => rfl, rfl⟩

/-- Witness of C21 on the sample channel: moving the keyframe at time 10 onto
the keyframe at time 20 is refused. -/
theorem moveKeyframeImpl_noop_when_guard_fails_witness :
    (sampleChannel.moveKeyframeImpl (some 1) 20).keys.entries = [(0, 0), (10, 1), (20, 2)] ∧
    (sampleChannel.moveKeyframeImpl (some 1) 20).requested = [] ∧
    sampleChannel.moveKeyframeImpl (some 1) 20 = sampleChannel ∧
    sampleChannel.moveKeyframeImpl (some 1) (sampleChannel.time 1) = sampleChannel :=
  ⟨by decide, by decide,
    (moveKeyframeImpl_noop_when_guard_fails sampleChannel 20).2.1 (some 1) (by decide),
    (moveKeyframeImpl_noop_when_guard_fails sampleChannel 20).2.2.1 1 (by decide)⟩

/-! ## Rows -/

theorem keyframeAtRowL_natCast (l : List (Int × Nat)) (n : Nat) :
    keyframeAtRowL l (n : Int) = l[n]?.map Prod.snd := by
  induction l generalizing n with
  | nil => simp [keyframeAtRowL]
  | cons e rest ih =>
    cases n with
    | zero => simp [keyframeAtRowL]
    | succ m =>
      unfold keyframeAtRowL
      have h1 : ¬ (((m + 1 : Nat) : Int) ≤ 0) := by omega
      have h2 : ((m + 1 : Nat) : Int) - 1 = (m : Int) := by omega
      rw [if_neg h1, h2, ih m]
      simp

theorem keyframeAtRowL_of_nonpos (l : List (Int × Nat)) (r : Int) (hr : r ≤ 0) :
    keyframeAtRowL l r = keyframeAtRowL l 0 := by
  cases l with
  | nil => rfl
  | cons e rest => simp [keyframeAtRowL, hr]

theorem keyframeAtRowL_of_length_le (l : List (Int × Nat)) (r : Int)
    (hr : (l.length : Int) ≤ r) : keyframeAtRowL l r = none := by
  obtain ⟨n, hn⟩ := Int.eq_ofNat_of_zero_le (le_trans (Int.ofNat_nonneg _) hr)
  rw [hn, keyframeAtRowL_natCast]
  have : l.length ≤ n := by omega
  simp [this]

theorem rowIndexOfL_of_not_mem (l : List (Int × Nat)) (kf : KisKeyframeSP) (row : Int)
    (h : ∀ e ∈ l, some e.2 ≠ kf) : rowIndexOfL l kf row = -1 := by
  induction l generalizing row with
  | nil => rfl
  | cons e rest ih =>
    unfold rowIndexOfL
    rw [if_neg (h e (List.mem_cons_self _ _))]
    exact ih _ (fun x hx => h x (List.mem_cons_of_mem _ hx))

theorem rowIndexOfL_of_mem (l : List (Int × Nat)) (kf : KisKeyframeSP) (row : Int)
    (h : ∃ e ∈ l, some e.2 = kf) :
    ∃ n : Nat, n < l.length ∧ rowIndexOfL l kf row = row + n ∧ l[n]?.map Prod.snd = kf := by
  induction l generalizing row with
  | nil =>
    obtain ⟨e, he, _⟩ := h
    exact absurd he (List.not_mem_nil _)
  | cons e rest ih =>
    unfold rowIndexOfL
    by_cases hek : some e.2 = kf
    · exact ⟨0, by simp, by simp [hek], by simpa using hek⟩
    · obtain ⟨x, hx, hxk⟩ := h
      rcases List.mem_cons.1 hx with h1 | h1
      · rw [h1] at hxk
        exact absurd hxk hek
      · obtain ⟨n, hn, hidx, hget⟩ := ih (row + 1) ⟨x, h1, hxk⟩
        refine ⟨n + 1, by simp [hn], ?_, by simpa using hget⟩
        rw [if_neg hek, hidx]
        push_cast
        omega

theorem rowIndexOfL_getElem (l : List (Int × Nat))
    (hinj : l.Pairwise (fun a b => a.2 ≠ b.2)) (n : Nat) (e : Int × Nat) (row : Int)
    (h : l[n]? = some e) : rowIndexOfL l (some e.2) row = row + n := by
  induction l generalizing n row with
  | nil => simp at h
  | cons a rest ih =>
    rw [List.pairwise_cons] at hinj
    unfold rowIndexOfL
    cases n with
    | zero =>
      simp only [List.getElem?_cons_zero, Option.some.injEq] at h
      rw [h]
      simp
    | succ m =>
      simp only [List.getElem?_cons_succ] at h
      have hem : e ∈ rest := List.mem_iff_getElem?.2 ⟨m, h⟩
      have hne : ¬ (some a.2 = some e.2) := by
        intro hcon
        exact hinj.1 e hem (Option.some.inj hcon)
      rw [if_neg hne, ih hinj.2 m (row + 1) h]
      push_cast
      omega

theorem getElem?_key_lt_succ {V : Type} {l : List (Int × V)}
    (hl : l.Pairwise (fun a b => a.1 < b.1)) (n : Nat) (e e2 : Int × V)
    (h1 : l[n]? = some e) (h2 : l[n + 1]? = some e2) : e.1 < e2.1 := by
  induction l generalizing n with
  | nil => simp at h1
  | cons a rest ih =>
    rw [List.pairwise_cons] at hl
    simp only [List.getElem?_cons_succ] at h2
    cases n with
    | zero =>
      simp only [List.getElem?_cons_zero, Option.some.injEq] at h1
      rw [← h1]
      exact hl.1 e2 (List.mem_iff_getElem?.2 ⟨0, h2⟩)
    | succ m =>
      simp only [List.getElem?_cons_succ] at h1
      exact ih hl.2 m h1 h2

theorem stored_pointers_distinct (c : KisKeyframeChannel) (hc : c.KeyTimeConsistent) :
    c.keys.entries.Pairwise (fun a b => a.2 ≠ b.2) := by
  refine List.Pairwise.imp_of_mem ?_ c.keys.ordered
  intro a b ha hb hlt heq
  have h1 := hc a ha
  have h2 := hc b hb
  rw [heq, h2] at h1
  omega

/-- C22: on a channel whose entries are stored under their keyframes' times,
rows number the keyframes in ascending time order from 0 and row lookup
inverts row indexing: for a keyframe `k` of the channel,
`0 <= keyframeRowIndexOf(k) < keyframeCount()` and
`keyframeAtRow(keyframeRowIndexOf(k))` is `k`; for a row `r` with
`0 <= r < keyframeCount()`, `keyframeAtRow(r)` is a keyframe whose row index is
`r`, and its time is below that of `keyframeAtRow(r + 1)` when `r + 1` is a
valid row too. -/
theorem rows_number_keyframes_by_time (c : KisKeyframeChannel) (hc : c.KeyTimeConsistent) :
    (∀ k : Nat, (∃ e ∈ c.keys.entries, e.2 = k) →
      0 ≤ c.keyframeRowIndexOf (some k) ∧ c.keyframeRowIndexOf (some k) < c.keyframeCount ∧
      c.keyframeAtRow (c.keyframeRowIndexOf (some k)) = some k) ∧
    (∀ r : Int, 0 ≤ r → r < c.keyframeCount →
      ∃ k, c.keyframeAtRow r = some k ∧ c.keyframeRowIndexOf (some k) = r ∧
        (r + 1 < c.keyframeCount →
          ∃ k2, c.keyframeAtRow (r + 1) = some k2 ∧ c.time k < c.time k2)) := by
  constructor
  · rintro k ⟨e, he, hek⟩
    obtain ⟨n, hn, hidx, hget⟩ :=
      rowIndexOfL_of_mem c.keys.entries (some k) 0 ⟨e, he, by rw [hek]⟩
    unfold keyframeRowIndexOf keyframeAtRow keyframeCount QMap.count
    rw [hidx]
    refine ⟨by omega, by omega, ?_⟩
    rw [zero_add, keyframeAtRowL_natCast]
    exact hget
  · intro r hr0 hrlt
    unfold keyframeCount QMap.count at hrlt
    obtain ⟨n, hn⟩ := Int.eq_ofNat_of_zero_le hr0
    subst hn
    have hnlt : n < c.keys.entries.length := by omega
    have hget : c.keys.entries[n]? = some c.keys.entries[n] := List.getElem?_eq_getElem hnlt
    have hem : c.keys.entries[n] ∈ c.keys.entries := List.getElem_mem hnlt
    refine ⟨c.keys.entries[n].2, ?_, ?_, ?_⟩
    · unfold keyframeAtRow
      rw [keyframeAtRowL_natCast, hget]
      rfl
    · unfold keyframeRowIndexOf
      rw [rowIndexOfL_getElem _ (stored_pointers_distinct c hc) n _ 0 hget]
      omega
    · intro hr1
      unfold keyframeCount QMap.count at hr1
      have hn1 : n + 1 < c.keys.entries.length := by omega
      have hget1 : c.keys.entries[n + 1]? = some c.keys.entries[n + 1] :=
        List.getElem?_eq_getElem hn1
      have hem1 : c.keys.entries[n + 1] ∈ c.keys.entries := List.getElem_mem hn1
      refine ⟨c.keys.entries[n + 1].2, ?_, ?_⟩
      · unfold keyframeAtRow
        have : ((n : Int) + 1) = ((n + 1 : Nat) : Int) := by omega
        rw [this, keyframeAtRowL_natCast, hget1]
        rfl
      · rw [hc _ hem, hc _ hem1]
        exact getElem?_key_lt_succ c.keys.ordered n _ _ hget hget1

/-- Witness of C22 on the sample channel: the keyframe at time 10 has row 1,
and row 1 holds it. -/
theorem rows_number_keyframes_by_time_witness :
    sampleChannel.keyframeRowIndexOf (some 1) = 1 ∧ sampleChannel.keyframeAtRow 1 = some 1 ∧
    (∀ k : Nat, (∃ e ∈ sampleChannel.keys.entries, e.2 = k) →
      0 ≤ sampleChannel.keyframeRowIndexOf (some k) ∧
      sampleChannel.keyframeRowIndexOf (some k) < sampleChannel.keyframeCount ∧
      sampleChannel.keyframeAtRow (sampleChannel.keyframeRowIndexOf (some k)) = some k) :=
  ⟨by decide, by decide, (rows_number_keyframes_by_time sampleChannel (by decide)).1⟩

/-- Counterexample to C23: on the sample channel the row -1, which
`keyframeRowIndexOf` returns for a keyframe that is not stored, makes
`keyframeAtRow` return the first keyframe, not the null keyframe. -/
theorem keyframeAtRow_negative_row_is_first_keyframe :
    sampleChannel.keyframeRowIndexOf (some 7) = -1 ∧
    sampleChannel.keyframeAtRow (sampleChannel.keyframeRowIndexOf (some 7)) = some 0 ∧
    ¬ (∀ r : Int, (r < 0 ∨ sampleChannel.keyframeCount ≤ r) →
      sampleChannel.keyframeAtRow r = none) := by
  refine ⟨by decide, by decide, ?_⟩
  intro h
  have := h (-1) (Or.inl (by decide))
  exact absurd this (by decide)

/-- C23, amended: `keyframeRowIndexOf(k)` returns -1 exactly when `k` is not a
keyframe of the channel; `keyframeAtRow(r)` returns the null keyframe for every
`r >= keyframeCount()`, and on a channel without keyframes for every `r`; for
`r < 0` it returns what it returns for row 0, the first keyframe of a channel
that has one. -/
theorem rows_not_found_and_past_the_end (c : KisKeyframeChannel) :
    (∀ kf : KisKeyframeSP,
      c.keyframeRowIndexOf kf = -1 ↔ ¬ ∃ e ∈ c.keys.entries, some e.2 = kf) ∧
    (∀ r : Int, c.keyframeCount ≤ r → c.keyframeAtRow r = none) ∧
    (c.keyframeCount = 0 → ∀ r : Int, c.keyframeAtRow r = none) ∧
    (∀ r : Int, r < 0 → c.keyframeAtRow r = c.keyframeAtRow 0) ∧
    (∀ e ∈ c.keys.entries, (∀ x ∈ c.keys.entries, e.1 ≤ x.1) →
      ∀ r : Int, r ≤ 0 → c.keyframeAtRow r = some e.2) := by
  refine ⟨?_, ?_, ?_, ?_, ?_⟩
  · intro kf
    unfold keyframeRowIndexOf
    constructor
    · intro hidx hex
      obtain ⟨n, _, hn, _⟩ := rowIndexOfL_of_mem c.keys.entries kf 0 hex
      rw [hn] at hidx
      omega
    · intro hno
      apply rowIndexOfL_of_not_mem
      intro e he hek
      exact hno ⟨e, he, hek⟩
  · intro r hr
    exact keyframeAtRowL_of_length_le _ r hr
  · intro h0 r
    unfold keyframeCount QMap.count at h0
    have hnil : c.keys.entries = [] := List.length_eq_zero.1 (by omega)
    unfold keyframeAtRow
    rw [hnil]
    rfl
  · intro r hr
    exact keyframeAtRowL_of_nonpos _ r (by omega)
  · intro e he hmin r hr
    unfold keyframeAtRow
    cases hl : c.keys.entries with
    | nil =>
      rw [hl] at he
      exact absurd he (List.not_mem_nil _)
    | cons a rest =>
      have ham : a ∈ c.keys.entries := by rw [hl]; exact List.mem_cons_self _ _
      have hae : a = e := by
        apply key_unique c.keys.ordered ham he
        have h1 := hmin a ham
        have hord := c.keys.ordered
        rw [hl, List.pairwise_cons] at hord
        rw [hl] at he
        rcases List.mem_cons.1 he with h2 | h2
        · rw [h2]
        · have := hord.1 e h2
          omega
      simp [keyframeAtRowL, hr, hae]

/-- Witness of C23, amended, on the sample channel: a keyframe that is not
stored has row index -1, row 3 is past the end, and row -1 yields the first
keyframe. -/
theorem rows_not_found_and_past_the_end_witness :
    sampleChannel.keyframeRowIndexOf (some 7) = -1 ∧
    sampleChannel.keyframeAtRow 3 = none ∧
    sampleChannel.keyframeAtRow (-1) = sampleChannel.keyframeAtRow 0 ∧
    sampleChannel.keyframeAtRow (-1) = some 0 :=
  ⟨((rows_not_found_and_past_the_end sampleChannel).1 (some 7)).2 (by decide),
    (rows_not_found_and_past_the_end sampleChannel).2.1 3 (by decide),
    (rows_not_found_and_past_the_end sampleChannel).2.2.2.1 (-1) (by decide),
    (rows_not_found_and_past_the_end sampleChannel).2.2.2.2 (0, 0) (by decide) (by decide)
      (-1) (by decide)⟩

/-! ## First and last keyframe -/

theorem getElem?_last_greatest {V : Type} {l : List (Int × V)}
    (hl : l.Pairwise (fun a b => a.1 < b.1)) (hne : l ≠ []) :
    ∃ e ∈ l, l[l.length - 1]? = some e ∧ ∀ x ∈ l, x.1 ≤ e.1 := by
  induction l with
  | nil => exact absurd rfl hne
  | cons a rest ih =>
    rw [List.pairwise_cons] at hl
    by_cases hrest : rest = []
    · refine ⟨a, List.mem_cons_self _ _, by simp [hrest], ?_⟩
      intro x hx
      rw [hrest] at hx
      rw [List.mem_singleton.1 hx]
    · obtain ⟨e, hem, hget, hmax⟩ := ih hl.2 hrest
      have hpos : 0 < rest.length := List.length_pos.2 hrest
      refine ⟨e, List.mem_cons_of_mem _ hem, ?_, ?_⟩
      · have : (a :: rest).length - 1 = (rest.length - 1) + 1 := by
          simp only [List.length_cons]
          omega
        rw [this, List.getElem?_cons_succ]
        exact hget
      · intro x hx
        rcases List.mem_cons.1 hx with h1 | h1
        · rw [h1]
          exact le_of_lt (hl.1 e hem)
        · exact hmax x h1

/-- On a channel with at least one keyframe, `firstKeyframe()` is the keyframe
under the smallest key and `lastKeyframe()` the keyframe under the greatest. -/
theorem firstKeyframe_lastKeyframe_of_nonempty (c : KisKeyframeChannel)
    (hne : c.keys.entries ≠ []) :
    (∃ e ∈ c.keys.entries, c.firstKeyframe = some (some e.2) ∧
      ∀ x ∈ c.keys.entries, e.1 ≤ x.1) ∧
    (∃ e ∈ c.keys.entries, c.lastKeyframe = some e.2 ∧
      ∀ x ∈ c.keys.entries, x.1 ≤ e.1) := by
  constructor
  · have hord := c.keys.ordered
    unfold firstKeyframe
    cases hl : c.keys.entries with
    | nil => exact absurd hl hne
    | cons a rest =>
      rw [hl, List.pairwise_cons] at hord
      refine ⟨a, List.mem_cons_self _ _, rfl, ?_⟩
      intro x hx
      rcases List.mem_cons.1 hx with h1 | h1
      · rw [h1]
      · exact le_of_lt (hord.1 x h1)
  · obtain ⟨e, hem, hget, hmax⟩ := getElem?_last_greatest c.keys.ordered hne
    refine ⟨e, hem, ?_, hmax⟩
    unfold lastKeyframe QMap.isEmpty QMap.value QMap.constEnd
    simp [hne, hget]

/-- C24 at its failing input: on a channel without keyframes `lastKeyframe()`
returns the null keyframe, but `firstKeyframe()` has no defined result (the
outer `none`), because it evaluates `first()` on the empty map.  On the sample
channel both return a keyframe: the one at time 0 and the one at time 20. -/
theorem firstKeyframe_undefined_without_keyframes :
    emptyChannel.keys.entries = [] ∧
    emptyChannel.firstKeyframe = none ∧
    emptyChannel.lastKeyframe = none ∧
    sampleChannel.firstKeyframe = some (some 0) ∧
    sampleChannel.lastKeyframe = some 2 := by
  refine ⟨rfl, rfl, ?_, ?_, ?_⟩ <;> decide

end KisKeyframeChannel

/-! ## The visual rectangle of a keyframe in the curves view -/

theorem truncToInt_lt_add_one (q : ℚ) : (truncToInt q : ℚ) < q + 1 := by
  unfold truncToInt
  split_ifs with h
  · have := Int.floor_le q
    linarith
  · exact Int.ceil_lt_add_one q

theorem sub_one_lt_truncToInt (q : ℚ) : q - 1 < (truncToInt q : ℚ) := by
  unfold truncToInt
  split_ifs with h
  · exact Int.sub_one_lt_floor q
  · have := Int.le_ceil q
    linarith

theorem truncToInt_sub_radius_le (m v : ℚ) (h : m ≤ v) :
    (truncToInt (m - (NODE_RENDER_RADIUS : ℚ)) : ℚ) ≤ v := by
  have h1 := truncToInt_lt_add_one (m - (NODE_RENDER_RADIUS : ℚ))
  have h2 : ((NODE_RENDER_RADIUS : Int) : ℚ) = 2 := by norm_num [NODE_RENDER_RADIUS]
  rw [h2] at h1 ⊢
  linarith

theorem le_truncToInt_add_radius (m v : ℚ) (h : v ≤ m) :
    v ≤ (truncToInt (m + (NODE_RENDER_RADIUS : ℚ)) : ℚ) := by
  have h1 := sub_one_lt_truncToInt (m + (NODE_RENDER_RADIUS : ℚ))
  have h2 : ((NODE_RENDER_RADIUS : Int) : ℚ) = 2 := by norm_num [NODE_RENDER_RADIUS]
  rw [h2] at h1 ⊢
  linarith

namespace KisAnimationCurvesKeyframeDelegate

/-- Counterexample to C25: with the right tangent (-3, 0) the right handle lies
at x = 75, left of the rectangle, which spans x = 93 .. 107. -/
theorem visualRect_misses_right_handle_pointing_left :
    sampleDelegate.visualRect ⟨0, 10⟩ leftwardData = ⟨93, 48, 107, 52⟩ ∧
    ((sampleDelegate.nodeCenter ⟨0, 10⟩ leftwardData false).add
      (sampleDelegate.rightHandle leftwardData)).x = 75 ∧
    ¬ (sampleDelegate.visualRect ⟨0, 10⟩ leftwardData).containsF
      ((sampleDelegate.nodeCenter ⟨0, 10⟩ leftwardData false).add
        (sampleDelegate.rightHandle leftwardData)) := by
  have hdiv : Int.tdiv 10 2 = 5 := by decide
  have hrect : sampleDelegate.visualRect ⟨0, 10⟩ leftwardData = ⟨93, 48, 107, 52⟩ := by
    norm_num [visualRect, nodeCenter, leftHandle, rightHandle, sampleDelegate, leftwardData,
      QPointF.add, truncToInt, NODE_RENDER_RADIUS, hdiv]
  refine ⟨hrect, ?_, ?_⟩
  · norm_num [nodeCenter, rightHandle, sampleDelegate, leftwardData, QPointF.add, hdiv]
  · rw [hrect]
    norm_num [QRect.containsF, nodeCenter, rightHandle, sampleDelegate, leftwardData,
      QPointF.add, hdiv]

/-- C25, amended: the rectangle returned by `visualRect(index)` contains the
node centre; it contains the left handle position `centre + leftHandle(index)`
whenever the x component of `leftHandle(index)` is `<= 0`, and the right handle
position `centre + rightHandle(index)` whenever the x component of
`rightHandle(index)` is `>= 0`, whatever the y components of the tangents
(exact rational coordinates, truncated to `int` as in the code). -/
theorem visualRect_contains_centre_and_outward_handles
    (d : KisAnimationCurvesKeyframeDelegate) (index : QModelIndex) (data : IndexData) :
    (d.visualRect index data).containsF (d.nodeCenter index data false) ∧
    ((d.leftHandle data).x ≤ 0 →
      (d.visualRect index data).containsF
        ((d.nodeCenter index data false).add (d.leftHandle data))) ∧
    (0 ≤ (d.rightHandle data).x →
      (d.visualRect index data).containsF
        ((d.nodeCenter index data false).add (d.rightHandle data))) := by
  generalize hcen : d.nodeCenter index data false = center
  generalize hlh : d.leftHandle data = lh
  generalize hrh : d.rightHandle data = rh
  have hrect : d.visualRect index data =
      ⟨truncToInt (min center.x (center.add lh).x - (NODE_RENDER_RADIUS : ℚ)),
        truncToInt (min center.y (min (center.add lh).y (center.add rh).y)
          - (NODE_RENDER_RADIUS : ℚ)),
        truncToInt (max center.x (center.add rh).x + (NODE_RENDER_RADIUS : ℚ)),
        truncToInt (max center.y (max (center.add lh).y (center.add rh).y)
          + (NODE_RENDER_RADIUS : ℚ))⟩ := by
    unfold visualRect
    simp only [hcen, hlh, hrh]
  rw [hrect]
  unfold QRect.containsF
  simp only [QPointF.add]
  refine ⟨⟨?_, ?_, ?_, ?_⟩, fun hl => ⟨?_, ?_, ?_, ?_⟩, fun hr => ⟨?_, ?_, ?_, ?_⟩⟩
  · exact truncToInt_sub_radius_le _ _ (min_le_left _ _)
  · exact le_truncToInt_add_radius _ _ (le_max_left _ _)
  · exact truncToInt_sub_radius_le _ _ (min_le_left _ _)
  · exact le_truncToInt_add_radius _ _ (le_max_left _ _)
  · exact truncToInt_sub_radius_le _ _ (min_le_right _ _)
  · apply le_truncToInt_add_radius
    exact le_trans (by linarith) (le_max_left _ _)
  · exact truncToInt_sub_radius_le _ _
      (le_trans (min_le_right _ _) (min_le_left _ _))
  · exact le_truncToInt_add_radius _ _
      (le_trans (le_max_left _ _) (le_max_right _ _))
  · apply truncToInt_sub_radius_le
    exact le_trans (min_le_left _ _) (by linarith)
  · exact le_truncToInt_add_radius _ _ (le_max_right _ _)
  · exact truncToInt_sub_radius_le _ _
      (le_trans (min_le_right _ _) (min_le_right _ _))
  · exact le_truncToInt_add_radius _ _
      (le_trans (le_max_right _ _) (le_max_right _ _))

/-- Witness of C25, amended: with the left tangent (-1, 3) and the right
tangent (2, -4) the rectangle contains both handle positions. -/
theorem visualRect_contains_centre_and_outward_handles_witness :
    (sampleDelegate.leftHandle outwardData).x ≤ 0 ∧
    0 ≤ (sampleDelegate.rightHandle outwardData).x ∧
    (sampleDelegate.visualRect ⟨0, 10⟩ outwardData).containsF
      ((sampleDelegate.nodeCenter ⟨0, 10⟩ outwardData false).add
        (sampleDelegate.leftHandle outwardData)) ∧
    (sampleDelegate.visualRect ⟨0, 10⟩ outwardData).containsF
      ((sampleDelegate.nodeCenter ⟨0, 10⟩ outwardData false).add
        (sampleDelegate.rightHandle outwardData)) :=
  ⟨by norm_num [leftHandle, sampleDelegate, outwardData],
    by norm_num [rightHandle, sampleDelegate, outwardData],
    (visualRect_contains_centre_and_outward_handles sampleDelegate ⟨0, 10⟩ outwardData).2.1
      (by norm_num [leftHandle, sampleDelegate, outwardData]),
    (visualRect_contains_centre_and_outward_handles sampleDelegate ⟨0, 10⟩ outwardData).2.2
      (by norm_num [rightHandle, sampleDelegate, outwardData])⟩

end KisAnimationCurvesKeyframeDelegate

end Krita
